import Mathlib

/-!
# Wxorer/calculator: the expression pipeline of `main.go`

A shallow embedding of `Calc`, `parseExpression`, `priority`, `toPostfix` and
`calculatePostfix` (identical in `main.go` and `cmd/calc_service/main.go`) and of the
error switch of `calculateHandler`, followed by the properties proved about them.

Conventions of the embedding.

* A Go `string` is a sequence of bytes.  It is embedded as a `List Char` whose elements
  are the bytes of the string (the code point of an element is the byte value), so that
  `expr[i]` is the `i`-th element and `string(char)` is that element as a one-character
  string.
* A Go slice used as a stack (`stack = append(stack, x)`, `stack[len(stack)-1]`,
  `stack = stack[:len(stack)-1]`) is embedded as a list whose head is the top.
* `float64` is embedded as `Float64`, the IEEE-754 binary64 values with the default
  rounding (to nearest, ties to even), finite values being written as rationals.
* An `error` built by `errors.New` is embedded as a `CalcError`; `CalcError.Error`
  gives back its message.
-/

namespace Calculator

/-! ## float64 -/

/-- The values of Go's `float64` (IEEE-754 binary64): not-a-number, the two infinities,
the two zeros, and the non-zero finite values, written as the rational they denote. -/
inductive Float64 where
  | nan
  | inf (neg : Bool)
  | zero (neg : Bool)
  | fin (q : ℚ)
  deriving DecidableEq

namespace Float64

/-- The position of the leading binary digit of `n`, computed by halving at most `fuel`
times: `2 ^ log2Fuel n n ≤ n < 2 ^ (log2Fuel n n + 1)` for `n > 0`. -/
def log2Fuel : Nat → Nat → Nat
  | 0, _ => 0
  | fuel + 1, n => if n < 2 then 0 else log2Fuel fuel (n / 2) + 1

/-- Rounding of the positive rational `n / d` (`n`, `d` positive), taken with sign `neg`,
to the nearest binary64 value, ties to even: the result has a significand `m` of at most
53 bits and a quantum `2 ^ p` with `p ≥ -1074`; a result of `2 ^ 1024` or more is an
infinity and a result of `0` is a zero, both of the sign of the exact value. -/
def roundND (neg : Bool) (n d : Nat) : Float64 :=
  -- `e` is the binary exponent of `n / d`: `2 ^ e ≤ n / d < 2 ^ (e + 1)`
  let k : Int := (log2Fuel n n : Int) - (log2Fuel d d : Int)
  let ge : Bool := if 0 ≤ k then d * 2 ^ k.toNat ≤ n else d ≤ n * 2 ^ (-k).toNat
  let e : Int := if ge then k else k - 1
  let p : Int := max (e - 52) (-1074)
  -- `n / d = (num / den) * 2 ^ p`
  let num : Nat := if 0 ≤ p then n else n * 2 ^ (-p).toNat
  let den : Nat := if 0 ≤ p then d * 2 ^ p.toNat else d
  let m : Nat := num / den
  let r : Nat := num % den
  let m' : Nat :=
    if 2 * r < den then m
    else if den < 2 * r then m + 1
    else if m % 2 = 0 then m else m + 1
  if 971 < p ∨ (p = 971 ∧ 2 ^ 53 ≤ m') then inf neg
  else if m' = 0 then zero neg
  else
    let a : Int := if neg then -(m' : Int) else (m' : Int)
    fin (if 0 ≤ p then mkRat (a * 2 ^ p.toNat) 1 else mkRat a (2 ^ (-p).toNat))

/-- Rounding of the exact rational `n / d` (`d` positive) to binary64; an exact zero is
`+0`. -/
def round (n : Int) (d : Nat) : Float64 :=
  if n = 0 then zero false else roundND (decide (n < 0)) n.natAbs d

/-- The sign bit (`true` for negative values; `false` for not-a-number). -/
def signBit : Float64 → Bool
  | nan => false
  | inf s => s
  | zero s => s
  | fin q => decide (q < 0)

/-- Unary minus, used by subtraction. -/
def neg : Float64 → Float64
  | nan => nan
  | inf s => inf (!s)
  | zero s => zero (!s)
  | fin q => fin (-q)

/-- Go's `a + b` on `float64`. -/
def add : Float64 → Float64 → Float64
  | nan, _ => nan
  | _, nan => nan
  | inf s, inf t => if s = t then inf s else nan
  | inf s, _ => inf s
  | _, inf t => inf t
  | zero s, zero t => zero (s && t)
  | zero _, fin q => fin q
  | fin q, zero _ => fin q
  | fin a, fin b => round (a.num * b.den + b.num * a.den) (a.den * b.den)

/-- Go's `a - b` on `float64`. -/
def sub (a b : Float64) : Float64 := add a (neg b)

/-- Go's `a * b` on `float64`. -/
def mul : Float64 → Float64 → Float64
  | nan, _ => nan
  | _, nan => nan
  | inf _, zero _ => nan
  | zero _, inf _ => nan
  | inf s, y => inf (xor s y.signBit)
  | x, inf t => inf (xor x.signBit t)
  | zero s, y => zero (xor s y.signBit)
  | x, zero t => zero (xor x.signBit t)
  | fin a, fin b => round (a.num * b.num) (a.den * b.den)

/-- Go's `a / b` on `float64`. -/
def div : Float64 → Float64 → Float64
  | nan, _ => nan
  | _, nan => nan
  | inf _, inf _ => nan
  | zero _, zero _ => nan
  | inf s, y => inf (xor s y.signBit)
  | x, inf t => zero (xor x.signBit t)
  | zero s, y => zero (xor s y.signBit)
  | x, zero t => inf (xor x.signBit t)
  | fin a, fin b => round (a.num * b.den * b.num.sign) (a.den * b.num.natAbs)

/-- Go's `b == 0` on `float64`: true of both zeros and of nothing else. -/
def isZero : Float64 → Bool
  | zero _ => true
  | _ => false

end Float64

/-! ## strconv.ParseFloat -/

/-- The two errors of `strconv.ParseFloat`. -/
inductive NumError where
  | ErrSyntax
  | ErrRange
  deriving DecidableEq

/-- The test `char >= '0' && char <= '9'`. -/
def isDigit (c : Char) : Bool := decide ('0' ≤ c) && decide (c ≤ '9')

/-- The decimal number written by the digits of `s` taken in order (other characters are
skipped), continuing from `acc`. -/
def digitsValue (acc : Nat) : List Char → Nat
  | [] => acc
  | c :: cs => if isDigit c then digitsValue (acc * 10 + (c.toNat - '0'.toNat)) cs
               else digitsValue acc cs

/-- `strconv.ParseFloat(s, 64)` on the strings the tokenizer hands to it, those made of
digits and `'.'`: such a string is well formed when it has at least one digit and at most
one `'.'`; its value is the decimal number it writes, rounded to the nearest `float64`,
and a value that rounds out of range gives the infinity together with `ErrRange`.  On a
syntax error the value is `0`.  (Go accepts further forms, with a sign, an exponent, a
hexadecimal prefix, underscores, `inf` or `nan`; no such string reaches `ParseFloat`
from `parseExpression`, and this embedding reports them as `ErrSyntax`.) -/
def ParseFloat (s : List Char) : Float64 × Option NumError :=
  if s.all (fun c => isDigit c || c == '.') && s.any isDigit && decide (s.count '.' ≤ 1) then
    let frac := (s.dropWhile (fun c => c != '.')).drop 1
    let n := digitsValue 0 s
    if n = 0 then (Float64.zero false, none)
    else
      match Float64.roundND false n (10 ^ frac.length) with
      | Float64.inf sg => (Float64.inf sg, some NumError.ErrRange)
      | v => (v, none)
  else (Float64.zero false, some NumError.ErrSyntax)

/-! ## Errors and outcomes -/

/-- The errors the pipeline builds with `errors.New`, one constructor for each message
(`InvalidNumber` and `UnsupportedCharacter` carry the text appended to the message). -/
inductive CalcError where
  | EmptyExpression
  | InvalidNumber (literal : List Char)
  | UnsupportedCharacter (char : Char)
  | UnbalancedParentheses
  | MalformedExpression
  | DivisionByZero
  deriving DecidableEq

/-- The message of an error, `err.Error()`. -/
def CalcError.Error : CalcError → String
  | EmptyExpression => "пустое выражение"
  | InvalidNumber literal => "некорректное число: " ++ String.mk literal
  | UnsupportedCharacter char => "неподдерживаемый символ: " ++ String.singleton char
  | UnbalancedParentheses => "несбалансированные скобки"
  | MalformedExpression => "некорректное выражение"
  | DivisionByZero => "деление на ноль"

/-- What a call gives: the returned value with a `nil` error, a non-`nil` error, or a
run-time panic (an index out of range). -/
inductive Outcome (α : Type) where
  | ok (v : α)
  | error (e : CalcError)
  | panic
  deriving DecidableEq

/-! ## The tokenizer -/

/-- The struct `token`. -/
structure token where
  value : List Char
  isNumber : Bool
  deriving DecidableEq

/-- The scan of `strings.ReplaceAll` for a non-empty `old`: `skip` counts the characters
of the current match that are still to be passed over. -/
def replaceAllFrom (old new : List Char) : Nat → List Char → List Char
  | _, [] => []
  | skip + 1, _ :: cs => replaceAllFrom old new skip cs
  | 0, c :: cs =>
    if old.isPrefixOf (c :: cs) then new ++ replaceAllFrom old new (old.length - 1) cs
    else c :: replaceAllFrom old new 0 cs

/-- `strings.ReplaceAll(s, old, new)` for a non-empty `old`: the non-overlapping
occurrences of `old` in `s`, found from left to right, are replaced by `new`. -/
def ReplaceAll (s old new : List Char) : List Char := replaceAllFrom old new 0 s

/-- The test `char == '+' || char == '-' || char == '*' || char == '/' || char == '(' ||
char == ')'` of `parseExpression`. -/
def isSymbol (char : Char) : Bool :=
  char == '+' || char == '-' || char == '*' || char == '/' || char == '(' || char == ')'

/-- The `for` loop of `parseExpression` and the flush that follows it, from the state
`tokens`, `currentNumber` on the characters of `expr` that are still to be read. -/
def parseLoop : List Char → List token → List Char → Outcome (List token)
  | [], tokens, currentNumber =>
    if currentNumber ≠ [] then
      if (ParseFloat currentNumber).2 ≠ none then
        Outcome.error (CalcError.InvalidNumber currentNumber)
      else Outcome.ok (tokens ++ [⟨currentNumber, true⟩])
    else Outcome.ok tokens
  | char :: rest, tokens, currentNumber =>
    if isDigit char || char == '.' then
      parseLoop rest tokens (currentNumber ++ [char])
    else if isSymbol char then
      if currentNumber ≠ [] then
        if (ParseFloat currentNumber).2 ≠ none then
          Outcome.error (CalcError.InvalidNumber currentNumber)
        else parseLoop rest (tokens ++ [⟨currentNumber, true⟩] ++ [⟨[char], false⟩]) []
      else parseLoop rest (tokens ++ [⟨[char], false⟩]) currentNumber
    else Outcome.error (CalcError.UnsupportedCharacter char)

/-- The function `parseExpression`; `expr[0]` panics on the empty string. -/
def parseExpression (expr : List Char) : Outcome (List token) :=
  match expr[0]? with
  | none => Outcome.panic
  | some c =>
    let expr := if c = '-' then '0' :: expr else expr
    let expr := ReplaceAll expr ['(', '-'] ['(', '0', '-']
    parseLoop expr [] []

/-! ## The converter -/

/-- The function `priority`. -/
def priority (op : List Char) : Nat :=
  if op = ['+'] ∨ op = ['-'] then 1
  else if op = ['*'] ∨ op = ['/'] then 2
  else 0

/-- The loop of `case ")"`: while the stack is not empty and its top is not `"("`, the top
is moved to `result`. -/
def popToParen : List token → List (List Char) → List token × List (List Char)
  | result, [] => (result, [])
  | result, top :: stack =>
    if top ≠ ['('] then popToParen (result ++ [⟨top, false⟩]) stack
    else (result, top :: stack)

/-- The loop of the `default` case: while the stack is not empty, its top is not `"("` and
`priority(top) >= priority(t.value)`, the top is moved to `result`. -/
def popHigher (value : List Char) : List token → List (List Char) →
    List token × List (List Char)
  | result, [] => (result, [])
  | result, top :: stack =>
    if top ≠ ['('] ∧ priority top ≥ priority value then
      popHigher value (result ++ [⟨top, false⟩]) stack
    else (result, top :: stack)

/-- The final loop of `toPostfix`: the stack is emptied into `result`, and a `"("` met on
the way is an error. -/
def drain : List token → List (List Char) → Outcome (List token)
  | result, [] => Outcome.ok result
  | result, top :: stack =>
    if top = ['('] then Outcome.error CalcError.UnbalancedParentheses
    else drain (result ++ [⟨top, false⟩]) stack

/-- The `for _, t := range tokens` loop of `toPostfix`, followed by the final loop, from
the state `result`, `stack`. -/
def toPostfixLoop : List token → List token → List (List Char) → Outcome (List token)
  | [], result, stack => drain result stack
  | t :: tokens, result, stack =>
    if t.isNumber then toPostfixLoop tokens (result ++ [t]) stack
    else if t.value = ['('] then toPostfixLoop tokens result (t.value :: stack)
    else if t.value = [')'] then
      match popToParen result stack with
      | (_, []) => Outcome.error CalcError.UnbalancedParentheses
      | (result, _ :: stack) => toPostfixLoop tokens result stack
    else
      match popHigher t.value result stack with
      | (result, stack) => toPostfixLoop tokens result (t.value :: stack)

/-- The function `toPostfix`. -/
def toPostfix (tokens : List token) : Outcome (List token) := toPostfixLoop tokens [] []

/-! ## The evaluator -/

/-- The `switch t.value` of `calculatePostfix` on the operands `a` and `b`: the new value
of `result`, or the division error; `result` keeps its zero value when no case applies. -/
def applyOperator (value : List Char) (a b : Float64) : Outcome Float64 :=
  if value = ['+'] then Outcome.ok (Float64.add a b)
  else if value = ['-'] then Outcome.ok (Float64.sub a b)
  else if value = ['*'] then Outcome.ok (Float64.mul a b)
  else if value = ['/'] then
    if b.isZero then Outcome.error CalcError.DivisionByZero
    else Outcome.ok (Float64.div a b)
  else Outcome.ok (Float64.zero false)

/-- The `for _, t := range tokens` loop of `calculatePostfix` and the final test, from the
state `stack`. -/
def calculateLoop : List token → List Float64 → Outcome Float64
  | [], [v] => Outcome.ok v
  | [], _ => Outcome.error CalcError.MalformedExpression
  | t :: tokens, stack =>
    if t.isNumber then calculateLoop tokens ((ParseFloat t.value).1 :: stack)
    else
      match stack with
      | b :: a :: stack =>
        match applyOperator t.value a b with
        | Outcome.ok result => calculateLoop tokens (result :: stack)
        | Outcome.error e => Outcome.error e
        | Outcome.panic => Outcome.panic
      | _ => Outcome.error CalcError.MalformedExpression

/-- The function `calculatePostfix`. -/
def calculatePostfix (tokens : List token) : Outcome Float64 := calculateLoop tokens []

/-! ## Calc -/

/-- The function `Calc`. -/
def Calc (expression : List Char) : Outcome Float64 :=
  let expression := ReplaceAll expression [' '] []
  if expression.length = 0 then Outcome.error CalcError.EmptyExpression
  else
    match parseExpression expression with
    | Outcome.error e => Outcome.error e
    | Outcome.panic => Outcome.panic
    | Outcome.ok tokens =>
      match toPostfix tokens with
      | Outcome.error e => Outcome.error e
      | Outcome.panic => Outcome.panic
      | Outcome.ok post => calculatePostfix post

/-! ## The handler of `cmd/calc_service` -/

/-- What `calculateHandler` writes: the status code and the body, a fixed text or the
result printed with `%v`. -/
inductive Response where
  | text (status : Nat) (body : String)
  | result (status : Nat) (value : Float64)
  deriving DecidableEq

/-- The function `calculateHandler` on a request of method `method` whose body is read as
`body` (`none` when `io.ReadAll` fails); `none` is a panic of the handler.  (`http.Error`
ends the text it writes with a newline.) -/
def calculateHandler (method : String) (body : Option (List Char)) : Option Response :=
  if method ≠ "POST" then some (Response.text 405 "Method not allowed\n")
  else
    match body with
    | none => some (Response.text 422 "Expression is not valid")
    | some expression =>
      match Calc expression with
      | Outcome.panic => none
      | Outcome.error err =>
        if err.Error = "неподдерживаемый символ" ∨ err.Error = "некорректное число" ∨
            err.Error = "некорректное выражение" ∨ err.Error = "несбалансированные скобки" ∨
            err.Error = "пустое выражение" then
          some (Response.text 422 "Expression is not valid")
        else some (Response.text 500 "Internal server error")
      | Outcome.ok result => some (Response.result 200 result)

/-! ## Definitions used to state the properties -/

/-- `SpaceEdit s s'`: the string `s'` is obtained from `s` by inserting or deleting space
characters (U+0020) at any positions, any number of times. -/
inductive SpaceEdit : List Char → List Char → Prop where
  | refl (s : List Char) : SpaceEdit s s
  | insert (s a b : List Char) : SpaceEdit s (a ++ b) → SpaceEdit s (a ++ ' ' :: b)
  | delete (s a b : List Char) : SpaceEdit s (a ++ ' ' :: b) → SpaceEdit s (a ++ b)

/-- The unary-minus rewrite of a string: its spaces are removed, then `"0"` is put in
front if the first character is `'-'`, then every `"(-"` is replaced by `"(0-"`. -/
def unaryRewrite (s : List Char) : List Char :=
  let t := s.filter (fun c => c != ' ')
  let t := if t.head? = some '-' then '0' :: t else t
  ReplaceAll t ['(', '-'] ['(', '0', '-']

/-- The token is the opening parenthesis `"("`. -/
def token.isOpen (t : token) : Bool := !t.isNumber && decide (t.value = ['('])

/-- The token is the closing parenthesis `")"`. -/
def token.isClose (t : token) : Bool := !t.isNumber && decide (t.value = [')'])

/-- The token is one of the four binary operators `+ - * /`. -/
def token.isOperator (t : token) : Bool :=
  !t.isNumber &&
    (decide (t.value = ['+']) || decide (t.value = ['-']) || decide (t.value = ['*']) ||
      decide (t.value = ['/']))

/-- The parentheses of a token sequence are not balanced: some prefix of the sequence
contains more `")"` than `"("`, or the whole sequence contains more `"("` than `")"`. -/
def Unbalanced (ts : List token) : Prop :=
  (∃ n, (ts.take n).countP token.isOpen < (ts.take n).countP token.isClose) ∨
    ts.countP token.isClose < ts.countP token.isOpen

/-- The count of a postfix sequence: `+1` for each number token and `-1` for each other
token, from left to right. -/
def runningCount (ts : List token) : Int :=
  (ts.countP (fun t => t.isNumber) : Int) - (ts.countP (fun t => !t.isNumber) : Int)

/-- The counting condition on a postfix sequence: every operator is met with a count of
at least 2, and the final count is exactly 1. -/
def CountOK (ts : List token) : Prop :=
  (∀ n, ∀ h : n < ts.length, (ts.get ⟨n, h⟩).isNumber = false → 2 ≤ runningCount (ts.take n)) ∧
    runningCount ts = 1

/-- The recogniser of the standard infix grammar on tokens, in which operands (a number,
or an expression in parentheses) and binary operators alternate: `depth` counts the
parentheses that are open, and `operand` tells whether an operand is expected next. -/
def infixScan : Nat → Bool → List token → Bool
  | depth, operand, [] => depth == 0 && !operand
  | depth, true, t :: ts =>
    if t.isNumber then infixScan depth false ts
    else if t.isOpen then infixScan (depth + 1) true ts
    else false
  | depth, false, t :: ts =>
    if t.isOperator then infixScan depth true ts
    else if t.isClose then decide (0 < depth) && infixScan (depth - 1) false ts
    else false

/-- The token sequence is a syntactically valid infix expression. -/
def validInfix (ts : List token) : Bool := infixScan 0 true ts

/-! ### Infix expressions and their standard evaluation -/

/-- The four binary operators. -/
inductive BinOp where
  | add
  | sub
  | mul
  | div
  deriving DecidableEq

/-- The character that writes an operator. -/
def BinOp.char : BinOp → Char
  | add => '+'
  | sub => '-'
  | mul => '*'
  | div => '/'

/-- The conventional precedence: `*` and `/` (2) bind tighter than `+` and `-` (1). -/
def BinOp.prec : BinOp → Nat
  | add => 1
  | sub => 1
  | mul => 2
  | div => 2

/-- The `float64` operation an operator stands for. -/
def BinOp.apply : BinOp → Float64 → Float64 → Float64
  | add => Float64.add
  | sub => Float64.sub
  | mul => Float64.mul
  | div => Float64.div

/-- A number literal: a run of digits and `'.'` that `strconv.ParseFloat` accepts (so it
has a digit, at most one `'.'`, and a value in the range of `float64`). -/
def isLiteral (l : List Char) : Bool :=
  l.all (fun c => isDigit c || c == '.') && decide ((ParseFloat l).2 = none)

/-- The syntax tree of an infix expression: a number literal, an expression in
parentheses, a unary minus in front of an expression, or a binary operation. -/
inductive Expr where
  | num (literal : List Char)
  | paren (e : Expr)
  | neg (e : Expr)
  | bin (op : BinOp) (l r : Expr)
  deriving DecidableEq

namespace Expr

/-- The binding level of the root of a tree: 2 for a literal or a parenthesised
expression, 1 for `*` and `/`, 0 for `+`, `-` and the unary minus. -/
def level : Expr → Nat
  | num _ => 2
  | paren _ => 2
  | neg _ => 0
  | bin op _ _ => op.prec - 1

/-- The tree is the one the conventional reading gives to its text: the literals are
number literals, the operands of `*` and `/` are not sums unless they are in
parentheses, the right operand of an operator does not have that operator's precedence
or a lower one at its root (left associativity), and a unary minus stands in front of a
product or an atom, at the start of the expression or of a parenthesised one. -/
def wellFormed : Expr → Bool
  | num l => isLiteral l
  | paren e => e.wellFormed
  | neg e => decide (1 ≤ e.level) && e.wellFormed
  | bin op l r =>
    decide (op.prec - 1 ≤ l.level) && decide (op.prec ≤ r.level) && l.wellFormed &&
      r.wellFormed

/-- The text of an expression. -/
def render : Expr → List Char
  | num l => l
  | paren e => '(' :: (e.render ++ [')'])
  | neg e => '-' :: e.render
  | bin op l r => l.render ++ op.char :: r.render

/-- The tokens of an expression, the unary minus being written `0 -`. -/
def tokens : Expr → List token
  | num l => [⟨l, true⟩]
  | paren e => ⟨['('], false⟩ :: (e.tokens ++ [⟨[')'], false⟩])
  | neg e => ⟨['0'], true⟩ :: ⟨['-'], false⟩ :: e.tokens
  | bin op l r => l.tokens ++ ⟨[op.char], false⟩ :: r.tokens

/-- The post-order traversal of the tree (operands, then operator), the unary minus being
the subtraction from the literal `0`. -/
def postorder : Expr → List token
  | num l => [⟨l, true⟩]
  | paren e => e.postorder
  | neg e => ⟨['0'], true⟩ :: (e.postorder ++ [⟨['-'], false⟩])
  | bin op l r => l.postorder ++ r.postorder ++ [⟨[op.char], false⟩]

/-- The value of the tree in `float64` arithmetic. -/
def value : Expr → Float64
  | num l => (ParseFloat l).1
  | paren e => e.value
  | neg e => Float64.sub (ParseFloat ['0']).1 e.value
  | bin op l r => op.apply l.value r.value

/-- Some division of the tree has a right operand whose value is exactly zero. -/
def zeroDivisor : Expr → Bool
  | num _ => false
  | paren e => e.zeroDivisor
  | neg e => e.zeroDivisor
  | bin op l r => l.zeroDivisor || r.zeroDivisor || (decide (op = BinOp.div) && r.value.isZero)

end Expr

/-! ### Expressions without parentheses -/

/-- A non-negative integer literal that `strconv.ParseFloat` accepts: a non-empty run of
digits whose value rounds into the range of `float64`. -/
def isIntLiteral (l : List Char) : Bool :=
  l.all isDigit && decide ((ParseFloat l).2 = none)

/-- The text `op1 n1 ... opk nk` of the operators and literals that follow the first
literal of an expression without parentheses. -/
def renderTail : List (BinOp × List Char) → List Char
  | [] => []
  | (op, n) :: rest => op.char :: (n ++ renderTail rest)

/-- The text `n0 op1 n1 ... opk nk`. -/
def renderFlat (n0 : List Char) (rest : List (BinOp × List Char)) : List Char :=
  n0 ++ renderTail rest

/-- The value of the terms read so far: the current term alone, or the sum or difference
`sum op cur` of the earlier terms and the current one. -/
def closeTerm : Option (Float64 × BinOp) → Float64 → Float64
  | none, cur => cur
  | some (sum, op), cur => op.apply sum cur

/-- The standard evaluation of `... op1 n1 ... opk nk` from left to right, `cur` being the
value of the term (product or quotient) read so far and `acc` the value of the terms
before it with the `+` or `-` that follows them: a `*` or `/` continues the term, a `+`
or `-` closes it. -/
def standardFrom (acc : Option (Float64 × BinOp)) (cur : Float64) :
    List (BinOp × List Char) → Float64
  | [] => closeTerm acc cur
  | (op, n) :: rest =>
    if op.prec = 2 then standardFrom acc (op.apply cur (ParseFloat n).1) rest
    else standardFrom (some (closeTerm acc cur, op)) (ParseFloat n).1 rest

/-- The standard evaluation of `n0 op1 n1 ... opk nk` in `float64` arithmetic: `*` and `/`
bind tighter than `+` and `-`, and operators of equal precedence apply from left to
right. -/
def evalStandard (n0 : List Char) (rest : List (BinOp × List Char)) : Float64 :=
  standardFrom none (ParseFloat n0).1 rest

/-- The integer literal `1` followed by 400 zeros, the number `10 ^ 400`. -/
def hugeLiteral : List Char := '1' :: List.replicate 400 '0'

/-! ## Auxiliary definitions of the proofs -/

/-- The depth of parentheses after `ts`, starting from depth `d`; `none` when a `")"` is
met at depth `0`. -/
def parenScan : Nat → List token → Option Nat
  | d, [] => some d
  | d, t :: ts =>
    if t.isOpen then parenScan (d + 1) ts
    else if t.isClose then (if d = 0 then none else parenScan (d - 1) ts)
    else parenScan d ts

/-- The length of the evaluator's stack after `ts`, starting from length `k`; `none` when
a token that is not a number is met with fewer than two values on the stack. -/
def countScan : Nat → List token → Option Nat
  | k, [] => some k
  | k, t :: ts =>
    if t.isNumber then countScan (k + 1) ts
    else if k < 2 then none
    else countScan (k - 1) ts

/-- The token is neither a number nor a parenthesis. -/
def token.isOther (t : token) : Bool := !t.isNumber && !t.isOpen && !t.isClose

/-- The shape of the tokens `parseExpression` builds: a number token, or a token that is
not a number and holds one of the six symbols. -/
def token.shape (t : token) : Prop :=
  t.isNumber = true ∨ (t.isNumber = false ∧ ∃ c, isSymbol c = true ∧ t.value = [c])

namespace Expr

/-- The operators of the tree that the converter still holds on its stack when the text
of the tree has been read, the top first. -/
def pending : Expr → List (List Char)
  | num _ => []
  | paren _ => []
  | neg e => e.pending ++ [['-']]
  | bin op _ r => r.pending ++ [[op.char]]

/-- The tokens the converter has put out when the text of the tree has been read. -/
def emitted : Expr → List token
  | num l => [⟨l, true⟩]
  | paren e => e.postorder
  | neg e => ⟨['0'], true⟩ :: e.emitted
  | bin _ l r => l.postorder ++ r.emitted

/-- The text of the tree starts with a unary minus. -/
def startsNeg : Expr → Bool
  | num _ => false
  | paren _ => false
  | neg _ => true
  | bin _ l _ => l.startsNeg

/-- The text of the tree after the rewrite of `parseExpression`: a unary minus is written
`0-`. -/
def rewritten : Expr → List Char
  | num l => l
  | paren e => '(' :: (e.rewritten ++ [')'])
  | neg e => '0' :: '-' :: e.rewritten
  | bin op l r => l.rewritten ++ op.char :: r.rewritten

/-- The evaluation of the tree, operands first and from left to right; `none` when a
division meets a zero divisor. -/
def eval : Expr → Option Float64
  | num l => some (ParseFloat l).1
  | paren e => e.eval
  | neg e =>
    match e.eval with
    | none => none
    | some b => some (Float64.sub (ParseFloat ['0']).1 b)
  | bin op l r =>
    match l.eval with
    | none => none
    | some a =>
      match r.eval with
      | none => none
      | some b => if op = BinOp.div ∧ b.isZero = true then none else some (op.apply a b)

end Expr

/-- The top of the converter's stack, when there is one, is `"("` or an operator of
priority at most `n`. -/
def stackBelow (n : Nat) (stack : List (List Char)) : Prop :=
  ∀ top ∈ stack.head?, top = ['('] ∨ priority top ≤ n

/-- The tree of the terms read so far. -/
def closeTree : Option (Expr × BinOp) → Expr → Expr
  | none, cur => cur
  | some (sum, op), cur => Expr.bin op sum cur

/-- The tree of `... op1 n1 ... opk nk`, built as `standardFrom` computes. -/
def treeFrom (acc : Option (Expr × BinOp)) (cur : Expr) : List (BinOp × List Char) → Expr
  | [] => closeTree acc cur
  | (op, n) :: rest =>
    if op.prec = 2 then treeFrom acc (Expr.bin op cur (Expr.num n)) rest
    else treeFrom (some (closeTree acc cur, op)) (Expr.num n) rest

/-! ### Tokens and runs of number characters -/

/-- The test `char >= '0' && char <= '9' || char == '.'` of `parseExpression`. -/
def isNumberChar (c : Char) : Bool := isDigit c || c == '.'

/-- The token invariant: a number token whose value is a non-empty string of digits with
at most one decimal point that `strconv.ParseFloat` accepts, or a token that is not a
number and whose value is exactly one of the six symbols `+ - * / ( )`. -/
def token.valid (t : token) : Prop :=
  (t.isNumber = true ∧ t.value ≠ [] ∧ (∀ c ∈ t.value, isDigit c = true ∨ c = '.') ∧
      t.value.count '.' ≤ 1 ∧ (ParseFloat t.value).2 = none) ∨
    (t.isNumber = false ∧
      (t.value = ['+'] ∨ t.value = ['-'] ∨ t.value = ['*'] ∨ t.value = ['/'] ∨
        t.value = ['('] ∨ t.value = [')']))

/-- The maximal runs of digit and `'.'` characters of a string, from left to right: the
non-empty pieces the string falls into when it is cut at every other character. -/
def maximalRuns (s : List Char) : List (List Char) :=
  (s.splitOnP (fun c => !isNumberChar c)).filter (fun l => !l.isEmpty)

namespace Expr

/-- The tree is the one the conventional reading gives to its text, whatever the values
of its literals: as `wellFormed`, but a literal only has to be a non-empty run of digits
and `'.'`. -/
def wellNested : Expr → Bool
  | num l => !l.isEmpty && l.all isNumberChar
  | paren e => e.wellNested
  | neg e => decide (1 ≤ e.level) && e.wellNested
  | bin op l r =>
    decide (op.prec - 1 ≤ l.level) && decide (op.prec ≤ r.level) && l.wellNested &&
      r.wellNested

end Expr

/-- In the string `pre`, `l` is a numeric literal closed by an operator or a parenthesis:
a maximal run of digits and `'.'` that is directly followed by one of the six symbols. -/
def ClosedRun (l pre : List Char) : Prop :=
  l ≠ [] ∧ (∀ x ∈ l, isNumberChar x = true) ∧
    ∃ a y b, pre = a ++ l ++ y :: b ∧ isSymbol y = true ∧
      (∀ z ∈ a.getLast?, isNumberChar z = false)

/-- The rewritten string of `parseExpression`: `expr` with `"0"` put in front if it starts
with `'-'`, then with every `"(-"` replaced by `"(0-"`. -/
def rewriteExpr (expr : List Char) : List Char :=
  ReplaceAll (if expr.head? = some '-' then '0' :: expr else expr) ['(', '-'] ['(', '0', '-']

/-- The run of digits and `'.'` does not parse as a float: `strconv.ParseFloat` returns an
error on it. -/
def invalidRun (l : List Char) : Bool := decide ((ParseFloat l).2 ≠ none)

/-- The maximal runs of digit and `'.'` characters of `cur ++ s`, `cur` being the run that
is open at the start of `s`. -/
def runsFrom : List Char → List Char → List (List Char)
  | cur, [] => if cur ≠ [] then [cur] else []
  | cur, c :: cs =>
    if isNumberChar c then runsFrom (cur ++ [c]) cs
    else if cur ≠ [] then cur :: runsFrom [] cs
    else runsFrom [] cs

/-! ## The pipeline with its index and slice expressions

The functions above read a stack by pattern matching.  The functions of this section
follow the source expression by expression: a stack is the Go slice itself, whose last
element is the top, and every index expression `s[i]` and slice expression `s[:n]` is
evaluated by `index` and `sliceTo`, which give `none` where Go panics. -/

/-- The index expression `s[i]` on a string or a slice; `none` is the run-time panic
"index out of range". -/
def index {α : Type} (s : List α) (i : Int) : Option α :=
  if 0 ≤ i ∧ i < s.length then s[i.toNat]? else none

/-- The slice expression `s[:n]`; `none` is the run-time panic "slice bounds out of
range". -/
def sliceTo {α : Type} (s : List α) (n : Int) : Option (List α) :=
  if 0 ≤ n ∧ n ≤ s.length then some (s.take n.toNat) else none

/-- The `for i := 0; i < len(expr); i++` loop of `parseExpression` from the index `i`,
with `char := expr[i]`, and the flush that follows the loop. -/
def parseLoopIndexed (expr : List Char) (i : Nat) (tokens : List token)
    (currentNumber : List Char) : Outcome (List token) :=
  if i < expr.length then
    match index expr i with
    | none => Outcome.panic
    | some char =>
      if isDigit char || char == '.' then
        parseLoopIndexed expr (i + 1) tokens (currentNumber ++ [char])
      else if isSymbol char then
        if currentNumber ≠ [] then
          if (ParseFloat currentNumber).2 ≠ none then
            Outcome.error (CalcError.InvalidNumber currentNumber)
          else
            parseLoopIndexed expr (i + 1)
              (tokens ++ [⟨currentNumber, true⟩] ++ [⟨[char], false⟩]) []
        else parseLoopIndexed expr (i + 1) (tokens ++ [⟨[char], false⟩]) currentNumber
      else Outcome.error (CalcError.UnsupportedCharacter char)
  else if currentNumber ≠ [] then
    if (ParseFloat currentNumber).2 ≠ none then
      Outcome.error (CalcError.InvalidNumber currentNumber)
    else Outcome.ok (tokens ++ [⟨currentNumber, true⟩])
  else Outcome.ok tokens
termination_by expr.length - i

/-- The function `parseExpression`, with `expr[0]`. -/
def parseExpressionIndexed (expr : List Char) : Outcome (List token) :=
  match index expr 0 with
  | none => Outcome.panic
  | some c =>
    let expr := if c = '-' then '0' :: expr else expr
    let expr := ReplaceAll expr ['(', '-'] ['(', '0', '-']
    parseLoopIndexed expr 0 [] []

/-- The loop `for len(stack) > 0 && stack[len(stack)-1] != "(" { ... }` of `case ")"`,
with `result = append(result, token{stack[len(stack)-1], false})` and
`stack = stack[:len(stack)-1]`. -/
def popToParenIndexed (result : List token) (stack : List (List Char)) :
    Outcome (List token × List (List Char)) :=
  if 0 < stack.length then
    match index stack ((stack.length : Int) - 1) with
    | none => Outcome.panic
    | some top =>
      if top ≠ ['('] then
        match index stack ((stack.length : Int) - 1),
          hs : sliceTo stack ((stack.length : Int) - 1) with
        | some top', some stack' => popToParenIndexed (result ++ [⟨top', false⟩]) stack'
        | _, _ => Outcome.panic
      else Outcome.ok (result, stack)
  else Outcome.ok (result, stack)
termination_by stack.length
decreasing_by
  unfold sliceTo at hs
  split at hs
  · simp only [Option.some.injEq] at hs
    rw [← hs, List.length_take]
    omega
  · exact Option.noConfusion hs

/-- The loop `for len(stack) > 0 && stack[len(stack)-1] != "(" &&
priority(stack[len(stack)-1]) >= priority(t.value) { ... }` of the `default` case. -/
def popHigherIndexed (value : List Char) (result : List token) (stack : List (List Char)) :
    Outcome (List token × List (List Char)) :=
  if 0 < stack.length then
    match index stack ((stack.length : Int) - 1) with
    | none => Outcome.panic
    | some top =>
      if top ≠ ['('] then
        match index stack ((stack.length : Int) - 1) with
        | none => Outcome.panic
        | some top2 =>
          if priority top2 ≥ priority value then
            match index stack ((stack.length : Int) - 1),
              hs : sliceTo stack ((stack.length : Int) - 1) with
            | some top', some stack' =>
              popHigherIndexed value (result ++ [⟨top', false⟩]) stack'
            | _, _ => Outcome.panic
          else Outcome.ok (result, stack)
      else Outcome.ok (result, stack)
  else Outcome.ok (result, stack)
termination_by stack.length
decreasing_by
  unfold sliceTo at hs
  split at hs
  · simp only [Option.some.injEq] at hs
    rw [← hs, List.length_take]
    omega
  · exact Option.noConfusion hs

/-- The final loop `for len(stack) > 0 { ... }` of `toPostfix`. -/
def drainIndexed (result : List token) (stack : List (List Char)) : Outcome (List token) :=
  if 0 < stack.length then
    match index stack ((stack.length : Int) - 1) with
    | none => Outcome.panic
    | some top =>
      if top = ['('] then Outcome.error CalcError.UnbalancedParentheses
      else
        match index stack ((stack.length : Int) - 1),
          hs : sliceTo stack ((stack.length : Int) - 1) with
        | some top', some stack' => drainIndexed (result ++ [⟨top', false⟩]) stack'
        | _, _ => Outcome.panic
  else Outcome.ok result
termination_by stack.length
decreasing_by
  unfold sliceTo at hs
  split at hs
  · simp only [Option.some.injEq] at hs
    rw [← hs, List.length_take]
    omega
  · exact Option.noConfusion hs

/-- The `for _, t := range tokens` loop of `toPostfix`, followed by the final loop. -/
def toPostfixLoopIndexed : List token → List token → List (List Char) → Outcome (List token)
  | [], result, stack => drainIndexed result stack
  | t :: tokens, result, stack =>
    if t.isNumber then toPostfixLoopIndexed tokens (result ++ [t]) stack
    else if t.value = ['('] then toPostfixLoopIndexed tokens result (stack ++ [t.value])
    else if t.value = [')'] then
      match popToParenIndexed result stack with
      | Outcome.panic => Outcome.panic
      | Outcome.error e => Outcome.error e
      | Outcome.ok (result, stack) =>
        if stack.length = 0 then Outcome.error CalcError.UnbalancedParentheses
        else
          match sliceTo stack ((stack.length : Int) - 1) with
          | none => Outcome.panic
          | some stack => toPostfixLoopIndexed tokens result stack
    else
      match popHigherIndexed t.value result stack with
      | Outcome.panic => Outcome.panic
      | Outcome.error e => Outcome.error e
      | Outcome.ok (result, stack) => toPostfixLoopIndexed tokens result (stack ++ [t.value])

/-- The function `toPostfix`, with its index and slice expressions. -/
def toPostfixIndexed (tokens : List token) : Outcome (List token) :=
  toPostfixLoopIndexed tokens [] []

/-- The `for _, t := range tokens` loop of `calculatePostfix` and the final test, with
`b := stack[len(stack)-1]`, `a := stack[len(stack)-2]`, `stack = stack[:len(stack)-2]`
and `stack[0]`. -/
def calculateLoopIndexed : List token → List Float64 → Outcome Float64
  | [], stack =>
    if stack.length ≠ 1 then Outcome.error CalcError.MalformedExpression
    else
      match index stack 0 with
      | none => Outcome.panic
      | some v => Outcome.ok v
  | t :: tokens, stack =>
    if t.isNumber then calculateLoopIndexed tokens (stack ++ [(ParseFloat t.value).1])
    else if stack.length < 2 then Outcome.error CalcError.MalformedExpression
    else
      match index stack ((stack.length : Int) - 1), index stack ((stack.length : Int) - 2),
        sliceTo stack ((stack.length : Int) - 2) with
      | some b, some a, some stack =>
        match applyOperator t.value a b with
        | Outcome.ok result => calculateLoopIndexed tokens (stack ++ [result])
        | Outcome.error e => Outcome.error e
        | Outcome.panic => Outcome.panic
      | _, _, _ => Outcome.panic

/-- The function `calculatePostfix`, with its index and slice expressions. -/
def calculatePostfixIndexed (tokens : List token) : Outcome Float64 :=
  calculateLoopIndexed tokens []

/-- The function `Calc`, over the functions of this section. -/
def CalcIndexed (expression : List Char) : Outcome Float64 :=
  let expression := ReplaceAll expression [' '] []
  if expression.length = 0 then Outcome.error CalcError.EmptyExpression
  else
    match parseExpressionIndexed expression with
    | Outcome.error e => Outcome.error e
    | Outcome.panic => Outcome.panic
    | Outcome.ok tokens =>
      match toPostfixIndexed tokens with
      | Outcome.error e => Outcome.error e
      | Outcome.panic => Outcome.panic
      | Outcome.ok post => calculatePostfixIndexed post

/-! ## The evaluator for any value of `strconv.ParseFloat`

`ParseFloat` above is `strconv.ParseFloat` on the strings of digits and `'.'`.  A token
sequence given to `calculatePostfix` directly may hold number tokens with other values
(`"1e2"`, `"-3"`), which Go parses as well.  `calculateLoopWith number` is the loop of
`calculatePostfix` in which `number v` stands for the value `num` that
`strconv.ParseFloat(v, 64)` returns: what holds for every `number` holds for the
function of the library. -/

/-- The `for _, t := range tokens` loop of `calculatePostfix` and the final test, from the
state `stack`, `number t.value` being the `num` of `num, _ := strconv.ParseFloat(t.value,
64)`. -/
def calculateLoopWith (number : List Char → Float64) :
    List token → List Float64 → Outcome Float64
  | [], [v] => Outcome.ok v
  | [], _ => Outcome.error CalcError.MalformedExpression
  | t :: tokens, stack =>
    if t.isNumber then calculateLoopWith number tokens (number t.value :: stack)
    else
      match stack with
      | b :: a :: stack =>
        match applyOperator t.value a b with
        | Outcome.ok result => calculateLoopWith number tokens (result :: stack)
        | Outcome.error e => Outcome.error e
        | Outcome.panic => Outcome.panic
      | _ => Outcome.error CalcError.MalformedExpression

/-- The function `calculatePostfix`, `number` being the value `strconv.ParseFloat`
returns. -/
def calculatePostfixWith (number : List Char → Float64) (tokens : List token) :
    Outcome Float64 :=
  calculateLoopWith number tokens []

/-! ### Divisions by zero in a postfix sequence -/

/-- The operator a token value writes, if it is one of `+ - * /`. -/
def BinOp.ofValue (value : List Char) : Option BinOp :=
  if value = ['+'] then some BinOp.add
  else if value = ['-'] then some BinOp.sub
  else if value = ['*'] then some BinOp.mul
  else if value = ['/'] then some BinOp.div
  else none

/-- Some division of a postfix sequence meets a divisor that is exactly zero, in the
stack reading of postfix notation: a number is pushed with its value `number`, an operator
replaces the two topmost values `a` (lower) and `b` (top) by `a op b`, and a division
whose `b` is zero is the one looked for.  `stack` holds the values read so far, the top
first; once an operator lacks an operand nothing more is read. -/
def meetsZeroDivisor (number : List Char → Float64) : List token → List Float64 → Bool
  | [], _ => false
  | t :: ts, stack =>
    if t.isNumber then meetsZeroDivisor number ts (number t.value :: stack)
    else
      match BinOp.ofValue t.value, stack with
      | some op, b :: a :: rest =>
        (decide (op = BinOp.div) && b.isZero) ||
          meetsZeroDivisor number ts (op.apply a b :: rest)
      | _, _ => false

/-! ### Characters and bytes -/

/-- The UTF-8 encoding of a character, each byte being written as the `Char` of its
value: this is how the character stands in a Go string, which `parseExpression` reads
byte by byte. -/
def utf8 (c : Char) : List Char :=
  if c.toNat < 0x80 then [c]
  else if c.toNat < 0x800 then
    [Char.ofNat (0xC0 + c.toNat / 64), Char.ofNat (0x80 + c.toNat % 64)]
  else if c.toNat < 0x10000 then
    [Char.ofNat (0xE0 + c.toNat / 4096), Char.ofNat (0x80 + c.toNat / 64 % 64),
      Char.ofNat (0x80 + c.toNat % 64)]
  else
    [Char.ofNat (0xF0 + c.toNat / 262144), Char.ofNat (0x80 + c.toNat / 4096 % 64),
      Char.ofNat (0x80 + c.toNat / 64 % 64), Char.ofNat (0x80 + c.toNat % 64)]

/-- The bytes of the Go string that holds a text. -/
def goBytes (text : List Char) : List Char := (text.map utf8).flatten

/-! ## Lemmas: the two rewrites of the input string -/

theorem replaceAll_space_nil : ReplaceAll [] [' '] [] = [] := rfl

theorem replaceAll_space_cons (c : Char) (cs : List Char) :
    ReplaceAll (c :: cs) [' '] [] =
      if c = ' ' then ReplaceAll cs [' '] [] else c :: ReplaceAll cs [' '] [] := by
  by_cases h : c = ' '
  · subst h; simp [ReplaceAll, replaceAllFrom, List.isPrefixOf]
  · have h' : ¬ (' ' = c) := fun e => h e.symm
    simp [ReplaceAll, replaceAllFrom, List.isPrefixOf, h, h']

/-- Removing the spaces with `strings.ReplaceAll` keeps exactly the other characters. -/
theorem replaceAll_space_eq_filter (s : List Char) :
    ReplaceAll s [' '] [] = s.filter (fun c => c != ' ') := by
  induction s with
  | nil => rfl
  | cons c cs ih =>
    rw [replaceAll_space_cons, ih]
    by_cases h : c = ' '
    · subst h; simp
    · simp [h]

theorem replaceAll_paren_nil : ReplaceAll [] ['(', '-'] ['(', '0', '-'] = [] := rfl

theorem replaceAll_paren_match (cs : List Char) :
    ReplaceAll ('(' :: '-' :: cs) ['(', '-'] ['(', '0', '-'] =
      '(' :: '0' :: '-' :: ReplaceAll cs ['(', '-'] ['(', '0', '-'] := by
  simp [ReplaceAll, replaceAllFrom, List.isPrefixOf]

theorem replaceAll_paren_other (c : Char) (cs : List Char) (h : c ≠ '(') :
    ReplaceAll (c :: cs) ['(', '-'] ['(', '0', '-'] =
      c :: ReplaceAll cs ['(', '-'] ['(', '0', '-'] := by
  have h' : ¬ ('(' = c) := fun e => h e.symm
  simp [ReplaceAll, replaceAllFrom, List.isPrefixOf, h']

theorem replaceAll_paren_open (cs : List Char) (h : cs.head? ≠ some '-') :
    ReplaceAll ('(' :: cs) ['(', '-'] ['(', '0', '-'] =
      '(' :: ReplaceAll cs ['(', '-'] ['(', '0', '-'] := by
  cases cs with
  | nil => simp [ReplaceAll, replaceAllFrom, List.isPrefixOf]
  | cons d ds =>
    have h' : ¬ ('-' = d) := by
      intro e; exact h (by simp [← e])
    simp [ReplaceAll, replaceAllFrom, List.isPrefixOf, h']

/-! ## Lemmas: the outcomes each stage can give -/

theorem parseLoop_outcome (expr : List Char) : ∀ (tokens : List token) (cur : List Char),
    (∃ ts, parseLoop expr tokens cur = Outcome.ok ts) ∨
    (∃ l, parseLoop expr tokens cur = Outcome.error (CalcError.InvalidNumber l)) ∨
    (∃ c, parseLoop expr tokens cur = Outcome.error (CalcError.UnsupportedCharacter c)) := by
  induction expr with
  | nil =>
    intro tokens cur
    unfold parseLoop
    split
    · split
      · exact Or.inr (Or.inl ⟨_, rfl⟩)
      · exact Or.inl ⟨_, rfl⟩
    · exact Or.inl ⟨_, rfl⟩
  | cons c cs ih =>
    intro tokens cur
    unfold parseLoop
    split
    · exact ih _ _
    · split
      · split
        · split
          · exact Or.inr (Or.inl ⟨_, rfl⟩)
          · exact ih _ _
        · exact ih _ _
      · exact Or.inr (Or.inr ⟨_, rfl⟩)

theorem drain_outcome (stack : List (List Char)) : ∀ (result : List token),
    (∃ r, drain result stack = Outcome.ok r) ∨
    drain result stack = Outcome.error CalcError.UnbalancedParentheses := by
  induction stack with
  | nil => intro result; exact Or.inl ⟨_, rfl⟩
  | cons top stack ih =>
    intro result
    unfold drain
    split
    · exact Or.inr rfl
    · exact ih _

theorem toPostfixLoop_outcome (tokens : List token) :
    ∀ (result : List token) (stack : List (List Char)),
    (∃ r, toPostfixLoop tokens result stack = Outcome.ok r) ∨
    toPostfixLoop tokens result stack = Outcome.error CalcError.UnbalancedParentheses := by
  induction tokens with
  | nil => intro result stack; unfold toPostfixLoop; exact drain_outcome _ _
  | cons t ts ih =>
    intro result stack
    unfold toPostfixLoop
    split
    · exact ih _ _
    · split
      · exact ih _ _
      · split
        · split
          · exact Or.inr rfl
          · exact ih _ _
        · exact ih _ _

theorem applyOperator_outcome (value : List Char) (a b : Float64) :
    (∃ r, applyOperator value a b = Outcome.ok r) ∨
    applyOperator value a b = Outcome.error CalcError.DivisionByZero := by
  unfold applyOperator
  split_ifs <;> first | exact Or.inl ⟨_, rfl⟩ | exact Or.inr rfl

theorem calculateLoop_outcome (tokens : List token) : ∀ (stack : List Float64),
    (∃ v, calculateLoop tokens stack = Outcome.ok v) ∨
    calculateLoop tokens stack = Outcome.error CalcError.MalformedExpression ∨
    calculateLoop tokens stack = Outcome.error CalcError.DivisionByZero := by
  induction tokens with
  | nil =>
    intro stack
    match stack with
    | [] => exact Or.inr (Or.inl rfl)
    | [v] => exact Or.inl ⟨v, rfl⟩
    | _ :: _ :: _ => exact Or.inr (Or.inl rfl)
  | cons t ts ih =>
    intro stack
    unfold calculateLoop
    split
    · exact ih _
    · match stack with
      | [] => exact Or.inr (Or.inl rfl)
      | [_] => exact Or.inr (Or.inl rfl)
      | b :: a :: rest =>
        simp only
        rcases applyOperator_outcome t.value a b with ⟨r, hr⟩ | hr
        · rw [hr]; exact ih _
        · rw [hr]; exact Or.inr (Or.inr rfl)

/-- The body of `Calc`, as an equation. -/
theorem Calc_eq (s : List Char) :
    Calc s =
      if (ReplaceAll s [' '] []).length = 0 then Outcome.error CalcError.EmptyExpression
      else
        match parseExpression (ReplaceAll s [' '] []) with
        | Outcome.error e => Outcome.error e
        | Outcome.panic => Outcome.panic
        | Outcome.ok tokens =>
          match toPostfix tokens with
          | Outcome.error e => Outcome.error e
          | Outcome.panic => Outcome.panic
          | Outcome.ok post => calculatePostfix post := rfl

theorem parseExpression_outcome (expr : List Char) (h : expr ≠ []) :
    (∃ ts, parseExpression expr = Outcome.ok ts) ∨
    (∃ l, parseExpression expr = Outcome.error (CalcError.InvalidNumber l)) ∨
    (∃ c, parseExpression expr = Outcome.error (CalcError.UnsupportedCharacter c)) := by
  cases expr with
  | nil => exact absurd rfl h
  | cons c cs =>
    unfold parseExpression
    simp only [List.getElem?_cons_zero]
    exact parseLoop_outcome _ _ _

/-- Every error of `Calc` other than the empty-expression one comes from a later stage. -/
theorem Calc_nonempty_outcome (s : List Char) (h : ReplaceAll s [' '] [] ≠ []) :
    (∃ v, Calc s = Outcome.ok v) ∨
    (∃ l, Calc s = Outcome.error (CalcError.InvalidNumber l)) ∨
    (∃ c, Calc s = Outcome.error (CalcError.UnsupportedCharacter c)) ∨
    Calc s = Outcome.error CalcError.UnbalancedParentheses ∨
    Calc s = Outcome.error CalcError.MalformedExpression ∨
    Calc s = Outcome.error CalcError.DivisionByZero := by
  rw [Calc_eq]
  have hlen : ¬ (ReplaceAll s [' '] []).length = 0 := by
    intro h0; exact h (List.length_eq_zero.mp h0)
  rw [if_neg hlen]
  rcases parseExpression_outcome _ h with ⟨ts, hts⟩ | ⟨l, hl⟩ | ⟨c, hc⟩
  · rw [hts]
    simp only
    rcases toPostfixLoop_outcome ts [] [] with ⟨r, hr⟩ | hr
    · unfold toPostfix; rw [hr]
      simp only
      rcases calculateLoop_outcome r [] with ⟨v, hv⟩ | hv | hv
      · exact Or.inl ⟨v, hv⟩
      · exact Or.inr (Or.inr (Or.inr (Or.inr (Or.inl hv))))
      · exact Or.inr (Or.inr (Or.inr (Or.inr (Or.inr hv))))
    · unfold toPostfix; rw [hr]
      exact Or.inr (Or.inr (Or.inr (Or.inl rfl)))
  · rw [hl]; exact Or.inr (Or.inl ⟨l, rfl⟩)
  · rw [hc]; exact Or.inr (Or.inr (Or.inl ⟨c, rfl⟩))

/-! ## Lemmas: `Calc` and the rewritten string -/

theorem Calc_congr (s s' : List Char)
    (h : ReplaceAll s [' '] [] = ReplaceAll s' [' '] []) : Calc s = Calc s' := by
  rw [Calc_eq, Calc_eq, h]

theorem filter_space_idem (s : List Char) :
    (s.filter (fun c => c != ' ')).filter (fun c => c != ' ') =
      s.filter (fun c => c != ' ') := by
  simp [List.filter_filter]

theorem Calc_filter_space (s : List Char) : Calc (s.filter (fun c => c != ' ')) = Calc s := by
  apply Calc_congr
  rw [replaceAll_space_eq_filter, replaceAll_space_eq_filter, filter_space_idem]

theorem spaceEdit_filter (s s' : List Char) (h : SpaceEdit s s') :
    s'.filter (fun c => c != ' ') = s.filter (fun c => c != ' ') := by
  induction h with
  | refl => rfl
  | insert a b _ ih => rw [← ih]; simp [List.filter_append]
  | delete a b _ ih => rw [← ih]; simp [List.filter_append]

theorem replaceAll_paren_head (t : List Char) :
    (ReplaceAll t ['(', '-'] ['(', '0', '-']).head? = t.head? := by
  cases t with
  | nil => rfl
  | cons c cs =>
    by_cases hc : c = '('
    · subst hc
      cases cs with
      | nil => rfl
      | cons d ds =>
        by_cases hd : d = '-'
        · subst hd; rw [replaceAll_paren_match]; rfl
        · rw [replaceAll_paren_open _ (by simp [hd])]; rfl
    · rw [replaceAll_paren_other _ _ hc]; rfl

theorem replaceAll_paren_mem (t : List Char) (n : Nat) (hn : t.length ≤ n) (c : Char) :
    (c ∈ t → c ∈ ReplaceAll t ['(', '-'] ['(', '0', '-']) ∧
    (c ∈ ReplaceAll t ['(', '-'] ['(', '0', '-'] → c ∈ t ∨ c = '0') := by
  induction n generalizing t with
  | zero =>
    have : t = [] := List.length_eq_zero.mp (Nat.le_zero.mp hn)
    subst this
    simp [replaceAll_paren_nil]
  | succ n ih =>
    cases t with
    | nil => simp [replaceAll_paren_nil]
    | cons a as =>
      have hlen : as.length ≤ n := by simpa using hn
      by_cases ha : a = '('
      · subst ha
        cases as with
        | nil =>
          rw [replaceAll_paren_open _ (by simp), replaceAll_paren_nil]
          simp only [List.mem_cons]
          tauto
        | cons d ds =>
          by_cases hd : d = '-'
          · subst hd
            have hds : ds.length ≤ n := by simp at hlen; omega
            rw [replaceAll_paren_match]
            have := ih ds hds
            simp only [List.mem_cons]
            tauto
          · rw [replaceAll_paren_open _ (by simp [hd])]
            have := ih (d :: ds) hlen
            simp only [List.mem_cons] at this ⊢
            tauto
      · rw [replaceAll_paren_other _ _ ha]
        have := ih as hlen
        simp only [List.mem_cons]
        tauto

theorem replaceAll_paren_mem_of_mem (t : List Char) (c : Char) (h : c ∈ t) :
    c ∈ ReplaceAll t ['(', '-'] ['(', '0', '-'] :=
  (replaceAll_paren_mem t t.length (Nat.le_refl _) c).1 h

theorem replaceAll_paren_mem_cases (t : List Char) (c : Char)
    (h : c ∈ ReplaceAll t ['(', '-'] ['(', '0', '-']) : c ∈ t ∨ c = '0' :=
  (replaceAll_paren_mem t t.length (Nat.le_refl _) c).2 h

theorem replaceAll_paren_idem (t : List Char) (n : Nat) (hn : t.length ≤ n) :
    ReplaceAll (ReplaceAll t ['(', '-'] ['(', '0', '-']) ['(', '-'] ['(', '0', '-'] =
      ReplaceAll t ['(', '-'] ['(', '0', '-'] := by
  induction n generalizing t with
  | zero =>
    have : t = [] := List.length_eq_zero.mp (Nat.le_zero.mp hn)
    subst this; rfl
  | succ n ih =>
    cases t with
    | nil => rfl
    | cons a as =>
      have hlen : as.length ≤ n := by simpa using hn
      by_cases ha : a = '('
      · subst ha
        cases as with
        | nil => rfl
        | cons d ds =>
          by_cases hd : d = '-'
          · subst hd
            have hds : ds.length ≤ n := by simp at hlen; omega
            rw [replaceAll_paren_match,
              replaceAll_paren_open _ (by simp),
              replaceAll_paren_other _ _ (by decide),
              replaceAll_paren_other _ _ (by decide), ih ds hds]
          · rw [replaceAll_paren_open _ (by simp [hd]),
              replaceAll_paren_open _ (by rw [replaceAll_paren_head]; simp [hd]),
              ih (d :: ds) hlen]
      · rw [replaceAll_paren_other _ _ ha, replaceAll_paren_other _ _ ha, ih as hlen]

/-- `parseExpression` on a non-empty string scans the rewritten string. -/
theorem parseExpression_eq (t : List Char) (h : t ≠ []) :
    parseExpression t =
      parseLoop (ReplaceAll (if t.head? = some '-' then '0' :: t else t)
        ['(', '-'] ['(', '0', '-']) [] [] := by
  cases t with
  | nil => exact absurd rfl h
  | cons c cs =>
    unfold parseExpression
    simp only [List.getElem?_cons_zero, List.head?_cons, Option.some.injEq]

theorem unaryRewrite_nil_iff (s : List Char) :
    unaryRewrite s = [] ↔ s.filter (fun c => c != ' ') = [] := by
  unfold unaryRewrite
  simp only
  generalize s.filter (fun c => c != ' ') = t
  cases t with
  | nil => simp [replaceAll_paren_nil]
  | cons c cs =>
    have h1 : (ReplaceAll (if (c :: cs).head? = some '-' then '0' :: c :: cs else c :: cs)
        ['(', '-'] ['(', '0', '-']).head? ≠ none := by
      rw [replaceAll_paren_head]; split <;> simp
    constructor
    · intro h; rw [h] at h1; exact absurd rfl h1
    · intro h; exact absurd h (by simp)

theorem unaryRewrite_filter (s : List Char) :
    (unaryRewrite s).filter (fun c => c != ' ') = unaryRewrite s := by
  rw [List.filter_eq_self]
  intro c hc
  unfold unaryRewrite at hc
  simp only at hc
  have hmem : ∀ x, x ∈ s.filter (fun c => c != ' ') → x ≠ ' ' := by
    intro x hx; simpa using (List.mem_filter.mp hx).2
  rcases replaceAll_paren_mem_cases _ _ hc with h | h
  · split at h
    · rcases List.mem_cons.mp h with h | h
      · subst h; decide
      · simpa using hmem _ h
    · simpa using hmem _ h
  · subst h; decide

theorem unaryRewrite_head (s : List Char) : (unaryRewrite s).head? ≠ some '-' := by
  unfold unaryRewrite
  simp only
  rw [replaceAll_paren_head]
  split
  · simp
  · assumption

theorem parseExpression_unaryRewrite (s : List Char)
    (h : s.filter (fun c => c != ' ') ≠ []) :
    parseExpression (unaryRewrite s) = parseExpression (s.filter (fun c => c != ' ')) := by
  have hne : unaryRewrite s ≠ [] := fun e => h ((unaryRewrite_nil_iff s).mp e)
  rw [parseExpression_eq _ hne, parseExpression_eq _ h, if_neg (unaryRewrite_head s)]
  unfold unaryRewrite
  simp only
  exact congrArg (fun x => parseLoop x [] []) (replaceAll_paren_idem _ _ (Nat.le_refl _))

theorem Calc_unaryRewrite (s : List Char) : Calc s = Calc (unaryRewrite s) := by
  rw [Calc_eq, Calc_eq, replaceAll_space_eq_filter, replaceAll_space_eq_filter,
    unaryRewrite_filter]
  by_cases h : s.filter (fun c => c != ' ') = []
  · have h' : unaryRewrite s = [] := (unaryRewrite_nil_iff s).mpr h
    rw [h, h']
  · rw [parseExpression_unaryRewrite s h]
    have h' : unaryRewrite s ≠ [] := fun e => h ((unaryRewrite_nil_iff s).mp e)
    have e1 : ¬ (s.filter (fun c => c != ' ')).length = 0 := by
      intro e; exact h (List.length_eq_zero.mp e)
    have e2 : ¬ (unaryRewrite s).length = 0 := by
      intro e; exact h' (List.length_eq_zero.mp e)
    rw [if_neg e1, if_neg e2]

/-! ## Lemmas: characters the scan rejects -/

theorem parseLoop_not_ok (expr : List Char) (c : Char) (hc : c ∈ expr)
    (hd : (isDigit c || c == '.') = false) (hs : isSymbol c = false) :
    ∀ (tokens : List token) (cur : List Char) (ts : List token),
      parseLoop expr tokens cur ≠ Outcome.ok ts := by
  induction expr with
  | nil => exact absurd hc (List.not_mem_nil _)
  | cons a as ih =>
    intro tokens cur ts
    unfold parseLoop
    by_cases ha : c = a
    · subst ha
      simp [hd, hs]
    · have hmem : c ∈ as := by
        rcases List.mem_cons.mp hc with h | h
        · exact absurd h ha
        · exact h
      split
      · exact ih hmem _ _ _
      · split
        · split
          · split
            · simp
            · exact ih hmem _ _ _
          · exact ih hmem _ _ _
        · simp

theorem Calc_not_ok_of_bad_char (s : List Char) (c : Char) (hc : c ∈ s) (hsp : c ≠ ' ')
    (hd : (isDigit c || c == '.') = false) (hs : isSymbol c = false) :
    (∃ l, Calc s = Outcome.error (CalcError.InvalidNumber l)) ∨
    (∃ c', Calc s = Outcome.error (CalcError.UnsupportedCharacter c')) := by
  have hmem : c ∈ s.filter (fun c => c != ' ') := by
    apply List.mem_filter.mpr
    exact ⟨hc, by simpa using hsp⟩
  have hne : s.filter (fun c => c != ' ') ≠ [] := List.ne_nil_of_mem hmem
  have hne' : ReplaceAll s [' '] [] ≠ [] := by rw [replaceAll_space_eq_filter]; exact hne
  have hlen : ¬ (s.filter (fun c => c != ' ')).length = 0 := by
    intro e; exact hne (List.length_eq_zero.mp e)
  have hparse : ∀ ts, parseExpression (s.filter (fun c => c != ' ')) ≠ Outcome.ok ts := by
    intro ts
    rw [parseExpression_eq _ hne]
    apply parseLoop_not_ok _ c _ hd hs
    apply replaceAll_paren_mem_of_mem
    split
    · exact List.mem_cons_of_mem _ hmem
    · exact hmem
  rcases parseExpression_outcome _ hne with ⟨ts, hts⟩ | ⟨l, hl⟩ | ⟨c', hc'⟩
  · exact absurd hts (hparse ts)
  · left; refine ⟨l, ?_⟩
    rw [Calc_eq, replaceAll_space_eq_filter, if_neg hlen, hl]
  · right; refine ⟨c', ?_⟩
    rw [Calc_eq, replaceAll_space_eq_filter, if_neg hlen, hc']

theorem Calc_of_all_spaces (s : List Char) (h : ∀ c ∈ s, c = ' ') :
    Calc s = Outcome.error CalcError.EmptyExpression := by
  have hf : s.filter (fun c => c != ' ') = [] := by
    rw [List.filter_eq_nil_iff]
    intro a ha
    simp [h a ha]
  rw [Calc_eq, replaceAll_space_eq_filter, hf]
  rfl

theorem all_spaces_of_Calc_empty (s : List Char)
    (h : Calc s = Outcome.error CalcError.EmptyExpression) : ∀ c ∈ s, c = ' ' := by
  by_contra hcon
  have hne : ReplaceAll s [' '] [] ≠ [] := by
    rw [replaceAll_space_eq_filter]
    intro hf
    apply hcon
    intro c hc
    rw [List.filter_eq_nil_iff] at hf
    simpa using hf c hc
  rcases Calc_nonempty_outcome s hne with ⟨v, hv⟩ | ⟨l, hl⟩ | ⟨c, hc⟩ | h1 | h1 | h1 <;>
    simp_all

/-! ## Lemmas: the converter and the balance of parentheses -/

theorem popToParen_spec (stack : List (List Char)) : ∀ (result : List token),
    (popToParen result stack).2.count ['('] = stack.count ['('] ∧
    ((popToParen result stack).2 = [] ∨
      ∃ rest, (popToParen result stack).2 = ['('] :: rest) := by
  induction stack with
  | nil => intro result; simp [popToParen]
  | cons top stack ih =>
    intro result
    unfold popToParen
    by_cases h : top = ['(']
    · subst h; simp
    · rw [if_pos h]
      have := ih (result ++ [⟨top, false⟩])
      refine ⟨?_, this.2⟩
      rw [this.1, List.count_cons_of_ne (fun e => h e.symm)]

theorem popHigher_count (value : List Char) (stack : List (List Char)) :
    ∀ (result : List token),
    (popHigher value result stack).2.count ['('] = stack.count ['('] := by
  induction stack with
  | nil => intro result; simp [popHigher]
  | cons top stack ih =>
    intro result
    unfold popHigher
    split
    · rename_i h
      rw [ih, List.count_cons_of_ne (fun e => h.1 e.symm)]
    · rfl

theorem drain_ok_iff (stack : List (List Char)) : ∀ (result : List token),
    (stack.count ['('] = 0 → ∃ r, drain result stack = Outcome.ok r) ∧
    (stack.count ['('] ≠ 0 →
      drain result stack = Outcome.error CalcError.UnbalancedParentheses) := by
  induction stack with
  | nil => intro result; simp [drain]
  | cons top stack ih =>
    intro result
    unfold drain
    by_cases h : top = ['(']
    · subst h; simp
    · rw [if_neg h, List.count_cons_of_ne (fun e => h e.symm)]
      exact ih _

theorem toPostfixLoop_parenScan (tokens : List token) :
    ∀ (result : List token) (stack : List (List Char)),
    (parenScan (stack.count ['(']) tokens = some 0 →
      ∃ r, toPostfixLoop tokens result stack = Outcome.ok r) ∧
    (parenScan (stack.count ['(']) tokens ≠ some 0 →
      toPostfixLoop tokens result stack = Outcome.error CalcError.UnbalancedParentheses) := by
  induction tokens with
  | nil =>
    intro result stack
    unfold toPostfixLoop parenScan
    have := drain_ok_iff stack result
    constructor
    · intro h; exact this.1 (by simpa using h)
    · intro h; exact this.2 (by simpa using h)
  | cons t ts ih =>
    intro result stack
    unfold toPostfixLoop parenScan
    cases hn : t.isNumber with
    | true =>
      have e1 : t.isOpen = false := by simp [token.isOpen, hn]
      have e2 : t.isClose = false := by simp [token.isClose, hn]
      simp only [e1, e2, ↓reduceIte, Bool.false_eq_true]
      exact ih _ _
    | false =>
      by_cases ho : t.value = ['(']
      · have e1 : t.isOpen = true := by simp [token.isOpen, hn, ho]
        simp only [e1, ho, ↓reduceIte, Bool.false_eq_true]
        have := ih result (['('] :: stack)
        simpa using this
      · have e1 : t.isOpen = false := by simp [token.isOpen, hn, ho]
        by_cases hc : t.value = [')']
        · have e2 : t.isClose = true := by simp [token.isClose, hn, hc]
          simp only [e1, e2, ho, hc, ↓reduceIte, Bool.false_eq_true]
          have hs := popToParen_spec stack result
          rcases hpop : popToParen result stack with ⟨r', s'⟩
          rw [hpop] at hs
          simp only at hs
          rcases hs with ⟨hcount, hnil | ⟨rest, hrest⟩⟩
          · subst hnil
            have h0 : stack.count ['('] = 0 := by rw [← hcount]; rfl
            simp [h0]
          · subst hrest
            have h1 : stack.count ['('] = rest.count ['('] + 1 := by
              rw [← hcount]; simp
            have h2 : ¬ stack.count ['('] = 0 := by omega
            simp only [h2, ↓reduceIte]
            have := ih r' rest
            rw [h1]
            simpa using this
        · have e2 : t.isClose = false := by simp [token.isClose, hn, hc]
          simp only [e1, e2, ho, hc, ↓reduceIte, Bool.false_eq_true]
          have hcount := popHigher_count t.value stack result
          rcases hpop : popHigher t.value result stack with ⟨r', s'⟩
          rw [hpop] at hcount
          simp only at hcount
          have := ih r' (t.value :: s')
          rw [List.count_cons_of_ne (fun e => ho e.symm), hcount] at this
          exact this

theorem countP_take_succ_cons (p : token → Bool) (t : token) (ts : List token) (n : Nat) :
    ((t :: ts).take (n + 1)).countP p = (ts.take n).countP p + (if p t then 1 else 0) := by
  rw [List.take_succ_cons, List.countP_cons]

theorem isOpen_isClose (t : token) (h : t.isOpen = true) : t.isClose = false := by
  unfold token.isOpen at h
  unfold token.isClose
  simp only [Bool.and_eq_true, Bool.not_eq_true', decide_eq_true_eq] at h
  simp [h.1, h.2]

theorem parenScan_none_of_prefix (ts : List token) : ∀ (d : Nat),
    (∃ n, d + (ts.take n).countP token.isOpen < (ts.take n).countP token.isClose) →
      parenScan d ts = none := by
  induction ts with
  | nil => intro d ⟨n, hn⟩; simp at hn
  | cons t ts ih =>
    intro d ⟨n, hn⟩
    cases n with
    | zero => simp at hn
    | succ n =>
      rw [countP_take_succ_cons, countP_take_succ_cons] at hn
      unfold parenScan
      by_cases ho : t.isOpen = true
      · have hc := isOpen_isClose t ho
        simp only [ho, hc, if_true, Bool.false_eq_true, if_false] at hn ⊢
        exact ih (d + 1) ⟨n, by omega⟩
      · simp only [Bool.not_eq_true] at ho
        by_cases hc : t.isClose = true
        · simp only [ho, hc, if_true, Bool.false_eq_true, if_false] at hn ⊢
          by_cases hd : d = 0
          · simp [hd]
          · simp only [hd, if_false]
            exact ih (d - 1) ⟨n, by omega⟩
        · simp only [Bool.not_eq_true] at hc
          simp only [ho, hc, Bool.false_eq_true, if_false] at hn ⊢
          exact ih d ⟨n, by omega⟩

theorem parenScan_some (ts : List token) : ∀ (d k : Nat), parenScan d ts = some k →
    (∀ n, (ts.take n).countP token.isClose ≤ d + (ts.take n).countP token.isOpen) ∧
    d + ts.countP token.isOpen = ts.countP token.isClose + k := by
  induction ts with
  | nil =>
    intro d k h
    simp only [parenScan, Option.some.injEq] at h
    simp [h]
  | cons t ts ih =>
    intro d k h
    unfold parenScan at h
    by_cases ho : t.isOpen = true
    · have hc := isOpen_isClose t ho
      simp only [ho, if_true] at h
      have := ih _ _ h
      constructor
      · intro n
        cases n with
        | zero => simp
        | succ n =>
          rw [countP_take_succ_cons, countP_take_succ_cons]
          simp only [ho, hc, if_true, Bool.false_eq_true, if_false]
          have := this.1 n
          omega
      · rw [List.countP_cons, List.countP_cons]
        simp only [ho, hc, if_true, Bool.false_eq_true, if_false]
        omega
    · simp only [Bool.not_eq_true] at ho
      by_cases hc : t.isClose = true
      · simp only [ho, hc, if_true, Bool.false_eq_true, if_false] at h
        by_cases hd : d = 0
        · simp [hd] at h
        · simp only [hd, if_false] at h
          have := ih _ _ h
          constructor
          · intro n
            cases n with
            | zero => simp
            | succ n =>
              rw [countP_take_succ_cons, countP_take_succ_cons]
              simp only [ho, hc, if_true, Bool.false_eq_true, if_false]
              have := this.1 n
              omega
          · rw [List.countP_cons, List.countP_cons]
            simp only [ho, hc, if_true, Bool.false_eq_true, if_false]
            omega
      · simp only [Bool.not_eq_true] at hc
        simp only [ho, hc, Bool.false_eq_true, if_false] at h
        have := ih _ _ h
        constructor
        · intro n
          cases n with
          | zero => simp
          | succ n =>
            rw [countP_take_succ_cons, countP_take_succ_cons]
            simp only [ho, hc, Bool.false_eq_true, if_false]
            have := this.1 n
            omega
        · rw [List.countP_cons, List.countP_cons]
          simp only [ho, hc, Bool.false_eq_true, if_false]
          omega

theorem parenScan_none (ts : List token) : ∀ (d : Nat), parenScan d ts = none →
    ∃ n, d + (ts.take n).countP token.isOpen < (ts.take n).countP token.isClose := by
  induction ts with
  | nil => intro d h; simp [parenScan] at h
  | cons t ts ih =>
    intro d h
    unfold parenScan at h
    by_cases ho : t.isOpen = true
    · have hc := isOpen_isClose t ho
      simp only [ho, if_true] at h
      obtain ⟨n, hn⟩ := ih _ h
      refine ⟨n + 1, ?_⟩
      rw [countP_take_succ_cons, countP_take_succ_cons]
      simp only [ho, hc, if_true, Bool.false_eq_true, if_false]
      omega
    · simp only [Bool.not_eq_true] at ho
      by_cases hc : t.isClose = true
      · simp only [ho, hc, if_true, Bool.false_eq_true, if_false] at h
        by_cases hd : d = 0
        · refine ⟨1, ?_⟩
          rw [countP_take_succ_cons, countP_take_succ_cons]
          simp [ho, hc, hd]
        · simp only [hd, if_false] at h
          obtain ⟨n, hn⟩ := ih _ h
          refine ⟨n + 1, ?_⟩
          rw [countP_take_succ_cons, countP_take_succ_cons]
          simp only [ho, hc, if_true, Bool.false_eq_true, if_false]
          omega
      · simp only [Bool.not_eq_true] at hc
        simp only [ho, hc, Bool.false_eq_true, if_false] at h
        obtain ⟨n, hn⟩ := ih _ h
        refine ⟨n + 1, ?_⟩
        rw [countP_take_succ_cons, countP_take_succ_cons]
        simp only [ho, hc, Bool.false_eq_true, if_false]
        omega

theorem parenScan_zero_iff (ts : List token) : parenScan 0 ts = some 0 ↔ ¬ Unbalanced ts := by
  unfold Unbalanced
  constructor
  · intro h
    have := parenScan_some ts 0 0 h
    rintro (⟨n, hn⟩ | hlt)
    · have := this.1 n; omega
    · omega
  · intro h
    cases hscan : parenScan 0 ts with
    | none =>
      obtain ⟨n, hn⟩ := parenScan_none ts 0 hscan
      exact absurd (Or.inl ⟨n, by simpa using hn⟩) h
    | some k =>
      have := parenScan_some ts 0 k hscan
      have hk : k = 0 := by
        by_contra hk
        apply h
        right
        omega
      rw [hk]

theorem toPostfix_ok_iff (ts : List token) :
    (¬ Unbalanced ts → ∃ r, toPostfix ts = Outcome.ok r) ∧
    (Unbalanced ts → toPostfix ts = Outcome.error CalcError.UnbalancedParentheses) := by
  have h := toPostfixLoop_parenScan ts [] []
  simp only [List.count_nil] at h
  constructor
  · intro hb; exact h.1 ((parenScan_zero_iff ts).mpr hb)
  · intro hu
    apply h.2
    intro h0
    exact (parenScan_zero_iff ts).mp h0 hu

/-! ## Lemmas: the evaluator and the operand count -/

theorem calculateLoop_countScan (ts : List token) : ∀ (stack : List Float64),
    (∀ v, calculateLoop ts stack = Outcome.ok v → countScan stack.length ts = some 1) ∧
    (calculateLoop ts stack = Outcome.error CalcError.MalformedExpression →
      countScan stack.length ts ≠ some 1) := by
  induction ts with
  | nil =>
    intro stack
    match stack with
    | [] => simp [calculateLoop, countScan]
    | [v] => simp [calculateLoop, countScan]
    | _ :: _ :: _ => simp [calculateLoop, countScan]
  | cons t ts ih =>
    intro stack
    unfold calculateLoop countScan
    cases hn : t.isNumber with
    | true =>
      simp only [↓reduceIte]
      exact ih _
    | false =>
      simp only [Bool.false_eq_true, ↓reduceIte]
      match stack with
      | [] => simp
      | [_] => simp
      | b :: a :: rest =>
        simp only [List.length_cons]
        have hlt : ¬ (rest.length + 1 + 1 < 2) := by omega
        simp only [hlt, ↓reduceIte]
        rcases applyOperator_outcome t.value a b with ⟨r, hr⟩ | hr
        · rw [hr]
          have := ih (r :: rest)
          simpa using this
        · rw [hr]
          simp

theorem runningCount_nil : runningCount [] = 0 := by simp [runningCount]

theorem runningCount_cons (t : token) (ts : List token) :
    runningCount (t :: ts) = runningCount ts + (if t.isNumber then 1 else -1) := by
  unfold runningCount
  rw [List.countP_cons, List.countP_cons]
  cases t.isNumber <;> simp <;> omega

theorem countScan_some (ts : List token) : ∀ (k j : Nat), countScan k ts = some j →
    (∀ n, ∀ h : n < ts.length, (ts.get ⟨n, h⟩).isNumber = false →
      2 ≤ (k : Int) + runningCount (ts.take n)) ∧
    (k : Int) + runningCount ts = j := by
  induction ts with
  | nil =>
    intro k j h
    simp only [countScan, Option.some.injEq] at h
    simp [runningCount_nil, h]
  | cons t ts ih =>
    intro k j h
    unfold countScan at h
    cases hn : t.isNumber with
    | true =>
      simp only [hn, ↓reduceIte] at h
      have := ih _ _ h
      constructor
      · intro n hlt hnum
        cases n with
        | zero => simp [hn] at hnum
        | succ n =>
          rw [List.take_succ_cons, runningCount_cons]
          simp only [hn, ↓reduceIte]
          have := this.1 n (by simpa using hlt) (by simpa using hnum)
          push_cast at this
          omega
      · rw [runningCount_cons]
        simp only [hn, ↓reduceIte]
        have := this.2
        push_cast at this
        omega
    | false =>
      simp only [hn, Bool.false_eq_true, ↓reduceIte] at h
      by_cases hk : k < 2
      · simp [hk] at h
      · simp only [hk, ↓reduceIte] at h
        have := ih _ _ h
        have hk1 : ((k - 1 : Nat) : Int) = (k : Int) - 1 := by omega
        constructor
        · intro n hlt hnum
          cases n with
          | zero => simp [runningCount_nil]; omega
          | succ n =>
            rw [List.take_succ_cons, runningCount_cons]
            simp only [hn, Bool.false_eq_true, ↓reduceIte]
            have := this.1 n (by simpa using hlt) (by simpa using hnum)
            omega
        · rw [runningCount_cons]
          simp only [hn, Bool.false_eq_true, ↓reduceIte]
          have := this.2
          omega

theorem countScan_none (ts : List token) : ∀ (k : Nat), countScan k ts = none →
    ∃ n, ∃ h : n < ts.length, (ts.get ⟨n, h⟩).isNumber = false ∧
      (k : Int) + runningCount (ts.take n) < 2 := by
  induction ts with
  | nil => intro k h; simp [countScan] at h
  | cons t ts ih =>
    intro k h
    unfold countScan at h
    cases hn : t.isNumber with
    | true =>
      simp only [hn, ↓reduceIte] at h
      obtain ⟨n, hlt, hnum, hc⟩ := ih _ h
      refine ⟨n + 1, by simpa using hlt, by simpa using hnum, ?_⟩
      rw [List.take_succ_cons, runningCount_cons]
      simp only [hn, ↓reduceIte]
      push_cast at hc
      omega
    | false =>
      simp only [hn, Bool.false_eq_true, ↓reduceIte] at h
      by_cases hk : k < 2
      · refine ⟨0, by simp, by simpa using hn, ?_⟩
        simp [runningCount_nil]
        omega
      · simp only [hk, ↓reduceIte] at h
        obtain ⟨n, hlt, hnum, hc⟩ := ih _ h
        have hk1 : ((k - 1 : Nat) : Int) = (k : Int) - 1 := by omega
        refine ⟨n + 1, by simpa using hlt, by simpa using hnum, ?_⟩
        rw [List.take_succ_cons, runningCount_cons]
        simp only [hn, Bool.false_eq_true, ↓reduceIte]
        omega

theorem countScan_one_iff (ts : List token) : countScan 0 ts = some 1 ↔ CountOK ts := by
  unfold CountOK
  constructor
  · intro h
    have := countScan_some ts 0 1 h
    constructor
    · intro n hlt hnum
      have := this.1 n hlt hnum
      simpa using this
    · have := this.2
      simpa using this
  · intro ⟨h1, h2⟩
    cases hscan : countScan 0 ts with
    | none =>
      obtain ⟨n, hlt, hnum, hc⟩ := countScan_none ts 0 hscan
      have := h1 n hlt hnum
      simp at hc
      omega
    | some j =>
      have := (countScan_some ts 0 j hscan).2
      simp only [Nat.cast_zero, zero_add] at this
      rw [h2] at this
      have : j = 1 := by omega
      rw [this]

theorem calculatePostfix_ok_count (ts : List token) (v : Float64)
    (h : calculatePostfix ts = Outcome.ok v) : CountOK ts :=
  (countScan_one_iff ts).mp ((calculateLoop_countScan ts []).1 v h)

theorem calculatePostfix_malformed_count (ts : List token)
    (h : calculatePostfix ts = Outcome.error CalcError.MalformedExpression) : ¬ CountOK ts :=
  fun hc => (calculateLoop_countScan ts []).2 h ((countScan_one_iff ts).mpr hc)

/-! ## Lemmas: the converter keeps the numbers and the operators -/

theorem countP_append_single (p : token → Bool) (l : List token) (t : token) :
    (l ++ [t]).countP p = l.countP p + (if p t then 1 else 0) := by
  rw [List.countP_append, List.countP_cons, List.countP_nil, Nat.zero_add]

theorem popToParen_counts (stack : List (List Char)) : ∀ (result : List token),
    (popToParen result stack).1.countP (fun t => t.isNumber) =
      result.countP (fun t => t.isNumber) ∧
    (popToParen result stack).1.countP (fun t => !t.isNumber) +
        (popToParen result stack).2.countP (fun v => v != ['(']) =
      result.countP (fun t => !t.isNumber) + stack.countP (fun v => v != ['(']) := by
  induction stack with
  | nil => intro result; simp [popToParen]
  | cons top stack ih =>
    intro result
    unfold popToParen
    by_cases h : top = ['(']
    · subst h; simp
    · rw [if_pos h]
      have := ih (result ++ [⟨top, false⟩])
      rw [countP_append_single, countP_append_single] at this
      rw [List.countP_cons]
      simp only [Bool.false_eq_true, ↓reduceIte, Bool.not_false, Nat.add_zero] at this
      simp only [bne_iff_ne, ne_eq, h, not_false_eq_true, decide_True, ↓reduceIte]
      constructor
      · exact this.1
      · have := this.2
        simp only [bne_iff_ne, ne_eq] at this
        omega

theorem popHigher_counts (value : List Char) (stack : List (List Char)) :
    ∀ (result : List token),
    (popHigher value result stack).1.countP (fun t => t.isNumber) =
      result.countP (fun t => t.isNumber) ∧
    (popHigher value result stack).1.countP (fun t => !t.isNumber) +
        (popHigher value result stack).2.countP (fun v => v != ['(']) =
      result.countP (fun t => !t.isNumber) + stack.countP (fun v => v != ['(']) := by
  induction stack with
  | nil => intro result; simp [popHigher]
  | cons top stack ih =>
    intro result
    unfold popHigher
    split
    · rename_i h
      have := ih (result ++ [⟨top, false⟩])
      rw [countP_append_single, countP_append_single] at this
      rw [List.countP_cons]
      simp only [Bool.false_eq_true, ↓reduceIte, Bool.not_false, Nat.add_zero] at this
      simp only [bne_iff_ne, ne_eq, h.1, not_false_eq_true, decide_True, ↓reduceIte]
      constructor
      · exact this.1
      · have := this.2
        simp only [bne_iff_ne, ne_eq] at this
        omega
    · exact ⟨rfl, rfl⟩

theorem drain_counts (stack : List (List Char)) : ∀ (result post : List token),
    drain result stack = Outcome.ok post →
    post.countP (fun t => t.isNumber) = result.countP (fun t => t.isNumber) ∧
    post.countP (fun t => !t.isNumber) =
      result.countP (fun t => !t.isNumber) + stack.countP (fun v => v != ['(']) := by
  induction stack with
  | nil =>
    intro result post h
    simp only [drain, Outcome.ok.injEq] at h
    subst h; simp
  | cons top stack ih =>
    intro result post h
    unfold drain at h
    by_cases htop : top = ['(']
    · rw [if_pos htop] at h; exact Outcome.noConfusion h
    · rw [if_neg htop] at h
      have := ih _ _ h
      rw [countP_append_single, countP_append_single] at this
      rw [List.countP_cons]
      simp only [Bool.false_eq_true, ↓reduceIte, Bool.not_false, Nat.add_zero] at this
      simp only [bne_iff_ne, ne_eq, htop, not_false_eq_true, decide_True, ↓reduceIte]
      constructor
      · exact this.1
      · have := this.2
        simp only [bne_iff_ne, ne_eq] at this
        omega

theorem toPostfixLoop_counts (tokens : List token) :
    ∀ (result : List token) (stack : List (List Char)) (post : List token),
    toPostfixLoop tokens result stack = Outcome.ok post →
    post.countP (fun t => t.isNumber) =
      result.countP (fun t => t.isNumber) + tokens.countP (fun t => t.isNumber) ∧
    post.countP (fun t => !t.isNumber) =
      result.countP (fun t => !t.isNumber) + stack.countP (fun v => v != ['(']) +
        tokens.countP token.isOther := by
  induction tokens with
  | nil =>
    intro result stack post h
    unfold toPostfixLoop at h
    have := drain_counts stack result post h
    simpa using this
  | cons t ts ih =>
    intro result stack post h
    unfold toPostfixLoop at h
    rw [List.countP_cons, List.countP_cons]
    cases hn : t.isNumber with
    | true =>
      have e1 : t.isOther = false := by simp [token.isOther, hn]
      simp only [hn, ↓reduceIte] at h
      have := ih _ _ _ h
      rw [countP_append_single, countP_append_single] at this
      simp only [hn, e1, ↓reduceIte, Bool.not_true, Bool.false_eq_true] at this ⊢
      omega
    | false =>
      simp only [hn, Bool.false_eq_true, ↓reduceIte] at h
      by_cases ho : t.value = ['(']
      · have e1 : t.isOther = false := by simp [token.isOther, token.isOpen, hn, ho]
        simp only [ho, ↓reduceIte] at h
        have := ih _ _ _ h
        rw [List.countP_cons] at this
        simp only [e1, Bool.false_eq_true, ↓reduceIte] at this ⊢
        simpa using this
      · simp only [ho, ↓reduceIte] at h
        by_cases hc : t.value = [')']
        · have e1 : t.isOther = false := by simp [token.isOther, token.isClose, hn, hc]
          simp only [hc, ↓reduceIte] at h
          have hcnt := popToParen_counts stack result
          have hs := popToParen_spec stack result
          rcases hpop : popToParen result stack with ⟨r', s'⟩
          rw [hpop] at hcnt hs h
          simp only at hcnt hs h
          rcases hs with ⟨_, hnil | ⟨rest, hrest⟩⟩
          · subst hnil
            exact Outcome.noConfusion h
          · subst hrest
            simp only at h
            have := ih _ _ _ h
            rw [List.countP_cons] at hcnt
            simp only [e1, Bool.false_eq_true, ↓reduceIte] at this ⊢
            simp only [bne_self_eq_false, Bool.false_eq_true, ↓reduceIte, Nat.add_zero] at hcnt
            omega
        · have e1 : t.isOther = true := by
            simp [token.isOther, token.isOpen, token.isClose, hn, ho, hc]
          simp only [hc, ↓reduceIte] at h
          have hcnt := popHigher_counts t.value stack result
          rcases hpop : popHigher t.value result stack with ⟨r', s'⟩
          rw [hpop] at hcnt h
          simp only at hcnt h
          have := ih _ _ _ h
          rw [List.countP_cons] at this
          have e2 : (t.value != ['(']) = true := by simpa using ho
          simp only [e1, e2, Bool.false_eq_true, ↓reduceIte] at this ⊢
          omega

/-! ## Lemmas: the shape of the tokens -/

theorem parseLoop_shape (expr : List Char) : ∀ (tokens : List token) (cur : List Char)
    (ts : List token), (∀ t ∈ tokens, t.shape) →
    parseLoop expr tokens cur = Outcome.ok ts → ∀ t ∈ ts, t.shape := by
  induction expr with
  | nil =>
    intro tokens cur ts hshape h
    unfold parseLoop at h
    split at h
    · split at h
      · exact Outcome.noConfusion h
      · simp only [Outcome.ok.injEq] at h
        subst h
        intro t ht
        rcases List.mem_append.mp ht with ht | ht
        · exact hshape t ht
        · simp only [List.mem_singleton] at ht
          subst ht
          exact Or.inl rfl
    · simp only [Outcome.ok.injEq] at h
      subst h
      exact hshape
  | cons c cs ih =>
    intro tokens cur ts hshape h
    unfold parseLoop at h
    split at h
    · exact ih _ _ _ hshape h
    · split at h
      · rename_i hsym
        split at h
        · split at h
          · exact Outcome.noConfusion h
          · refine ih _ _ _ ?_ h
            intro t ht
            simp only [List.append_assoc, List.singleton_append, List.mem_append,
              List.mem_cons, List.mem_singleton, List.not_mem_nil, or_false] at ht
            rcases ht with ht | ht | ht
            · exact hshape t ht
            · subst ht; exact Or.inl rfl
            · subst ht; exact Or.inr ⟨rfl, c, hsym, rfl⟩
        · refine ih _ _ _ ?_ h
          intro t ht
          rcases List.mem_append.mp ht with ht | ht
          · exact hshape t ht
          · simp only [List.mem_singleton] at ht
            subst ht; exact Or.inr ⟨rfl, c, hsym, rfl⟩
      · exact Outcome.noConfusion h

theorem parseExpression_shape (expr : List Char) (ts : List token)
    (h : parseExpression expr = Outcome.ok ts) : ∀ t ∈ ts, t.shape := by
  cases expr with
  | nil => exact Outcome.noConfusion h
  | cons c cs =>
    rw [parseExpression_eq _ (by simp)] at h
    exact parseLoop_shape _ _ _ _ (by simp) h

theorem isOther_eq_isOperator (t : token) (h : t.shape) : t.isOther = t.isOperator := by
  rcases h with h | ⟨h, c, hc, hv⟩
  · simp [token.isOther, token.isOperator, h]
  · unfold isSymbol at hc
    simp only [Bool.or_eq_true, beq_iff_eq] at hc
    rcases hc with ((((hc | hc) | hc) | hc) | hc) | hc <;> subst hc <;>
      simp [token.isOther, token.isOperator, token.isOpen, token.isClose, h, hv]

theorem Calc_ok_stages (s : List Char) (v : Float64) (h : Calc s = Outcome.ok v) :
    ∃ tokens post, parseExpression (s.filter (fun c => c != ' ')) = Outcome.ok tokens ∧
      toPostfix tokens = Outcome.ok post ∧ calculatePostfix post = Outcome.ok v := by
  rw [Calc_eq, replaceAll_space_eq_filter] at h
  split at h
  · exact Outcome.noConfusion h
  · split at h
    · exact Outcome.noConfusion h
    · exact Outcome.noConfusion h
    · rename_i tokens htok
      split at h
      · exact Outcome.noConfusion h
      · exact Outcome.noConfusion h
      · rename_i post hpost
        exact ⟨tokens, post, htok, hpost, h⟩

theorem Calc_ok_counts (s : List Char) (v : Float64) (h : Calc s = Outcome.ok v) :
    ∃ tokens, parseExpression (s.filter (fun c => c != ' ')) = Outcome.ok tokens ∧
      ¬ Unbalanced tokens ∧
      tokens.countP (fun t => t.isNumber) = tokens.countP token.isOperator + 1 := by
  obtain ⟨tokens, post, htok, hpost, hv⟩ := Calc_ok_stages s v h
  refine ⟨tokens, htok, ?_, ?_⟩
  · intro hu
    rw [(toPostfix_ok_iff tokens).2 hu] at hpost
    exact Outcome.noConfusion hpost
  · have hcnt := toPostfixLoop_counts tokens [] [] post hpost
    have hok := (calculatePostfix_ok_count post v hv).2
    unfold runningCount at hok
    have hshape := parseExpression_shape _ _ htok
    have hop : tokens.countP token.isOther = tokens.countP token.isOperator :=
      List.countP_congr (fun t ht => by rw [isOther_eq_isOperator t (hshape t ht)])
    simp only [List.countP_nil, Nat.zero_add] at hcnt
    omega

/-! ## Lemmas: the evaluator on a post-order traversal -/

theorem calculateLoop_number (l : List Char) (ts : List token) (stack : List Float64) :
    calculateLoop (⟨l, true⟩ :: ts) stack = calculateLoop ts ((ParseFloat l).1 :: stack) := by
  simp [calculateLoop]

theorem applyOperator_char (op : BinOp) (a b : Float64) :
    applyOperator [op.char] a b =
      if op = BinOp.div ∧ b.isZero = true then Outcome.error CalcError.DivisionByZero
      else Outcome.ok (op.apply a b) := by
  cases op <;> simp [applyOperator, BinOp.char, BinOp.apply] 

theorem calculateLoop_operator (op : BinOp) (ts : List token) (a b : Float64)
    (stack : List Float64) :
    calculateLoop (⟨[op.char], false⟩ :: ts) (b :: a :: stack) =
      if op = BinOp.div ∧ b.isZero = true then Outcome.error CalcError.DivisionByZero
      else calculateLoop ts (op.apply a b :: stack) := by
  by_cases h : op = BinOp.div ∧ b.isZero = true
  · simp [calculateLoop, applyOperator_char, h]
  · simp [calculateLoop, applyOperator_char, h]

theorem calculateLoop_postorder (e : Expr) : ∀ (ts : List token) (stack : List Float64),
    calculateLoop (e.postorder ++ ts) stack =
      match e.eval with
      | none => Outcome.error CalcError.DivisionByZero
      | some v => calculateLoop ts (v :: stack) := by
  induction e with
  | num l =>
    intro ts stack
    simp only [Expr.postorder, Expr.eval, List.singleton_append]
    exact calculateLoop_number l ts stack
  | paren e ih =>
    intro ts stack
    simp only [Expr.postorder, Expr.eval]
    exact ih ts stack
  | neg e ih =>
    intro ts stack
    simp only [Expr.postorder, Expr.eval, List.cons_append, List.append_assoc]
    rw [calculateLoop_number, ih]
    cases e.eval with
    | none => rfl
    | some b =>
      simp only [List.singleton_append]
      have := calculateLoop_operator BinOp.sub ts (ParseFloat ['0']).1 b stack
      simpa [BinOp.char, BinOp.apply] using this
  | bin op l r ihl ihr =>
    intro ts stack
    simp only [Expr.postorder, Expr.eval, List.append_assoc]
    rw [ihl]
    cases l.eval with
    | none => rfl
    | some a =>
      simp only
      rw [ihr]
      cases r.eval with
      | none => rfl
      | some b =>
        simp only [List.singleton_append]
        rw [calculateLoop_operator]
        split <;> rfl

theorem calculatePostfix_postorder (e : Expr) :
    calculatePostfix e.postorder =
      match e.eval with
      | none => Outcome.error CalcError.DivisionByZero
      | some v => Outcome.ok v := by
  have := calculateLoop_postorder e [] []
  rw [List.append_nil] at this
  unfold calculatePostfix
  rw [this]
  cases e.eval <;> rfl

theorem eval_eq (e : Expr) :
    e.eval = if e.zeroDivisor = true then none else some e.value := by
  induction e with
  | num l => rfl
  | paren e ih => simpa [Expr.eval, Expr.zeroDivisor, Expr.value] using ih
  | neg e ih =>
    simp only [Expr.eval, Expr.zeroDivisor, Expr.value, ih]
    cases e.zeroDivisor <;> simp
  | bin op l r ihl ihr =>
    simp only [Expr.eval, Expr.zeroDivisor, Expr.value, ihl, ihr]
    cases l.zeroDivisor <;> cases r.zeroDivisor <;> simp

/-! ## Lemmas: the converter on the tokens of an expression -/

theorem priority_char (op : BinOp) : priority [op.char] = op.prec := by
  cases op <;> decide

theorem char_ne_open (op : BinOp) : [op.char] ≠ ['('] := by
  cases op <;> decide

theorem char_ne_close (op : BinOp) : [op.char] ≠ [')'] := by
  cases op <;> decide

theorem prec_pos (op : BinOp) : 1 ≤ op.prec := by
  cases op <;> decide

theorem prec_le_two (op : BinOp) : op.prec ≤ 2 := by
  cases op <;> decide

theorem wellFormed_bin (op : BinOp) (l r : Expr) (h : (Expr.bin op l r).wellFormed = true) :
    op.prec - 1 ≤ l.level ∧ op.prec ≤ r.level ∧ l.wellFormed = true ∧ r.wellFormed = true := by
  simpa [Expr.wellFormed, and_assoc] using h

theorem wellFormed_bin_iff (op : BinOp) (l r : Expr) :
    (Expr.bin op l r).wellFormed = true ↔
      op.prec - 1 ≤ l.level ∧ op.prec ≤ r.level ∧ l.wellFormed = true ∧ r.wellFormed = true := by
  simp [Expr.wellFormed, and_assoc]

theorem wellFormed_neg (e : Expr) (h : (Expr.neg e).wellFormed = true) :
    1 ≤ e.level ∧ e.wellFormed = true := by
  simpa [Expr.wellFormed] using h

theorem emitted_pending (e : Expr) :
    e.emitted ++ e.pending.map (fun v => (⟨v, false⟩ : token)) = e.postorder := by
  induction e with
  | num l => rfl
  | paren e _ => simp [Expr.emitted, Expr.pending, Expr.postorder]
  | neg e ih =>
    simp only [Expr.emitted, Expr.pending, Expr.postorder, List.map_append, List.map_cons,
      List.map_nil, List.cons_append]
    rw [← List.append_assoc, ih]
  | bin op l r _ ihr =>
    simp only [Expr.emitted, Expr.pending, Expr.postorder, List.map_append, List.map_cons,
      List.map_nil, List.append_assoc]
    rw [← List.append_assoc r.emitted, ihr]

theorem pending_spec (e : Expr) (h : e.wellFormed = true) :
    ∀ v ∈ e.pending, v ≠ ['('] ∧ e.level < priority v := by
  induction e with
  | num l => intro v hv; simp [Expr.pending] at hv
  | paren e _ => intro v hv; simp [Expr.pending] at hv
  | neg e ih =>
    obtain ⟨hl, hw⟩ := wellFormed_neg e h
    intro v hv
    simp only [Expr.pending, List.mem_append, List.mem_singleton] at hv
    rcases hv with hv | hv
    · have := ih hw v hv
      exact ⟨this.1, by simp only [Expr.level]; omega⟩
    · subst hv
      exact ⟨by decide, by simp only [Expr.level]; decide⟩
  | bin op l r _ ihr =>
    obtain ⟨_, hr, _, hwr⟩ := wellFormed_bin op l r h
    intro v hv
    simp only [Expr.pending, List.mem_append, List.mem_singleton] at hv
    rcases hv with hv | hv
    · have := ihr hwr v hv
      exact ⟨this.1, by simp only [Expr.level]; omega⟩
    · subst hv
      refine ⟨char_ne_open op, ?_⟩
      rw [priority_char]
      have := prec_pos op
      simp only [Expr.level]; omega

theorem popHigher_pending (value : List Char) (pend : List (List Char)) :
    ∀ (result : List token) (stack : List (List Char)),
    (∀ v ∈ pend, v ≠ ['('] ∧ priority value ≤ priority v) →
    (∀ top ∈ stack.head?, top = ['('] ∨ priority top < priority value) →
    popHigher value result (pend ++ stack) =
      (result ++ pend.map (fun v => (⟨v, false⟩ : token)), stack) := by
  induction pend with
  | nil =>
    intro result stack _ hstack
    simp only [List.nil_append, List.map_nil, List.append_nil]
    cases stack with
    | nil => rfl
    | cons top stack =>
      unfold popHigher
      have := hstack top (by simp)
      rw [if_neg]
      rintro ⟨h1, h2⟩
      rcases this with h | h
      · exact h1 h
      · omega
  | cons v pend ih =>
    intro result stack hpend hstack
    simp only [List.cons_append, List.map_cons]
    unfold popHigher
    have hv := hpend v (by simp)
    rw [if_pos ⟨hv.1, hv.2⟩, ih _ _ (fun x hx => hpend x (by simp [hx])) hstack]
    simp

theorem popToParen_pending (pend : List (List Char)) :
    ∀ (result : List token) (stack : List (List Char)),
    (∀ v ∈ pend, v ≠ ['(']) →
    popToParen result (pend ++ ['('] :: stack) =
      (result ++ pend.map (fun v => (⟨v, false⟩ : token)), ['('] :: stack) := by
  induction pend with
  | nil => intro result stack _; simp [popToParen]
  | cons v pend ih =>
    intro result stack hpend
    simp only [List.cons_append, List.map_cons]
    unfold popToParen
    rw [if_pos (hpend v (by simp)), ih _ _ (fun x hx => hpend x (by simp [hx]))]
    simp

theorem drain_pending (pend : List (List Char)) : ∀ (result : List token),
    (∀ v ∈ pend, v ≠ ['(']) →
    drain result pend = Outcome.ok (result ++ pend.map (fun v => (⟨v, false⟩ : token))) := by
  induction pend with
  | nil => intro result _; simp [drain]
  | cons v pend ih =>
    intro result hpend
    unfold drain
    rw [if_neg (hpend v (by simp)), ih _ (fun x hx => hpend x (by simp [hx]))]
    simp

theorem toPostfixLoop_number (l : List Char) (ts result : List token)
    (stack : List (List Char)) :
    toPostfixLoop (⟨l, true⟩ :: ts) result stack =
      toPostfixLoop ts (result ++ [⟨l, true⟩]) stack := by
  simp [toPostfixLoop]

theorem toPostfixLoop_open (ts result : List token) (stack : List (List Char)) :
    toPostfixLoop (⟨['('], false⟩ :: ts) result stack =
      toPostfixLoop ts result (['('] :: stack) := by
  simp [toPostfixLoop]

theorem toPostfixLoop_close (ts result : List token) (pend stack : List (List Char))
    (h : ∀ v ∈ pend, v ≠ ['(']) :
    toPostfixLoop (⟨[')'], false⟩ :: ts) result (pend ++ ['('] :: stack) =
      toPostfixLoop ts (result ++ pend.map (fun v => (⟨v, false⟩ : token))) stack := by
  rw [toPostfixLoop]
  simp only [Bool.false_eq_true, ↓reduceIte, List.cons.injEq, Char.reduceEq, and_true,
    popToParen_pending pend result stack h]

theorem toPostfixLoop_operator (op : BinOp) (ts result : List token)
    (pend stack : List (List Char))
    (hpend : ∀ v ∈ pend, v ≠ ['('] ∧ op.prec ≤ priority v)
    (hstack : ∀ top ∈ stack.head?, top = ['('] ∨ priority top < op.prec) :
    toPostfixLoop (⟨[op.char], false⟩ :: ts) result (pend ++ stack) =
      toPostfixLoop ts (result ++ pend.map (fun v => (⟨v, false⟩ : token)))
        ([op.char] :: stack) := by
  rw [toPostfixLoop]
  simp only [Bool.false_eq_true, ↓reduceIte, char_ne_open op, char_ne_close op]
  rw [popHigher_pending [op.char] pend result stack
    (by rw [priority_char]; exact hpend) (by rw [priority_char]; exact hstack)]

theorem stackBelow_mono (m n : Nat) (h : m ≤ n) (stack : List (List Char))
    (hs : stackBelow m stack) : stackBelow n stack := by
  intro top htop
  rcases hs top htop with h1 | h1
  · exact Or.inl h1
  · exact Or.inr (by omega)

theorem toPostfixLoop_tokens (e : Expr) (hwf : e.wellFormed = true) :
    ∀ (ts result : List token) (stack : List (List Char)), stackBelow e.level stack →
    toPostfixLoop (e.tokens ++ ts) result stack =
      toPostfixLoop ts (result ++ e.emitted) (e.pending ++ stack) := by
  induction e with
  | num l =>
    intro ts result stack _
    simp only [Expr.tokens, Expr.emitted, Expr.pending, List.singleton_append, List.nil_append]
    exact toPostfixLoop_number l ts result stack
  | paren e ih =>
    intro ts result stack _
    have hw : e.wellFormed = true := by simpa [Expr.wellFormed] using hwf
    simp only [Expr.tokens, Expr.emitted, Expr.pending, List.cons_append, List.append_assoc,
      List.nil_append]
    rw [toPostfixLoop_open, ih hw _ _ _ (by intro top htop; simp at htop; exact Or.inl htop.symm),
      toPostfixLoop_close _ _ _ _ (fun v hv => (pending_spec e hw v hv).1),
      List.append_assoc, emitted_pending]
  | neg e ih =>
    intro ts result stack hstack
    obtain ⟨hl, hw⟩ := wellFormed_neg e hwf
    simp only [Expr.tokens, Expr.emitted, Expr.pending, List.cons_append, List.append_assoc]
    rw [toPostfixLoop_number]
    have hop := toPostfixLoop_operator BinOp.sub (e.tokens ++ ts) (result ++ [⟨['0'], true⟩])
      [] stack (by simp) (by
        intro top htop
        rcases hstack top htop with h1 | h1
        · exact Or.inl h1
        · right; simp only [Expr.level] at h1; simp only [BinOp.prec]; omega)
    simp only [List.nil_append, List.map_nil, List.append_nil, BinOp.char] at hop
    rw [hop, ih hw _ _ _ (by
      intro top htop
      simp only [List.head?_cons, Option.mem_def, Option.some.injEq] at htop
      subst htop
      right
      have : priority ['-'] = 1 := by decide
      omega)]
    simp
  | bin op l r ihl ihr =>
    intro ts result stack hstack
    obtain ⟨hl, hr, hwl, hwr⟩ := wellFormed_bin op l r hwf
    simp only [Expr.tokens, Expr.emitted, Expr.pending, List.cons_append, List.append_assoc,
      List.nil_append]
    simp only [Expr.level] at hstack
    rw [ihl hwl _ _ _ (stackBelow_mono _ _ hl _ hstack),
      toPostfixLoop_operator op _ _ _ _
        (fun v hv => ⟨(pending_spec l hwl v hv).1, by
          have := (pending_spec l hwl v hv).2
          omega⟩)
        (by
          intro top htop
          rcases hstack top htop with h1 | h1
          · exact Or.inl h1
          · right
            have := prec_pos op
            omega),
      ihr hwr _ _ _ (by
        intro top htop
        simp only [List.head?_cons, Option.mem_def, Option.some.injEq] at htop
        subst htop
        right
        rw [priority_char]; exact hr),
      ← emitted_pending l]
    simp

theorem toPostfix_tokens (e : Expr) (hwf : e.wellFormed = true) :
    toPostfix e.tokens = Outcome.ok e.postorder := by
  have := toPostfixLoop_tokens e hwf [] [] [] (by intro top htop; simp at htop)
  simp only [List.append_nil, List.nil_append] at this
  unfold toPostfix
  rw [this, toPostfixLoop, drain_pending _ _ (fun v hv => (pending_spec e hwf v hv).1),
    emitted_pending]

/-! ## Lemmas: the tokenizer on the text of an expression -/

theorem isSymbol_not_digit (c : Char) (h : isSymbol c = true) :
    (isDigit c || c == '.') = false := by
  unfold isSymbol at h
  simp only [Bool.or_eq_true, beq_iff_eq] at h
  rcases h with ((((h | h) | h) | h) | h) | h <;> subst h <;> decide

theorem isSymbol_char (op : BinOp) : isSymbol op.char = true := by
  cases op <;> decide

theorem parseLoop_digits (l : List Char) (hl : ∀ c ∈ l, (isDigit c || c == '.') = true) :
    ∀ (rest : List Char) (tokens : List token) (cur : List Char),
    parseLoop (l ++ rest) tokens cur = parseLoop rest tokens (cur ++ l) := by
  induction l with
  | nil => intro rest tokens cur; simp
  | cons c cs ih =>
    intro rest tokens cur
    rw [List.cons_append, parseLoop, if_pos (hl c (by simp)),
      ih (fun x hx => hl x (by simp [hx]))]
    simp

theorem parseLoop_symbol (c : Char) (h : isSymbol c = true) (rest : List Char)
    (tokens : List token) :
    parseLoop (c :: rest) tokens [] = parseLoop rest (tokens ++ [⟨[c], false⟩]) [] := by
  rw [parseLoop]
  simp [isSymbol_not_digit c h, h]

theorem isLiteral_spec (l : List Char) (h : isLiteral l = true) :
    (∀ c ∈ l, (isDigit c || c == '.') = true) ∧ (ParseFloat l).2 = none ∧ l ≠ [] := by
  unfold isLiteral at h
  simp only [Bool.and_eq_true, List.all_eq_true, decide_eq_true_eq] at h
  refine ⟨h.1, h.2, ?_⟩
  intro hnil
  subst hnil
  exact absurd h.2 (by decide)

theorem parseLoop_literal (l : List Char) (hl : isLiteral l = true) (rest : List Char)
    (hrest : ∀ c ∈ rest.head?, isSymbol c = true) (tokens : List token) :
    parseLoop (l ++ rest) tokens [] = parseLoop rest (tokens ++ [⟨l, true⟩]) [] := by
  obtain ⟨hd, hp, hne⟩ := isLiteral_spec l hl
  rw [parseLoop_digits l hd, List.nil_append]
  cases rest with
  | nil => simp [parseLoop, hne, hp]
  | cons c rest =>
    have hc : isSymbol c = true := hrest c (by simp)
    rw [parseLoop_symbol c hc, parseLoop]
    simp [isSymbol_not_digit c hc, hc, hne, hp]

theorem parseLoop_rewritten (e : Expr) (hwf : e.wellFormed = true) :
    ∀ (rest : List Char) (tokens : List token), (∀ c ∈ rest.head?, isSymbol c = true) →
    parseLoop (e.rewritten ++ rest) tokens [] = parseLoop rest (tokens ++ e.tokens) [] := by
  induction e with
  | num l =>
    intro rest tokens hrest
    exact parseLoop_literal l (by simpa [Expr.wellFormed] using hwf) rest hrest tokens
  | paren e ih =>
    intro rest tokens _
    have hw : e.wellFormed = true := by simpa [Expr.wellFormed] using hwf
    simp only [Expr.rewritten, Expr.tokens, List.cons_append, List.append_assoc,
      List.nil_append]
    rw [parseLoop_symbol '(' (by decide), ih hw _ _ (by simp; decide),
      parseLoop_symbol ')' (by decide)]
    simp
  | neg e ih =>
    intro rest tokens hrest
    obtain ⟨_, hw⟩ := wellFormed_neg e hwf
    simp only [Expr.rewritten, Expr.tokens, List.cons_append]
    have h0 := parseLoop_literal ['0'] (by decide) ('-' :: (e.rewritten ++ rest))
      (by simp; decide) tokens
    simp only [List.singleton_append] at h0
    rw [h0, parseLoop_symbol '-' (by decide), ih hw _ _ hrest]
    simp
  | bin op l r ihl ihr =>
    intro rest tokens hrest
    obtain ⟨_, _, hwl, hwr⟩ := wellFormed_bin op l r hwf
    simp only [Expr.rewritten, Expr.tokens, List.cons_append, List.append_assoc]
    rw [ihl hwl _ _ (by simp; exact isSymbol_char op), parseLoop_symbol _ (isSymbol_char op),
      ihr hwr _ _ hrest]
    simp

/-! ## Lemmas: the rewrite of the text of an expression -/

theorem replaceAll_paren_literal (l : List Char)
    (hl : ∀ c ∈ l, (isDigit c || c == '.') = true) (rest : List Char) :
    ReplaceAll (l ++ rest) ['(', '-'] ['(', '0', '-'] =
      l ++ ReplaceAll rest ['(', '-'] ['(', '0', '-'] := by
  induction l with
  | nil => rfl
  | cons c cs ih =>
    have hc : c ≠ '(' := by
      intro h
      have := hl c (by simp)
      subst h
      exact absurd this (by decide)
    rw [List.cons_append, replaceAll_paren_other _ _ hc, ih (fun x hx => hl x (by simp [hx]))]
    rfl

theorem render_startsNeg (e : Expr) (h : e.startsNeg = true) :
    ∃ tl, e.render = '-' :: tl := by
  induction e with
  | num l => simp [Expr.startsNeg] at h
  | paren e _ => simp [Expr.startsNeg] at h
  | neg e _ => exact ⟨e.render, rfl⟩
  | bin op l r ihl _ =>
    obtain ⟨tl, htl⟩ := ihl (by simpa [Expr.startsNeg] using h)
    exact ⟨tl ++ op.char :: r.render, by simp [Expr.render, htl]⟩

theorem render_head (e : Expr) (hwf : e.wellFormed = true) (h : e.startsNeg = false) :
    ∀ rest, (e.render ++ rest).head? ≠ some '-' := by
  induction e with
  | num l =>
    intro rest
    obtain ⟨hd, _, hne⟩ := isLiteral_spec l (by simpa [Expr.wellFormed] using hwf)
    cases l with
    | nil => exact absurd rfl hne
    | cons c cs =>
      simp only [Expr.render, List.cons_append, List.head?_cons, ne_eq, Option.some.injEq]
      intro hc
      have := hd c (by simp)
      subst hc
      exact absurd this (by decide)
  | paren e _ => intro rest; simp [Expr.render]
  | neg e _ => simp [Expr.startsNeg] at h
  | bin op l r ihl _ =>
    intro rest
    obtain ⟨_, _, hwl, _⟩ := wellFormed_bin op l r hwf
    simp only [Expr.render, List.append_assoc]
    exact ihl hwl (by simpa [Expr.startsNeg] using h) _

theorem startsNeg_level (e : Expr) (hwf : e.wellFormed = true) (h : e.startsNeg = true) :
    e.level = 0 := by
  induction e with
  | num l => simp [Expr.startsNeg] at h
  | paren e _ => simp [Expr.startsNeg] at h
  | neg e _ => rfl
  | bin op l r ihl _ =>
    obtain ⟨hl, _, hwl, _⟩ := wellFormed_bin op l r hwf
    have := ihl hwl (by simpa [Expr.startsNeg] using h)
    simp only [Expr.level]
    omega

theorem replaceAll_paren_render (e : Expr) (hwf : e.wellFormed = true) :
    ∀ rest, (if e.startsNeg = true then ['0'] else []) ++
        ReplaceAll (e.render ++ rest) ['(', '-'] ['(', '0', '-'] =
      e.rewritten ++ ReplaceAll rest ['(', '-'] ['(', '0', '-'] := by
  induction e with
  | num l =>
    intro rest
    obtain ⟨hd, _, _⟩ := isLiteral_spec l (by simpa [Expr.wellFormed] using hwf)
    simp only [Expr.startsNeg, Bool.false_eq_true, ↓reduceIte, List.nil_append, Expr.render,
      Expr.rewritten]
    exact replaceAll_paren_literal l hd rest
  | paren e ih =>
    intro rest
    have hw : e.wellFormed = true := by simpa [Expr.wellFormed] using hwf
    simp only [Expr.startsNeg, Bool.false_eq_true, ↓reduceIte, List.nil_append, Expr.render,
      Expr.rewritten, List.cons_append, List.append_assoc, List.singleton_append]
    have hih := ih hw (')' :: rest)
    rw [replaceAll_paren_other ')' rest (by decide)] at hih
    cases hs : e.startsNeg with
    | true =>
      obtain ⟨tl, htl⟩ := render_startsNeg e hs
      simp only [hs, ↓reduceIte, htl, List.cons_append, List.singleton_append,
        List.nil_append] at hih
      rw [replaceAll_paren_other '-' _ (by decide)] at hih
      rw [htl, List.cons_append, replaceAll_paren_match, hih]
    | false =>
      simp only [hs, Bool.false_eq_true, ↓reduceIte, List.nil_append] at hih
      rw [replaceAll_paren_open _ (render_head e hw hs _), hih]
  | neg e ih =>
    intro rest
    obtain ⟨hl, hw⟩ := wellFormed_neg e hwf
    have hs : e.startsNeg = false := by
      cases hs : e.startsNeg with
      | false => rfl
      | true => have := startsNeg_level e hw hs; omega
    have hih := ih hw rest
    simp only [hs, Bool.false_eq_true, ↓reduceIte, List.nil_append] at hih
    simp only [Expr.startsNeg, ↓reduceIte, Expr.render, Expr.rewritten, List.cons_append,
      List.singleton_append, List.nil_append]
    rw [replaceAll_paren_other '-' _ (by decide), hih]
  | bin op l r ihl ihr =>
    intro rest
    obtain ⟨_, hr, hwl, hwr⟩ := wellFormed_bin op l r hwf
    have hs : r.startsNeg = false := by
      cases hs : r.startsNeg with
      | false => rfl
      | true =>
        have := startsNeg_level r hwr hs
        have := prec_pos op
        omega
    have hihr := ihr hwr rest
    simp only [hs, Bool.false_eq_true, ↓reduceIte, List.nil_append] at hihr
    have hop : op.char ≠ '(' := by cases op <;> decide
    simp only [Expr.startsNeg, Expr.render, Expr.rewritten, List.append_assoc, List.cons_append]
    rw [ihl hwl, replaceAll_paren_other _ _ hop, hihr]

theorem render_ne_nil (e : Expr) (hwf : e.wellFormed = true) : e.render ≠ [] := by
  induction e with
  | num l => exact (isLiteral_spec l (by simpa [Expr.wellFormed] using hwf)).2.2
  | paren e _ => simp [Expr.render]
  | neg e _ => simp [Expr.render]
  | bin op l r _ _ => simp [Expr.render]

theorem render_no_space (e : Expr) (hwf : e.wellFormed = true) : ∀ c ∈ e.render, c ≠ ' ' := by
  induction e with
  | num l =>
    intro c hc hsp
    obtain ⟨hd, _, _⟩ := isLiteral_spec l (by simpa [Expr.wellFormed] using hwf)
    have := hd c hc
    subst hsp
    exact absurd this (by decide)
  | paren e ih =>
    have hw : e.wellFormed = true := by simpa [Expr.wellFormed] using hwf
    intro c hc
    simp only [Expr.render, List.mem_cons, List.mem_append, List.mem_singleton,
      List.not_mem_nil, or_false] at hc
    rcases hc with hc | hc | hc
    · subst hc; decide
    · exact ih hw c hc
    · subst hc; decide
  | neg e ih =>
    obtain ⟨_, hw⟩ := wellFormed_neg e hwf
    intro c hc
    simp only [Expr.render, List.mem_cons] at hc
    rcases hc with hc | hc
    · subst hc; decide
    · exact ih hw c hc
  | bin op l r ihl ihr =>
    obtain ⟨_, _, hwl, hwr⟩ := wellFormed_bin op l r hwf
    intro c hc
    simp only [Expr.render, List.mem_cons, List.mem_append] at hc
    rcases hc with hc | hc | hc
    · exact ihl hwl c hc
    · subst hc; cases op <;> decide
    · exact ihr hwr c hc

theorem startsNeg_iff_head (e : Expr) (hwf : e.wellFormed = true) :
    e.render.head? = some '-' ↔ e.startsNeg = true := by
  constructor
  · intro h
    cases hs : e.startsNeg with
    | true => rfl
    | false =>
      have := render_head e hwf hs []
      rw [List.append_nil] at this
      exact absurd h this
  · intro h
    obtain ⟨tl, htl⟩ := render_startsNeg e h
    rw [htl]; rfl

theorem parseExpression_render (e : Expr) (hwf : e.wellFormed = true) :
    parseExpression e.render = Outcome.ok e.tokens := by
  rw [parseExpression_eq _ (render_ne_nil e hwf)]
  have hrw := replaceAll_paren_render e hwf []
  rw [List.append_nil, replaceAll_paren_nil, List.append_nil] at hrw
  have hloop := parseLoop_rewritten e hwf [] [] (by simp)
  simp only [List.append_nil, List.nil_append] at hloop
  have hfin : parseLoop [] e.tokens [] = Outcome.ok e.tokens := by simp [parseLoop]
  cases hs : e.startsNeg with
  | true =>
    rw [if_pos ((startsNeg_iff_head e hwf).mpr hs), replaceAll_paren_other '0' _ (by decide)]
    simp only [hs, ↓reduceIte, List.singleton_append] at hrw
    rw [hrw, hloop, hfin]
  | false =>
    have hh : ¬ e.render.head? = some '-' := by
      intro h
      rw [(startsNeg_iff_head e hwf).mp h] at hs
      exact Bool.noConfusion hs
    rw [if_neg hh]
    simp only [hs, Bool.false_eq_true, ↓reduceIte, List.nil_append] at hrw
    rw [hrw, hloop, hfin]

/-- `Calc` on the text of a well-formed expression is the evaluation of its tree. -/
theorem Calc_render (e : Expr) (hwf : e.wellFormed = true) :
    Calc e.render =
      match e.eval with
      | none => Outcome.error CalcError.DivisionByZero
      | some v => Outcome.ok v := by
  have hfilter : e.render.filter (fun c => c != ' ') = e.render := by
    rw [List.filter_eq_self]
    intro c hc
    simpa using render_no_space e hwf c hc
  have hlen : ¬ e.render.length = 0 := by
    intro h; exact render_ne_nil e hwf (List.length_eq_zero.mp h)
  rw [Calc_eq, replaceAll_space_eq_filter, hfilter, if_neg hlen, parseExpression_render e hwf]
  simp only
  rw [toPostfix_tokens e hwf]
  simp only
  exact calculatePostfix_postorder e

/-! ## Lemmas: expressions without parentheses -/

theorem isIntLiteral_isLiteral (l : List Char) (h : isIntLiteral l = true) :
    isLiteral l = true := by
  unfold isIntLiteral at h
  unfold isLiteral
  simp only [Bool.and_eq_true, List.all_eq_true, decide_eq_true_eq] at h ⊢
  exact ⟨fun c hc => by simp [h.1 c hc], h.2⟩

theorem prec_eq_one_of_ne_two (op : BinOp) (h : ¬ op.prec = 2) : op.prec = 1 := by
  cases op <;> simp_all [BinOp.prec]

theorem treeFrom_spec (rest : List (BinOp × List Char)) :
    ∀ (acc : Option (Expr × BinOp)) (cur : Expr),
    (∀ p ∈ rest, isIntLiteral p.2 = true) →
    (∀ p ∈ rest, p.1 = BinOp.div → (ParseFloat p.2).1.isZero = false) →
    cur.wellFormed = true → 1 ≤ cur.level → cur.zeroDivisor = false →
    (∀ s op, acc = some (s, op) →
      s.wellFormed = true ∧ s.zeroDivisor = false ∧ op.prec = 1) →
    (treeFrom acc cur rest).wellFormed = true ∧
    (treeFrom acc cur rest).zeroDivisor = false ∧
    (treeFrom acc cur rest).render = (closeTree acc cur).render ++ renderTail rest ∧
    (treeFrom acc cur rest).value =
      standardFrom (acc.map (fun p => (p.1.value, p.2))) cur.value rest := by
  have hclose : ∀ (acc : Option (Expr × BinOp)) (cur : Expr),
      cur.wellFormed = true → 1 ≤ cur.level → cur.zeroDivisor = false →
      (∀ s op, acc = some (s, op) →
        s.wellFormed = true ∧ s.zeroDivisor = false ∧ op.prec = 1) →
      (closeTree acc cur).wellFormed = true ∧ (closeTree acc cur).zeroDivisor = false ∧
      (closeTree acc cur).value =
        closeTerm (acc.map (fun p => (p.1.value, p.2))) cur.value := by
    intro acc cur hw hl hz hacc
    match acc with
    | none => exact ⟨hw, hz, rfl⟩
    | some (s, op) =>
      obtain ⟨hsw, hsz, hop⟩ := hacc s op rfl
      refine ⟨?_, ?_, rfl⟩
      · exact (wellFormed_bin_iff op s cur).mpr ⟨by omega, by omega, hsw, hw⟩
      · have hnd : op ≠ BinOp.div := by
          intro h; subst h; simp [BinOp.prec] at hop
        simp [closeTree, Expr.zeroDivisor, hsz, hz, hnd]
  induction rest with
  | nil =>
    intro acc cur _ _ hw hl hz hacc
    obtain ⟨h1, h2, h3⟩ := hclose acc cur hw hl hz hacc
    exact ⟨h1, h2, by simp [treeFrom, renderTail], by simpa [treeFrom, standardFrom] using h3⟩
  | cons p rest ih =>
    obtain ⟨op, n⟩ := p
    intro acc cur hlit hdiv hw hl hz hacc
    have hn : isLiteral n = true := isIntLiteral_isLiteral n (hlit (op, n) (by simp))
    have hlit' : ∀ p ∈ rest, isIntLiteral p.2 = true := fun p hp => hlit p (by simp [hp])
    have hdiv' : ∀ p ∈ rest, p.1 = BinOp.div → (ParseFloat p.2).1.isZero = false :=
      fun p hp => hdiv p (by simp [hp])
    by_cases hop : op.prec = 2
    · have hstep := ih acc (Expr.bin op cur (Expr.num n)) hlit' hdiv'
        ((wellFormed_bin_iff op cur (Expr.num n)).mpr
          ⟨by omega, by show op.prec ≤ 2; omega, hw, hn⟩)
        (by show 1 ≤ op.prec - 1; omega)
        (by
          have := hdiv (op, n) (by simp)
          by_cases hd : op = BinOp.div
          · simp [Expr.zeroDivisor, hz, Expr.value, this hd]
          · simp [Expr.zeroDivisor, hz, hd])
        hacc
      simp only [treeFrom, standardFrom, if_pos hop]
      refine ⟨hstep.1, hstep.2.1, ?_, ?_⟩
      · rw [hstep.2.2.1]
        cases acc with
        | none => simp [closeTree, Expr.render, renderTail]
        | some q => simp [closeTree, Expr.render, renderTail]
      · rw [hstep.2.2.2]; rfl
    · have hop1 := prec_eq_one_of_ne_two op hop
      obtain ⟨h1, h2, h3⟩ := hclose acc cur hw hl hz hacc
      have hstep := ih (some (closeTree acc cur, op)) (Expr.num n) hlit' hdiv'
        hn (by show 1 ≤ 2; omega) rfl
        (by
          intro s op' h
          simp only [Option.some.injEq, Prod.mk.injEq] at h
          obtain ⟨hs, ho⟩ := h
          subst hs; subst ho
          exact ⟨h1, h2, hop1⟩)
      simp only [treeFrom, standardFrom, if_neg hop]
      refine ⟨hstep.1, hstep.2.1, ?_, ?_⟩
      · rw [hstep.2.2.1]
        simp [closeTree, Expr.render, renderTail]
      · rw [hstep.2.2.2]
        simp [Expr.value, h3]

theorem Calc_renderFlat (n0 : List Char) (rest : List (BinOp × List Char))
    (h0 : isIntLiteral n0 = true) (hrest : ∀ p ∈ rest, isIntLiteral p.2 = true)
    (hdiv : ∀ p ∈ rest, p.1 = BinOp.div → (ParseFloat p.2).1.isZero = false) :
    Calc (renderFlat n0 rest) = Outcome.ok (evalStandard n0 rest) := by
  have h := treeFrom_spec rest none (Expr.num n0) hrest hdiv
    (isIntLiteral_isLiteral n0 h0) (by show 1 ≤ 2; omega) rfl (by intro s op h; exact Option.noConfusion h)
  obtain ⟨hw, hz, hr, hv⟩ := h
  have hc := Calc_render _ hw
  rw [eval_eq, hz] at hc
  simp only [Bool.false_eq_true, ↓reduceIte] at hc
  rw [hr, hv] at hc
  exact hc

/-! ## Lemmas: a first literal that `ParseFloat` rejects -/

theorem Calc_invalid_first_literal (l rest : List Char) (hl : ∀ c ∈ l, isDigit c = true)
    (hne : l ≠ []) (herr : (ParseFloat l).2 ≠ none)
    (hrest : ∀ c ∈ rest.head?, isSymbol c = true) (hsp : ∀ c ∈ rest, c ≠ ' ') :
    Calc (l ++ rest) = Outcome.error (CalcError.InvalidNumber l) := by
  have hd : ∀ c ∈ l, (isDigit c || c == '.') = true := fun c hc => by simp [hl c hc]
  have hfilter : (l ++ rest).filter (fun c => c != ' ') = l ++ rest := by
    rw [List.filter_eq_self]
    intro c hc
    rcases List.mem_append.mp hc with h | h
    · have := hl c h
      have hcs : c ≠ ' ' := by
        intro e; subst e; exact absurd this (by decide)
      simpa using hcs
    · simpa using hsp c h
  have hne' : l ++ rest ≠ [] := by simp [hne]
  have hlen : ¬ (l ++ rest).length = 0 := fun h => hne' (List.length_eq_zero.mp h)
  have hhead : ¬ (l ++ rest).head? = some '-' := by
    cases l with
    | nil => exact absurd rfl hne
    | cons c cs =>
      simp only [List.cons_append, List.head?_cons, Option.some.injEq]
      intro e
      have := hl c (by simp)
      subst e
      exact absurd this (by decide)
  have hloop : parseLoop (ReplaceAll rest ['(', '-'] ['(', '0', '-']) [] l =
      Outcome.error (CalcError.InvalidNumber l) := by
    have hh := replaceAll_paren_head rest
    cases hr : ReplaceAll rest ['(', '-'] ['(', '0', '-'] with
    | nil => simp [parseLoop, hne, herr]
    | cons c tl =>
      rw [hr] at hh
      have hc : isSymbol c = true := hrest c (by rw [← hh]; simp)
      rw [parseLoop]
      simp [isSymbol_not_digit c hc, hc, hne, herr]
  rw [Calc_eq, replaceAll_space_eq_filter, hfilter, if_neg hlen, parseExpression_eq _ hne',
    if_neg hhead, replaceAll_paren_literal l hd, parseLoop_digits l hd, List.nil_append, hloop]

theorem hugeLiteral_digits : ∀ c ∈ hugeLiteral, isDigit c = true := by
  unfold hugeLiteral
  intro c hc
  rcases List.mem_cons.mp hc with h | h
  · subst h; decide
  · rw [List.eq_of_mem_replicate h]; decide

set_option maxRecDepth 100000 in
set_option exponentiation.threshold 2000 in
theorem hugeLiteral_out_of_range :
    ParseFloat hugeLiteral = (Float64.inf false, some NumError.ErrRange) := by
  decide

theorem hugeLiteral_invalid : (ParseFloat hugeLiteral).2 ≠ none := by
  rw [hugeLiteral_out_of_range]
  exact fun h => Option.noConfusion h

theorem hugeLiteral_ne_nil : hugeLiteral ≠ [] := List.cons_ne_nil _ _

/-! ## Lemmas: the error switch of the handler -/

theorem invalidNumber_message_ne (l : List Char) :
    (CalcError.InvalidNumber l).Error ≠ "неподдерживаемый символ" ∧
    (CalcError.InvalidNumber l).Error ≠ "некорректное число" ∧
    (CalcError.InvalidNumber l).Error ≠ "некорректное выражение" ∧
    (CalcError.InvalidNumber l).Error ≠ "несбалансированные скобки" ∧
    (CalcError.InvalidNumber l).Error ≠ "пустое выражение" := by
  refine ⟨?_, ?_, ?_, ?_, ?_⟩ <;>
  · intro h
    have := congrArg String.data h
    simp [CalcError.Error] at this

theorem unsupportedCharacter_message_ne (c : Char) :
    (CalcError.UnsupportedCharacter c).Error ≠ "неподдерживаемый символ" ∧
    (CalcError.UnsupportedCharacter c).Error ≠ "некорректное число" ∧
    (CalcError.UnsupportedCharacter c).Error ≠ "некорректное выражение" ∧
    (CalcError.UnsupportedCharacter c).Error ≠ "несбалансированные скобки" ∧
    (CalcError.UnsupportedCharacter c).Error ≠ "пустое выражение" := by
  refine ⟨?_, ?_, ?_, ?_, ?_⟩ <;>
  · intro h
    have := congrArg String.data h
    simp [CalcError.Error, String.singleton] at this

/-- The status the handler answers with on each error of `Calc`: 422 on the three errors
whose message is one of the cases of the switch, 500 on the three others. -/
theorem calculateHandler_of_error (body : List Char) (e : CalcError)
    (h : Calc body = Outcome.error e) :
    calculateHandler "POST" (some body) =
      if e = CalcError.EmptyExpression ∨ e = CalcError.UnbalancedParentheses ∨
          e = CalcError.MalformedExpression then
        some (Response.text 422 "Expression is not valid")
      else some (Response.text 500 "Internal server error") := by
  unfold calculateHandler
  rw [if_neg (by decide)]
  simp only [h]
  cases e with
  | EmptyExpression => decide
  | UnbalancedParentheses => decide
  | MalformedExpression => decide
  | DivisionByZero => decide
  | InvalidNumber l =>
    obtain ⟨h1, h2, h3, h4, h5⟩ := invalidNumber_message_ne l
    simp [h1, h2, h3, h4, h5]
  | UnsupportedCharacter c =>
    obtain ⟨h1, h2, h3, h4, h5⟩ := unsupportedCharacter_message_ne c
    simp [h1, h2, h3, h4, h5]

/-! ## Lemmas: the token invariant -/

theorem ParseFloat_ok (l : List Char) (h : (ParseFloat l).2 = none) :
    (∀ c ∈ l, isDigit c = true ∨ c = '.') ∧ l ≠ [] ∧ l.count '.' ≤ 1 := by
  unfold ParseFloat at h
  split at h
  · rename_i hc
    simp only [Bool.and_eq_true, List.all_eq_true, Bool.or_eq_true, beq_iff_eq,
      List.any_eq_true, decide_eq_true_eq] at hc
    obtain ⟨⟨hall, c, hc, _⟩, hcount⟩ := hc
    exact ⟨hall, List.ne_nil_of_mem hc, hcount⟩
  · exact absurd h (by simp)

theorem isSymbol_cases (c : Char) (h : isSymbol c = true) :
    [c] = ['+'] ∨ [c] = ['-'] ∨ [c] = ['*'] ∨ [c] = ['/'] ∨ [c] = ['('] ∨ [c] = [')'] := by
  unfold isSymbol at h
  simp only [Bool.or_eq_true, beq_iff_eq] at h
  rcases h with ((((h | h) | h) | h) | h) | h <;> subst h <;> simp

theorem parseLoop_valid (expr : List Char) : ∀ (tokens : List token) (cur : List Char)
    (ts : List token), (∀ t ∈ tokens, t.valid) →
    parseLoop expr tokens cur = Outcome.ok ts → ∀ t ∈ ts, t.valid := by
  have hnum : ∀ cur : List Char, cur ≠ [] → ¬ (ParseFloat cur).2 ≠ none →
      (⟨cur, true⟩ : token).valid := by
    intro cur hne hp
    have hp' : (ParseFloat cur).2 = none := by simpa using hp
    obtain ⟨h1, _, h3⟩ := ParseFloat_ok cur hp'
    exact Or.inl ⟨rfl, hne, h1, h3, hp'⟩
  induction expr with
  | nil =>
    intro tokens cur ts hv h
    unfold parseLoop at h
    split at h
    · rename_i hne
      split at h
      · exact Outcome.noConfusion h
      · rename_i hp
        simp only [Outcome.ok.injEq] at h
        subst h
        intro t ht
        rcases List.mem_append.mp ht with ht | ht
        · exact hv t ht
        · simp only [List.mem_singleton] at ht
          subst ht
          exact hnum cur hne hp
    · simp only [Outcome.ok.injEq] at h
      subst h
      exact hv
  | cons c cs ih =>
    intro tokens cur ts hv h
    unfold parseLoop at h
    split at h
    · exact ih _ _ _ hv h
    · split at h
      · rename_i hsym
        split at h
        · rename_i hne
          split at h
          · exact Outcome.noConfusion h
          · rename_i hp
            refine ih _ _ _ ?_ h
            intro t ht
            simp only [List.append_assoc, List.singleton_append, List.mem_append,
              List.mem_cons, List.mem_singleton, List.not_mem_nil, or_false] at ht
            rcases ht with ht | ht | ht
            · exact hv t ht
            · subst ht; exact hnum cur hne hp
            · subst ht; exact Or.inr ⟨rfl, isSymbol_cases c hsym⟩
        · refine ih _ _ _ ?_ h
          intro t ht
          rcases List.mem_append.mp ht with ht | ht
          · exact hv t ht
          · simp only [List.mem_singleton] at ht
            subst ht; exact Or.inr ⟨rfl, isSymbol_cases c hsym⟩
      · exact Outcome.noConfusion h

theorem parseExpression_valid (expr : List Char) (ts : List token)
    (h : parseExpression expr = Outcome.ok ts) : ∀ t ∈ ts, t.valid := by
  cases expr with
  | nil => exact Outcome.noConfusion h
  | cons c cs =>
    rw [parseExpression_eq _ (by simp)] at h
    exact parseLoop_valid _ _ _ _ (by simp) h

/-! ## Lemmas: a minus directly after a binary operator -/

theorem isLiteral_no_space (l : List Char) (h : isLiteral l = true) : ∀ c ∈ l, c ≠ ' ' := by
  intro c hc hsp
  have := (isLiteral_spec l h).1 c hc
  subst hsp
  exact absurd this (by decide)

theorem parseExpression_operator_minus (a b : List Char) (op : BinOp)
    (ha : isLiteral a = true) (hb : isLiteral b = true) :
    parseExpression (a ++ op.char :: '-' :: b) =
      Outcome.ok [⟨a, true⟩, ⟨[op.char], false⟩, ⟨['-'], false⟩, ⟨b, true⟩] := by
  obtain ⟨had, _, hane⟩ := isLiteral_spec a ha
  obtain ⟨hbd, _, _⟩ := isLiteral_spec b hb
  have hne : a ++ op.char :: '-' :: b ≠ [] := by simp
  have hhead : ¬ (a ++ op.char :: '-' :: b).head? = some '-' := by
    cases a with
    | nil => exact absurd rfl hane
    | cons c cs =>
      simp only [List.cons_append, List.head?_cons, Option.some.injEq]
      intro e
      have := had c (by simp)
      subst e
      exact absurd this (by decide)
  have hop : op.char ≠ '(' := by cases op <;> decide
  have hb' := replaceAll_paren_literal b hbd []
  rw [List.append_nil, replaceAll_paren_nil, List.append_nil] at hb'
  rw [parseExpression_eq _ hne, if_neg hhead, replaceAll_paren_literal a had,
    replaceAll_paren_other _ _ hop, replaceAll_paren_other _ _ (by decide), hb',
    parseLoop_literal a ha _ (by simp; exact isSymbol_char op),
    parseLoop_symbol _ (isSymbol_char op), parseLoop_symbol '-' (by decide)]
  have hl := parseLoop_literal b hb [] (by simp)
    ([] ++ [⟨a, true⟩] ++ [⟨[op.char], false⟩] ++ [⟨['-'], false⟩])
  rw [List.append_nil] at hl
  rw [hl]
  simp [parseLoop]

theorem Calc_operator_minus (a b : List Char) (op : BinOp)
    (ha : isLiteral a = true) (hb : isLiteral b = true) :
    Calc (a ++ op.char :: '-' :: b) = Outcome.error CalcError.MalformedExpression := by
  have hfilter : (a ++ op.char :: '-' :: b).filter (fun c => c != ' ') =
      a ++ op.char :: '-' :: b := by
    rw [List.filter_eq_self]
    intro c hc
    simp only [List.mem_append, List.mem_cons] at hc
    rcases hc with hc | hc | hc | hc
    · simpa using isLiteral_no_space a ha c hc
    · subst hc; cases op <;> decide
    · subst hc; decide
    · simpa using isLiteral_no_space b hb c hc
  have hlen : ¬ (a ++ op.char :: '-' :: b).length = 0 := by simp
  rw [Calc_eq, replaceAll_space_eq_filter, hfilter, if_neg hlen,
    parseExpression_operator_minus a b op ha hb]
  cases op <;>
    simp [toPostfix, toPostfixLoop, popHigher, drain, priority, BinOp.char, calculatePostfix,
      calculateLoop]

/-! ## Lemmas: the converter on the tokens of an expression, whatever its literals -/

theorem wellNested_bin (op : BinOp) (l r : Expr) (h : (Expr.bin op l r).wellNested = true) :
    op.prec - 1 ≤ l.level ∧ op.prec ≤ r.level ∧ l.wellNested = true ∧ r.wellNested = true := by
  simpa [Expr.wellNested, and_assoc] using h

theorem wellNested_neg (e : Expr) (h : (Expr.neg e).wellNested = true) :
    1 ≤ e.level ∧ e.wellNested = true := by
  simpa [Expr.wellNested] using h

theorem pending_nested (e : Expr) (h : e.wellNested = true) :
    ∀ v ∈ e.pending, v ≠ ['('] ∧ e.level < priority v := by
  induction e with
  | num l => intro v hv; simp [Expr.pending] at hv
  | paren e _ => intro v hv; simp [Expr.pending] at hv
  | neg e ih =>
    obtain ⟨hl, hw⟩ := wellNested_neg e h
    intro v hv
    simp only [Expr.pending, List.mem_append, List.mem_singleton] at hv
    rcases hv with hv | hv
    · have := ih hw v hv
      exact ⟨this.1, by simp only [Expr.level]; omega⟩
    · subst hv
      exact ⟨by decide, by simp only [Expr.level]; decide⟩
  | bin op l r _ ihr =>
    obtain ⟨_, hr, _, hwr⟩ := wellNested_bin op l r h
    intro v hv
    simp only [Expr.pending, List.mem_append, List.mem_singleton] at hv
    rcases hv with hv | hv
    · have := ihr hwr v hv
      exact ⟨this.1, by simp only [Expr.level]; omega⟩
    · subst hv
      refine ⟨char_ne_open op, ?_⟩
      rw [priority_char]
      have := prec_pos op
      simp only [Expr.level]; omega

theorem toPostfixLoop_nested (e : Expr) (hwf : e.wellNested = true) :
    ∀ (ts result : List token) (stack : List (List Char)), stackBelow e.level stack →
    toPostfixLoop (e.tokens ++ ts) result stack =
      toPostfixLoop ts (result ++ e.emitted) (e.pending ++ stack) := by
  induction e with
  | num l =>
    intro ts result stack _
    simp only [Expr.tokens, Expr.emitted, Expr.pending, List.singleton_append, List.nil_append]
    exact toPostfixLoop_number l ts result stack
  | paren e ih =>
    intro ts result stack _
    have hw : e.wellNested = true := by simpa [Expr.wellNested] using hwf
    simp only [Expr.tokens, Expr.emitted, Expr.pending, List.cons_append, List.append_assoc,
      List.nil_append]
    rw [toPostfixLoop_open, ih hw _ _ _ (by intro top htop; simp at htop; exact Or.inl htop.symm),
      toPostfixLoop_close _ _ _ _ (fun v hv => (pending_nested e hw v hv).1),
      List.append_assoc, emitted_pending]
  | neg e ih =>
    intro ts result stack hstack
    obtain ⟨hl, hw⟩ := wellNested_neg e hwf
    simp only [Expr.tokens, Expr.emitted, Expr.pending, List.cons_append, List.append_assoc]
    rw [toPostfixLoop_number]
    have hop := toPostfixLoop_operator BinOp.sub (e.tokens ++ ts) (result ++ [⟨['0'], true⟩])
      [] stack (by simp) (by
        intro top htop
        rcases hstack top htop with h1 | h1
        · exact Or.inl h1
        · right; simp only [Expr.level] at h1; simp only [BinOp.prec]; omega)
    simp only [List.nil_append, List.map_nil, List.append_nil, BinOp.char] at hop
    rw [hop, ih hw _ _ _ (by
      intro top htop
      simp only [List.head?_cons, Option.mem_def, Option.some.injEq] at htop
      subst htop
      right
      have : priority ['-'] = 1 := by decide
      omega)]
    simp
  | bin op l r ihl ihr =>
    intro ts result stack hstack
    obtain ⟨hl, hr, hwl, hwr⟩ := wellNested_bin op l r hwf
    simp only [Expr.tokens, Expr.emitted, Expr.pending, List.cons_append, List.append_assoc,
      List.nil_append]
    simp only [Expr.level] at hstack
    rw [ihl hwl _ _ _ (stackBelow_mono _ _ hl _ hstack),
      toPostfixLoop_operator op _ _ _ _
        (fun v hv => ⟨(pending_nested l hwl v hv).1, by
          have := (pending_nested l hwl v hv).2
          omega⟩)
        (by
          intro top htop
          rcases hstack top htop with h1 | h1
          · exact Or.inl h1
          · right
            have := prec_pos op
            omega),
      ihr hwr _ _ _ (by
        intro top htop
        simp only [List.head?_cons, Option.mem_def, Option.some.injEq] at htop
        subst htop
        right
        rw [priority_char]; exact hr),
      ← emitted_pending l]
    simp

theorem toPostfix_nested (e : Expr) (hwf : e.wellNested = true) :
    toPostfix e.tokens = Outcome.ok e.postorder := by
  have := toPostfixLoop_nested e hwf [] [] [] (by intro top htop; simp at htop)
  simp only [List.append_nil, List.nil_append] at this
  unfold toPostfix
  rw [this, toPostfixLoop, drain_pending _ _ (fun v hv => (pending_nested e hwf v hv).1),
    emitted_pending]

theorem wellNested_of_wellFormed (e : Expr) (h : e.wellFormed = true) :
    e.wellNested = true := by
  induction e with
  | num l =>
    obtain ⟨hd, _, hne⟩ := isLiteral_spec l (by simpa [Expr.wellFormed] using h)
    simp only [Expr.wellNested, Bool.and_eq_true, Bool.not_eq_true', List.isEmpty_eq_false,
      List.all_eq_true]
    exact ⟨by simpa using hne, fun c hc => hd c hc⟩
  | paren e ih => exact ih (by simpa [Expr.wellFormed] using h)
  | neg e ih =>
    obtain ⟨hl, hw⟩ := wellFormed_neg e h
    simp [Expr.wellNested, hl, ih hw]
  | bin op l r ihl ihr =>
    obtain ⟨hl, hr, hwl, hwr⟩ := wellFormed_bin op l r h
    simp [Expr.wellNested, hl, hr, ihl hwl, ihr hwr]

/-! ## Lemmas: the first unsupported character -/

theorem parseExpression_filter_eq (s : List Char) (h : s.filter (fun c => c != ' ') ≠ []) :
    parseExpression (s.filter (fun c => c != ' ')) = parseLoop (unaryRewrite s) [] [] := by
  rw [parseExpression_eq _ h]
  rfl

theorem Calc_of_parse_error (s : List Char) (e : CalcError)
    (h : parseExpression (s.filter (fun c => c != ' ')) = Outcome.error e) :
    Calc s = Outcome.error e := by
  have hne : s.filter (fun c => c != ' ') ≠ [] := by
    intro he
    rw [he] at h
    exact Outcome.noConfusion h
  have hlen : ¬ (s.filter (fun c => c != ' ')).length = 0 :=
    fun h0 => hne (List.length_eq_zero.mp h0)
  rw [Calc_eq, replaceAll_space_eq_filter, if_neg hlen, h]

theorem parseLoop_unsupported (c : Char) (post : List Char)
    (hc : isNumberChar c = false ∧ isSymbol c = false) (pre : List Char) :
    ∀ (a0 cur : List Char) (tokens : List token),
    (∀ z ∈ a0.getLast?, isNumberChar z = false) →
    (∀ x ∈ pre, isNumberChar x = true ∨ isSymbol x = true) →
    (∀ l, ClosedRun l (a0 ++ cur ++ pre) → (ParseFloat l).2 = none) →
    (∀ x ∈ cur, isNumberChar x = true) →
    parseLoop (pre ++ c :: post) tokens cur =
      Outcome.error (CalcError.UnsupportedCharacter c) := by
  induction pre with
  | nil =>
    intro a0 cur tokens _ _ _ _
    have h1 : (isDigit c || c == '.') = false := hc.1
    rw [List.nil_append, parseLoop]
    simp [h1, hc.2]
  | cons x pre ih =>
    intro a0 cur tokens ha0 hpre hvalid hcur
    have hpre' : ∀ y ∈ pre, isNumberChar y = true ∨ isSymbol y = true :=
      fun y hy => hpre y (by simp [hy])
    rw [List.cons_append, parseLoop]
    by_cases hx : (isDigit x || x == '.') = true
    · rw [if_pos hx]
      refine ih a0 (cur ++ [x]) tokens ha0 hpre' ?_ ?_
      · intro l hl
        exact hvalid l (by simpa using hl)
      · intro y hy
        rcases List.mem_append.mp hy with hy | hy
        · exact hcur y hy
        · simp only [List.mem_singleton] at hy
          subst hy; exact hx
    · have hsym : isSymbol x = true := by
        rcases hpre x (by simp) with h | h
        · exact absurd h hx
        · exact h
      have hxn : isNumberChar x = false := by simpa [isNumberChar] using hx
      rw [if_neg hx, if_pos hsym]
      by_cases hne : cur = []
      · subst hne
        simp only [ne_eq, not_true_eq_false, ↓reduceIte]
        refine ih (a0 ++ [x]) [] _ ?_ hpre' ?_ (by simp)
        · intro z hz
          rw [List.getLast?_concat] at hz
          simp only [Option.mem_def, Option.some.injEq] at hz
          subst hz; exact hxn
        · intro l hl
          exact hvalid l (by simpa using hl)
      · have hv : (ParseFloat cur).2 = none :=
          hvalid cur ⟨hne, hcur, a0, x, pre, by simp, hsym, ha0⟩
        rw [if_pos hne, if_neg (by simp [hv])]
        refine ih (a0 ++ cur ++ [x]) [] _ ?_ hpre' ?_ (by simp)
        · intro z hz
          rw [List.getLast?_concat] at hz
          simp only [Option.mem_def, Option.some.injEq] at hz
          subst hz; exact hxn
        · intro l hl
          exact hvalid l (by simpa using hl)

theorem mem_filter_of_mem_unaryRewrite (s : List Char) (c : Char) (h : c ∈ unaryRewrite s)
    (hc : c ≠ '0') : c ∈ s.filter (fun c => c != ' ') := by
  unfold unaryRewrite at h
  simp only at h
  rcases replaceAll_paren_mem_cases _ _ h with h | h
  · split at h
    · rcases List.mem_cons.mp h with h | h
      · exact absurd h hc
      · exact h
    · exact h
  · exact absurd h hc

/-! ## Lemmas: the tokens and the maximal runs -/

theorem modifyHead_comp (f g : List Char → List Char) (l : List (List Char)) :
    (l.modifyHead g).modifyHead f = l.modifyHead (f ∘ g) := by
  cases l <;> rfl

theorem runsFrom_eq (s : List Char) : ∀ cur : List Char,
    runsFrom cur s =
      ((s.splitOnP (fun c => !isNumberChar c)).modifyHead (fun l => cur ++ l)).filter
        (fun l => !l.isEmpty) := by
  induction s with
  | nil =>
    intro cur
    cases cur <;> simp [runsFrom, List.splitOnP_nil, List.modifyHead]
  | cons c cs ih =>
    intro cur
    rw [List.splitOnP_cons, runsFrom]
    by_cases hc : isNumberChar c = true
    · simp only [hc, ↓reduceIte, Bool.not_true, Bool.false_eq_true]
      rw [ih, modifyHead_comp]
      congr 2
      funext l
      simp
    · simp only [Bool.not_eq_true] at hc
      simp only [hc, Bool.false_eq_true, ↓reduceIte, Bool.not_false, List.modifyHead,
        List.append_nil]
      have hnil : runsFrom [] cs =
          (cs.splitOnP (fun c => !isNumberChar c)).filter (fun l => !l.isEmpty) := by
        rw [ih]
        congr 1
        cases cs.splitOnP (fun c => !isNumberChar c) <;> simp [List.modifyHead]
      rw [hnil]
      cases cur <;> simp [List.filter_cons]

theorem maximalRuns_eq (s : List Char) : maximalRuns s = runsFrom [] s := by
  rw [runsFrom_eq]
  unfold maximalRuns
  congr 1
  cases s.splitOnP (fun c => !isNumberChar c) <;> simp [List.modifyHead]

theorem parseLoop_lossless (expr : List Char) : ∀ (tokens : List token) (cur : List Char)
    (ts : List token), parseLoop expr tokens cur = Outcome.ok ts →
    (ts.map token.value).flatten = (tokens.map token.value).flatten ++ cur ++ expr ∧
    (ts.filter (fun t => t.isNumber)).map token.value =
      (tokens.filter (fun t => t.isNumber)).map token.value ++ runsFrom cur expr := by
  induction expr with
  | nil =>
    intro tokens cur ts h
    unfold parseLoop at h
    split at h
    · rename_i hne
      split at h
      · exact Outcome.noConfusion h
      · simp only [Outcome.ok.injEq] at h
        subst h
        simp [runsFrom, hne, List.filter_append]
    · rename_i hne
      simp only [ne_eq, Decidable.not_not] at hne
      simp only [Outcome.ok.injEq] at h
      subst h; subst hne
      simp [runsFrom]
  | cons c cs ih =>
    intro tokens cur ts h
    unfold parseLoop at h
    split at h
    · rename_i hc
      have hc' : isNumberChar c = true := hc
      have := ih _ _ _ h
      simp only [runsFrom, hc', ↓reduceIte]
      refine ⟨?_, this.2⟩
      rw [this.1]; simp
    · rename_i hc
      have hc' : isNumberChar c = false := by simpa [isNumberChar] using hc
      split at h
      · split at h
        · rename_i hne
          split at h
          · exact Outcome.noConfusion h
          · have := ih _ _ _ h
            simp only [runsFrom, hc', Bool.false_eq_true, ↓reduceIte, hne]
            constructor
            · rw [this.1]; simp
            · rw [this.2]; simp [List.filter_append, List.filter_cons, hne]
        · rename_i hne
          simp only [ne_eq, Decidable.not_not] at hne
          subst hne
          have := ih _ _ _ h
          simp only [runsFrom, hc', Bool.false_eq_true, ↓reduceIte, ne_eq, not_true_eq_false]
          constructor
          · rw [this.1]; simp
          · rw [this.2]; simp [List.filter_append, List.filter_cons]
      · exact Outcome.noConfusion h

theorem parseExpression_rewriteExpr (expr : List Char) (h : expr ≠ []) :
    parseExpression expr = parseLoop (rewriteExpr expr) [] [] :=
  parseExpression_eq expr h

theorem parseExpression_lossless_aux (expr : List Char) (ts : List token)
    (h : parseExpression expr = Outcome.ok ts) :
    (ts.map token.value).flatten = rewriteExpr expr ∧
    (ts.filter (fun t => t.isNumber)).map token.value = maximalRuns (rewriteExpr expr) := by
  have hne : expr ≠ [] := by
    intro e; rw [e] at h; exact Outcome.noConfusion h
  rw [parseExpression_rewriteExpr expr hne] at h
  have := parseLoop_lossless _ _ _ _ h
  rw [maximalRuns_eq]
  simpa using this

/-! ## Lemmas: the leftmost run that does not parse -/

theorem find_cons_run (cur : List Char) (rest : List (List Char)) :
    (cur :: rest).find? invalidRun = if invalidRun cur = true then some cur
      else rest.find? invalidRun := by
  rw [List.find?_cons]
  cases invalidRun cur <;> rfl

theorem runsFrom_symbol (c : Char) (hc : isNumberChar c = false) (cs : List Char) :
    runsFrom [] (c :: cs) = runsFrom [] cs := by
  simp [runsFrom, hc]

theorem runsFrom_cons_number (cur : List Char) (c : Char) (cs : List Char)
    (hc : isNumberChar c = true) : runsFrom cur (c :: cs) = runsFrom (cur ++ [c]) cs := by
  simp [runsFrom, hc]

theorem runsFrom_cons_other (cur : List Char) (c : Char) (cs : List Char)
    (hc : isNumberChar c = false) (hne : cur ≠ []) :
    runsFrom cur (c :: cs) = cur :: runsFrom [] cs := by
  simp [runsFrom, hc, hne]

theorem parseLoop_cons_number (c : Char) (cs : List Char) (tokens : List token)
    (cur : List Char) (hc : isNumberChar c = true) :
    parseLoop (c :: cs) tokens cur = parseLoop cs tokens (cur ++ [c]) := by
  have hc' : (isDigit c || c == '.') = true := hc
  rw [parseLoop, if_pos hc']

theorem parseLoop_cons_symbol (c : Char) (cs : List Char) (tokens : List token)
    (cur : List Char) (hc : isSymbol c = true) (hne : cur ≠ []) :
    parseLoop (c :: cs) tokens cur =
      if (ParseFloat cur).2 ≠ none then Outcome.error (CalcError.InvalidNumber cur)
      else parseLoop cs (tokens ++ [⟨cur, true⟩] ++ [⟨[c], false⟩]) [] := by
  rw [parseLoop, if_neg (by simp [isSymbol_not_digit c hc]), if_pos hc, if_pos hne]

theorem parseLoop_first_invalid (s : List Char) :
    ∀ (tokens : List token) (cur : List Char),
    (∀ c ∈ s, isNumberChar c = true ∨ isSymbol c = true) →
    (∀ l, (runsFrom cur s).find? invalidRun = some l →
      parseLoop s tokens cur = Outcome.error (CalcError.InvalidNumber l)) ∧
    ((runsFrom cur s).find? invalidRun = none → ∃ ts, parseLoop s tokens cur = Outcome.ok ts) := by
  induction s with
  | nil =>
    intro tokens cur _
    unfold parseLoop runsFrom
    by_cases hne : cur = []
    · subst hne; simp
    · by_cases hv : (ParseFloat cur).2 = none
      · simp [hne, hv, invalidRun]
      · simp [hne, hv, invalidRun]
  | cons c cs ih =>
    intro tokens cur hs
    have hs' : ∀ x ∈ cs, isNumberChar x = true ∨ isSymbol x = true :=
      fun x hx => hs x (by simp [hx])
    by_cases hc : isNumberChar c = true
    · rw [runsFrom_cons_number cur c cs hc, parseLoop_cons_number c cs tokens cur hc]
      exact ih _ _ hs'
    · have hsym : isSymbol c = true := by
        rcases hs c (by simp) with h | h
        · exact absurd h hc
        · exact h
      have hcf : isNumberChar c = false := by simpa using hc
      by_cases hne : cur = []
      · subst hne
        rw [runsFrom_symbol c hcf, parseLoop_symbol c hsym]
        exact ih _ _ hs'
      · rw [runsFrom_cons_other cur c cs hcf hne, parseLoop_cons_symbol c cs tokens cur hsym hne,
          find_cons_run]
        by_cases hv : (ParseFloat cur).2 = none
        · have hinv : invalidRun cur = false := by simp [invalidRun, hv]
          rw [hinv, if_neg (show ¬ (ParseFloat cur).2 ≠ none by simp [hv]),
            if_neg (show ¬ (false = true) by simp)]
          exact ih _ _ hs'
        · have hinv : invalidRun cur = true := by simp [invalidRun, hv]
          rw [hinv, if_pos (show (ParseFloat cur).2 ≠ none from hv)]
          simp only [↓reduceIte, Option.some.injEq]
          constructor
          · intro l hl; rw [hl]
          · intro h; exact absurd h (by simp)

theorem find_runsFrom_replaceAll (n : Nat) : ∀ (s : List Char), s.length ≤ n →
    ∀ cur : List Char,
    (runsFrom cur (ReplaceAll s ['(', '-'] ['(', '0', '-'])).find? invalidRun =
      (runsFrom cur s).find? invalidRun := by
  induction n with
  | zero =>
    intro s hs cur
    have : s = [] := List.length_eq_zero.mp (Nat.le_zero.mp hs)
    subst this; rfl
  | succ n ih =>
    intro s hs cur
    cases s with
    | nil => rfl
    | cons a as =>
      have hlen : as.length ≤ n := by simpa using hs
      by_cases ha : a = '('
      · subst ha
        have hstep : ∀ (X Y : List Char),
            (runsFrom [] X).find? invalidRun = (runsFrom [] Y).find? invalidRun →
            (runsFrom cur ('(' :: X)).find? invalidRun =
              (runsFrom cur ('(' :: Y)).find? invalidRun := by
          intro X Y hXY
          have hp : isNumberChar '(' = false := by decide
          simp only [runsFrom, hp, Bool.false_eq_true, ↓reduceIte]
          by_cases hne : cur = []
          · simpa [hne] using hXY
          · simp only [ne_eq, hne, not_false_eq_true, ↓reduceIte, find_cons_run, hXY]
        cases as with
        | nil => rfl
        | cons d ds =>
          by_cases hd : d = '-'
          · subst hd
            have hds : ds.length ≤ n := by simp at hlen; omega
            rw [replaceAll_paren_match]
            apply hstep
            have h0 : runsFrom [] ('0' :: '-' :: ReplaceAll ds ['(', '-'] ['(', '0', '-']) =
                ['0'] :: runsFrom [] (ReplaceAll ds ['(', '-'] ['(', '0', '-']) := by
              simp [runsFrom, isNumberChar, isDigit]
            have h1 : invalidRun ['0'] = false := by decide
            rw [h0, find_cons_run, h1, runsFrom_symbol '-' (by decide)]
            simpa using ih ds hds []
          · rw [replaceAll_paren_open _ (by simp [hd])]
            apply hstep
            exact ih (d :: ds) hlen []
      · rw [replaceAll_paren_other _ _ ha]
        simp only [runsFrom]
        by_cases hc : isNumberChar a = true
        · simp only [hc, ↓reduceIte]
          exact ih as hlen _
        · simp only [hc, Bool.false_eq_true, ↓reduceIte]
          by_cases hne : cur = []
          · simpa [hne] using ih as hlen []
          · simp only [ne_eq, hne, not_false_eq_true, ↓reduceIte, find_cons_run, ih as hlen []]

theorem find_maximalRuns_rewriteExpr (expr : List Char) :
    (maximalRuns (rewriteExpr expr)).find? invalidRun =
      (maximalRuns expr).find? invalidRun := by
  rw [maximalRuns_eq, maximalRuns_eq]
  unfold rewriteExpr
  rw [find_runsFrom_replaceAll _ _ (Nat.le_refl _)]
  split
  · rename_i h
    cases expr with
    | nil => simp at h
    | cons c cs =>
      simp only [List.head?_cons, Option.some.injEq] at h
      subst h
      have h0 : runsFrom [] ('0' :: '-' :: cs) = ['0'] :: runsFrom [] cs := by
        simp [runsFrom, isNumberChar, isDigit]
      have h1 : invalidRun ['0'] = false := by decide
      rw [h0, find_cons_run, h1, runsFrom_symbol '-' (by decide)]
      simp
  · rfl

theorem rewriteExpr_allowed (expr : List Char)
    (h : ∀ c ∈ expr, isNumberChar c = true ∨ isSymbol c = true) :
    ∀ c ∈ rewriteExpr expr, isNumberChar c = true ∨ isSymbol c = true := by
  intro c hc
  unfold rewriteExpr at hc
  rcases replaceAll_paren_mem_cases _ _ hc with hc | hc
  · split at hc
    · rcases List.mem_cons.mp hc with hc | hc
      · subst hc; exact Or.inl (by decide)
      · exact h c hc
    · exact h c hc
  · subst hc; exact Or.inl (by decide)

theorem parseExpression_first_invalid (expr : List Char) (hne : expr ≠ [])
    (h : ∀ c ∈ expr, isNumberChar c = true ∨ isSymbol c = true) :
    (∀ l, (maximalRuns expr).find? invalidRun = some l →
      parseExpression expr = Outcome.error (CalcError.InvalidNumber l)) ∧
    ((maximalRuns expr).find? invalidRun = none → ∃ ts, parseExpression expr = Outcome.ok ts) := by
  rw [parseExpression_rewriteExpr expr hne, ← find_maximalRuns_rewriteExpr, maximalRuns_eq]
  exact parseLoop_first_invalid _ [] [] (rewriteExpr_allowed expr h)

theorem ParseFloat_error_iff (l : List Char) (h : ∀ c ∈ l, isNumberChar c = true) :
    (ParseFloat l).2 ≠ none ↔
      (2 ≤ l.count '.' ∨ l.any isDigit = false ∨ (ParseFloat l).2 = some NumError.ErrRange) := by
  have hall : l.all (fun c => isDigit c || c == '.') = true := by
    rw [List.all_eq_true]; exact h
  unfold ParseFloat
  by_cases hd : l.any isDigit = true
  · by_cases hcnt : l.count '.' ≤ 1
    · have hcond : (l.all (fun c => isDigit c || c == '.') && l.any isDigit &&
          decide (l.count '.' ≤ 1)) = true := by simp [hall, hd, hcnt]
      simp only [hcond, ↓reduceIte]
      have h2 : ¬ 2 ≤ l.count '.' := by omega
      simp only [h2, hd, Bool.true_eq_false, false_or]
      split
      · simp
      · split <;> simp
    · have hcond : (l.all (fun c => isDigit c || c == '.') && l.any isDigit &&
          decide (l.count '.' ≤ 1)) = false := by simp [hcnt]
      simp only [hcond, Bool.false_eq_true, ↓reduceIte]
      have h2 : 2 ≤ l.count '.' := by omega
      simp [h2]
  · have hd' : l.any isDigit = false := by simpa using hd
    have hcond : (l.all (fun c => isDigit c || c == '.') && l.any isDigit &&
        decide (l.count '.' ≤ 1)) = false := by simp [hd']
    simp only [hcond, Bool.false_eq_true, ↓reduceIte]
    simp [hd']

theorem runsFrom_number_chars (s : List Char) : ∀ cur : List Char,
    (∀ c ∈ cur, isNumberChar c = true) →
    ∀ l ∈ runsFrom cur s, l ≠ [] ∧ ∀ c ∈ l, isNumberChar c = true := by
  induction s with
  | nil =>
    intro cur hcur l hl
    unfold runsFrom at hl
    split at hl
    · rename_i hne
      simp only [List.mem_singleton] at hl
      subst hl; exact ⟨hne, hcur⟩
    · simp at hl
  | cons c cs ih =>
    intro cur hcur l hl
    unfold runsFrom at hl
    split at hl
    · rename_i hc
      refine ih (cur ++ [c]) ?_ l hl
      intro x hx
      rcases List.mem_append.mp hx with hx | hx
      · exact hcur x hx
      · simp only [List.mem_singleton] at hx
        subst hx; exact hc
    · split at hl
      · rename_i hne
        rcases List.mem_cons.mp hl with hl | hl
        · subst hl; exact ⟨hne, hcur⟩
        · exact ih [] (by simp) l hl
      · exact ih [] (by simp) l hl

theorem runsFrom_all_number (l : List Char) (h : ∀ c ∈ l, isNumberChar c = true) :
    ∀ cur : List Char, cur ++ l ≠ [] → runsFrom cur l = [cur ++ l] := by
  induction l with
  | nil => intro cur hne; simp only [List.append_nil] at hne; simp [runsFrom, hne]
  | cons c cs ih =>
    intro cur _
    have hc := h c (by simp)
    simp only [runsFrom, hc, ↓reduceIte]
    rw [ih (fun x hx => h x (by simp [hx])) (cur ++ [c]) (by simp)]
    simp

theorem parseExpression_invalid_literal (l : List Char) (hl : ∀ c ∈ l, isDigit c = true)
    (hne : l ≠ []) (herr : (ParseFloat l).2 ≠ none) :
    maximalRuns l = [l] ∧ parseExpression l = Outcome.error (CalcError.InvalidNumber l) := by
  have hnum : ∀ c ∈ l, isNumberChar c = true := fun c hc => by simp [isNumberChar, hl c hc]
  have hruns : maximalRuns l = [l] := by
    rw [maximalRuns_eq, runsFrom_all_number l hnum [] (by simpa using hne)]
    rfl
  refine ⟨hruns, ?_⟩
  refine (parseExpression_first_invalid l hne (fun c hc => Or.inl (hnum c hc))).1 l ?_
  rw [hruns, find_cons_run]
  simp [invalidRun, herr]

/-! ## Lemmas: the output of the converter is a rearrangement of its input -/

theorem popToParen_split (stack : List (List Char)) : ∀ (result : List token),
    ∃ popped, stack = popped ++ (popToParen result stack).2 ∧
      (popToParen result stack).1 = result ++ popped.map (fun v => (⟨v, false⟩ : token)) ∧
      ∀ v ∈ popped, v ≠ ['('] := by
  induction stack with
  | nil => intro result; exact ⟨[], by simp [popToParen]⟩
  | cons top stack ih =>
    intro result
    unfold popToParen
    by_cases h : top = ['(']
    · rw [if_neg (by simp [h])]
      exact ⟨[], by simp⟩
    · rw [if_pos h]
      obtain ⟨popped, h1, h2, h3⟩ := ih (result ++ [⟨top, false⟩])
      refine ⟨top :: popped, ?_, ?_, ?_⟩
      · rw [List.cons_append, ← h1]
      · rw [h2]; simp
      · intro v hv
        rcases List.mem_cons.mp hv with hv | hv
        · subst hv; exact h
        · exact h3 v hv

theorem popHigher_split (value : List Char) (stack : List (List Char)) :
    ∀ (result : List token),
    ∃ popped, stack = popped ++ (popHigher value result stack).2 ∧
      (popHigher value result stack).1 =
        result ++ popped.map (fun v => (⟨v, false⟩ : token)) ∧
      ∀ v ∈ popped, v ≠ ['('] := by
  induction stack with
  | nil => intro result; exact ⟨[], by simp [popHigher]⟩
  | cons top stack ih =>
    intro result
    unfold popHigher
    split
    · rename_i h
      obtain ⟨popped, h1, h2, h3⟩ := ih (result ++ [⟨top, false⟩])
      refine ⟨top :: popped, ?_, ?_, ?_⟩
      · rw [List.cons_append, ← h1]
      · rw [h2]; simp
      · intro v hv
        rcases List.mem_cons.mp hv with hv | hv
        · subst hv; exact h.1
        · exact h3 v hv
    · exact ⟨[], by simp⟩

theorem drain_split (stack : List (List Char)) : ∀ (result post : List token),
    drain result stack = Outcome.ok post →
    post = result ++ stack.map (fun v => (⟨v, false⟩ : token)) ∧ ∀ v ∈ stack, v ≠ ['('] := by
  induction stack with
  | nil =>
    intro result post h
    simp only [drain, Outcome.ok.injEq] at h
    subst h; simp
  | cons top stack ih =>
    intro result post h
    unfold drain at h
    by_cases htop : top = ['(']
    · rw [if_pos htop] at h; exact Outcome.noConfusion h
    · rw [if_neg htop] at h
      obtain ⟨h1, h2⟩ := ih _ _ h
      refine ⟨by rw [h1]; simp, ?_⟩
      intro v hv
      rcases List.mem_cons.mp hv with hv | hv
      · subst hv; exact htop
      · exact h2 v hv

theorem filter_cons_true {α : Type} (p : α → Bool) (t : α) (ts : List α) (h : p t = true) :
    (t :: ts).filter p = t :: ts.filter p := by
  simp [List.filter_cons, h]

theorem filter_cons_false {α : Type} (p : α → Bool) (t : α) (ts : List α) (h : p t = false) :
    (t :: ts).filter p = ts.filter p := by
  simp [List.filter_cons, h]

theorem filter_ne_open_of_all (popped : List (List Char)) (h : ∀ v ∈ popped, v ≠ ['(']) :
    popped.filter (fun v => v != ['(']) = popped := by
  rw [List.filter_eq_self]
  intro v hv
  simpa using h v hv

theorem toPostfixLoop_rearranges (tokens : List token) :
    ∀ (result : List token) (stack : List (List Char)) (post : List token),
    toPostfixLoop tokens result stack = Outcome.ok post →
    (∀ a : token, post.count a =
      result.count a +
        ((stack.filter (fun v => v != ['('])).map (fun v => (⟨v, false⟩ : token))).count a +
        (tokens.filter (fun t => !t.isOpen && !t.isClose)).count a) ∧
    post.filter (fun t => t.isNumber) =
      result.filter (fun t => t.isNumber) ++ tokens.filter (fun t => t.isNumber) := by
  have hmapnum : ∀ popped : List (List Char),
      (popped.map (fun v => (⟨v, false⟩ : token))).filter (fun t => t.isNumber) = [] := by
    intro popped
    rw [List.filter_eq_nil_iff]
    intro t ht
    obtain ⟨v, _, hv⟩ := List.mem_map.mp ht
    subst hv; simp
  induction tokens with
  | nil =>
    intro result stack post h
    unfold toPostfixLoop at h
    obtain ⟨h1, h2⟩ := drain_split stack result post h
    subst h1
    rw [filter_ne_open_of_all stack h2]
    constructor
    · intro a; simp [List.count_append]
    · simp [List.filter_append, hmapnum]
  | cons t ts ih =>
    intro result stack post h
    unfold toPostfixLoop at h
    cases hn : t.isNumber with
    | true =>
      simp only [hn, ↓reduceIte] at h
      obtain ⟨h1, h2⟩ := ih _ _ _ h
      have hkeep : (!t.isOpen && !t.isClose) = true := by
        simp [token.isOpen, token.isClose, hn]
      constructor
      · intro a
        rw [h1 a, filter_cons_true (fun t => !t.isOpen && !t.isClose) t ts hkeep]
        simp only [List.count_append, List.count_cons, List.count_nil]
        omega
      · rw [h2, filter_cons_true (fun t => t.isNumber) t ts hn]
        simp [List.filter_append, hn]
    | false =>
      have ht : t = ⟨t.value, false⟩ := by
        cases t; simp only at hn; subst hn; rfl
      simp only [hn, Bool.false_eq_true, ↓reduceIte] at h
      by_cases ho : t.value = ['(']
      · simp only [ho, ↓reduceIte] at h
        obtain ⟨h1, h2⟩ := ih _ _ _ h
        have hkeep : (!t.isOpen && !t.isClose) = false := by
          simp [token.isOpen, token.isClose, hn, ho]
        constructor
        · intro a
          rw [h1 a, filter_cons_false (fun t => !t.isOpen && !t.isClose) t ts hkeep]
          simp
        · rw [h2, filter_cons_false (fun t => t.isNumber) t ts hn]
      · simp only [ho, ↓reduceIte] at h
        by_cases hc : t.value = [')']
        · simp only [hc, ↓reduceIte] at h
          have hkeep : (!t.isOpen && !t.isClose) = false := by
            simp [token.isOpen, token.isClose, hn, hc]
          obtain ⟨popped, hs1, hs2, hs3⟩ := popToParen_split stack result
          have hs := popToParen_spec stack result
          rcases hpop : popToParen result stack with ⟨r', s'⟩
          rw [hpop] at hs1 hs2 hs h
          simp only at hs1 hs2 hs h
          rcases hs with ⟨_, hnil | ⟨rest, hrest⟩⟩
          · subst hnil
            exact Outcome.noConfusion h
          · subst hrest
            simp only at h
            obtain ⟨h1, h2⟩ := ih _ _ _ h
            subst hs1 hs2
            constructor
            · intro a
              rw [h1 a, filter_cons_false (fun t => !t.isOpen && !t.isClose) t ts hkeep,
                List.filter_append, filter_ne_open_of_all popped hs3,
                filter_cons_false (fun v => v != ['(']) ['('] rest (by simp)]
              simp only [List.count_append, List.map_append]
              omega
            · rw [h2, filter_cons_false (fun t => t.isNumber) t ts hn]
              simp [List.filter_append, hmapnum]
        · simp only [hc, ↓reduceIte] at h
          have hkeep : (!t.isOpen && !t.isClose) = true := by
            simp [token.isOpen, token.isClose, hn, ho, hc]
          obtain ⟨popped, hs1, hs2, hs3⟩ := popHigher_split t.value stack result
          rcases hpop : popHigher t.value result stack with ⟨r', s'⟩
          rw [hpop] at hs1 hs2 h
          simp only at hs1 hs2 h
          obtain ⟨h1, h2⟩ := ih _ _ _ h
          subst hs1 hs2
          have hne : (t.value != ['(']) = true := by simpa using ho
          constructor
          · intro a
            rw [h1 a, filter_cons_true (fun t => !t.isOpen && !t.isClose) t ts hkeep,
              List.filter_append, filter_ne_open_of_all popped hs3,
              filter_cons_true (fun v => v != ['(']) t.value s' hne]
            simp only [List.count_append, List.map_append, List.map_cons, List.count_cons, ← ht]
            omega
          · rw [h2, filter_cons_false (fun t => t.isNumber) t ts hn]
            simp [List.filter_append, hmapnum]

theorem toPostfix_rearranges (ts post : List token) (h : toPostfix ts = Outcome.ok post) :
    post.Perm (ts.filter (fun t => !t.isOpen && !t.isClose)) ∧
    post.filter (fun t => t.isNumber) = ts.filter (fun t => t.isNumber) := by
  obtain ⟨h1, h2⟩ := toPostfixLoop_rearranges ts [] [] post h
  refine ⟨?_, by simpa using h2⟩
  rw [List.perm_iff_count]
  intro a
  simpa using h1 a

/-! ## The index and slice expressions -/

theorem index_last {α : Type} (l : List α) (x : α) :
    index (l ++ [x]) (((l ++ [x]).length : Int) - 1) = some x := by
  have h : (((l ++ [x]).length : Int) - 1) = (l.length : Int) := by
    simp
  rw [h]
  unfold index
  simp

theorem sliceTo_last {α : Type} (l : List α) (x : α) :
    sliceTo (l ++ [x]) (((l ++ [x]).length : Int) - 1) = some l := by
  have h : (((l ++ [x]).length : Int) - 1) = (l.length : Int) := by
    simp
  rw [h]
  unfold sliceTo
  simp

theorem index_last_two {α : Type} (l : List α) (a b : α) :
    index (l ++ [a] ++ [b]) (((l ++ [a] ++ [b]).length : Int) - 2) = some a := by
  have h : (((l ++ [a] ++ [b]).length : Int) - 2) = (l.length : Int) := by
    simp
  rw [h]
  unfold index
  simp [List.getElem_append_right]

theorem sliceTo_last_two {α : Type} (l : List α) (a b : α) :
    sliceTo (l ++ [a] ++ [b]) (((l ++ [a] ++ [b]).length : Int) - 2) = some l := by
  have h : (((l ++ [a] ++ [b]).length : Int) - 2) = (l.length : Int) := by
    simp
  rw [h]
  unfold sliceTo
  simp

theorem index_nat {α : Type} (l : List α) (i : Nat) (h : i < l.length) :
    index l (i : Int) = some (l.get ⟨i, h⟩) := by
  unfold index
  simp [h]

theorem popToParenIndexed_eq (st : List (List Char)) :
    ∀ result, popToParenIndexed result st.reverse =
      Outcome.ok ((popToParen result st).1, (popToParen result st).2.reverse) := by
  induction st with
  | nil =>
    intro result
    rw [popToParenIndexed]
    simp [popToParen]
  | cons top st ih =>
    intro result
    rw [popToParenIndexed, List.reverse_cons, index_last, sliceTo_last]
    simp only [List.length_append, List.length_singleton, popToParen]
    by_cases h : top = ['(']
    · simp [h]
    · simp [h, ih]

theorem popHigherIndexed_eq (value : List Char) (st : List (List Char)) :
    ∀ result, popHigherIndexed value result st.reverse =
      Outcome.ok ((popHigher value result st).1, (popHigher value result st).2.reverse) := by
  induction st with
  | nil =>
    intro result
    rw [popHigherIndexed]
    simp [popHigher]
  | cons top st ih =>
    intro result
    rw [popHigherIndexed, List.reverse_cons, index_last, sliceTo_last]
    simp only [List.length_append, List.length_singleton, popHigher]
    by_cases h1 : top = ['(']
    · simp [h1]
    · by_cases h2 : priority top ≥ priority value
      · simp [h1, h2, ih]
      · simp [h1, h2]

theorem drainIndexed_eq (st : List (List Char)) :
    ∀ result, drainIndexed result st.reverse = drain result st := by
  induction st with
  | nil =>
    intro result
    rw [drainIndexed]
    simp [drain]
  | cons top st ih =>
    intro result
    rw [drainIndexed, List.reverse_cons, index_last, sliceTo_last]
    simp only [List.length_append, List.length_singleton, drain]
    by_cases h : top = ['(']
    · simp [h]
    · simp [h, ih]

theorem toPostfixLoopIndexed_eq (tokens : List token) :
    ∀ (result : List token) (st : List (List Char)),
      toPostfixLoopIndexed tokens result st.reverse = toPostfixLoop tokens result st := by
  induction tokens with
  | nil =>
    intro result st
    simp only [toPostfixLoopIndexed, toPostfixLoop, drainIndexed_eq]
  | cons t ts ih =>
    intro result st
    unfold toPostfixLoopIndexed toPostfixLoop
    by_cases hn : t.isNumber = true
    · simp only [hn, if_true]
      exact ih _ _
    · simp only [hn, if_false]
      by_cases ho : t.value = ['(']
      · simp only [ho, if_true]
        rw [← List.reverse_cons]
        exact ih _ _
      · simp only [ho, if_false]
        by_cases hc : t.value = [')']
        · simp only [hc, if_true, popToParenIndexed_eq]
          rcases hp : popToParen result st with ⟨r, _ | ⟨top, st'⟩⟩
          · simp
          · simp only [List.reverse_cons, sliceTo_last]
            simp only [List.length_append, List.length_singleton, Nat.add_one_ne_zero,
              if_false]
            exact ih _ _
        · simp only [hc, if_false, popHigherIndexed_eq]
          rw [← List.reverse_cons]
          exact ih _ _

theorem toPostfixIndexed_eq (tokens : List token) :
    toPostfixIndexed tokens = toPostfix tokens :=
  toPostfixLoopIndexed_eq tokens [] []

theorem calculateLoopIndexed_eq (tokens : List token) :
    ∀ (st : List Float64), calculateLoopIndexed tokens st.reverse = calculateLoop tokens st := by
  induction tokens with
  | nil =>
    intro st
    match st with
    | [] => simp [calculateLoopIndexed, calculateLoop]
    | [v] => simp [calculateLoopIndexed, calculateLoop, index]
    | _ :: _ :: _ => simp [calculateLoopIndexed, calculateLoop]
  | cons t ts ih =>
    intro st
    unfold calculateLoopIndexed calculateLoop
    by_cases hn : t.isNumber = true
    · simp only [hn, if_true]
      rw [← List.reverse_cons]
      exact ih _
    · simp only [hn, if_false, Bool.false_eq_true]
      match st with
      | [] => simp
      | [_] => simp
      | b :: a :: st =>
        have hlen : ¬ ((b :: a :: st).reverse.length < 2) := by simp
        simp only [hlen, if_false]
        have hr : (b :: a :: st).reverse = st.reverse ++ [a] ++ [b] := by simp
        rw [hr, index_last, index_last_two, sliceTo_last_two]
        simp only []
        cases applyOperator t.value a b with
        | ok r =>
          simp only []
          rw [← List.reverse_cons]
          exact ih _
        | error e => rfl
        | panic => rfl

theorem calculatePostfixIndexed_eq (tokens : List token) :
    calculatePostfixIndexed tokens = calculatePostfix tokens :=
  calculateLoopIndexed_eq tokens []

theorem parseLoopIndexed_eq (expr : List Char) (n : Nat) :
    ∀ (i : Nat) (tokens : List token) (cur : List Char), expr.length - i = n →
      parseLoopIndexed expr i tokens cur = parseLoop (expr.drop i) tokens cur := by
  induction n with
  | zero =>
    intro i tokens cur hi
    have hle : expr.length ≤ i := by omega
    rw [parseLoopIndexed, List.drop_eq_nil_of_le hle]
    simp only [Nat.not_lt.mpr hle, if_false, parseLoop]
  | succ n ih =>
    intro i tokens cur hi
    have hlt : i < expr.length := by omega
    rw [parseLoopIndexed, List.drop_eq_getElem_cons hlt, index_nat expr i hlt]
    simp only [hlt, if_true, parseLoop, List.get_eq_getElem]
    rw [ih (i + 1) _ _ (by omega), ih (i + 1) _ _ (by omega), ih (i + 1) _ _ (by omega)]

theorem parseExpressionIndexed_eq (expr : List Char) :
    parseExpressionIndexed expr = parseExpression expr := by
  cases expr with
  | nil => rfl
  | cons c cs =>
    unfold parseExpressionIndexed parseExpression
    have h0 : index (c :: cs) 0 = some c := by simp [index]
    rw [h0]
    simp only [List.getElem?_cons_zero]
    exact parseLoopIndexed_eq _ _ 0 [] [] rfl

theorem CalcIndexed_eq (s : List Char) : CalcIndexed s = Calc s := by
  unfold CalcIndexed Calc
  simp only [parseExpressionIndexed_eq]
  split
  · rfl
  · cases parseExpression (ReplaceAll s [' '] []) with
    | error e => rfl
    | panic => rfl
    | ok ts =>
      simp only [toPostfixIndexed_eq]
      cases toPostfix ts with
      | error e => rfl
      | panic => rfl
      | ok post => exact calculatePostfixIndexed_eq post

/-! ## Lemmas: the evaluator for any value of `strconv.ParseFloat` -/

theorem calculateLoop_eq_with (ts : List token) : ∀ (stack : List Float64),
    calculateLoop ts stack = calculateLoopWith (fun v => (ParseFloat v).1) ts stack := by
  induction ts with
  | nil =>
    intro stack
    match stack with
    | [] => rfl
    | [_] => rfl
    | _ :: _ :: _ => rfl
  | cons t ts ih =>
    intro stack
    unfold calculateLoop calculateLoopWith
    split
    · exact ih _
    · match stack with
      | [] => rfl
      | [_] => rfl
      | b :: a :: rest =>
        simp only
        cases applyOperator t.value a b with
        | ok r => exact ih _
        | error e => rfl
        | panic => rfl

theorem calculatePostfix_eq_with (ts : List token) :
    calculatePostfix ts = calculatePostfixWith (fun v => (ParseFloat v).1) ts :=
  calculateLoop_eq_with ts []

theorem ofValue_of_isOperator (t : token) (h : t.isOperator = true) :
    ∃ op, BinOp.ofValue t.value = some op := by
  unfold BinOp.ofValue
  split_ifs with h1 h2 h3 h4
  · exact ⟨_, rfl⟩
  · exact ⟨_, rfl⟩
  · exact ⟨_, rfl⟩
  · exact ⟨_, rfl⟩
  · simp [token.isOperator, h1, h2, h3, h4] at h

theorem applyOperator_ofValue (value : List Char) (op : BinOp)
    (h : BinOp.ofValue value = some op) (a b : Float64) :
    applyOperator value a b =
      if (decide (op = BinOp.div) && b.isZero) = true then
        Outcome.error CalcError.DivisionByZero
      else Outcome.ok (op.apply a b) := by
  unfold BinOp.ofValue at h
  unfold applyOperator
  split_ifs at h with h1 h2 h3 h4
  · simp only [Option.some.injEq] at h
    subst h
    simp [h1, BinOp.apply]
  · simp only [Option.some.injEq] at h
    subst h
    simp [h1, h2, BinOp.apply]
  · simp only [Option.some.injEq] at h
    subst h
    simp [h1, h2, h3, BinOp.apply]
  · simp only [Option.some.injEq] at h
    subst h
    cases hz : b.isZero <;> simp [h1, h2, h3, h4, BinOp.apply, hz]

theorem calculateLoopWith_spec (number : List Char → Float64) (ts : List token) :
    (∀ t ∈ ts, t.isNumber = true ∨ t.isOperator = true) →
    ∀ (stack : List Float64),
      (meetsZeroDivisor number ts stack = true →
        calculateLoopWith number ts stack = Outcome.error CalcError.DivisionByZero) ∧
      (meetsZeroDivisor number ts stack = false →
        (countScan stack.length ts = some 1 →
          ∃ v, calculateLoopWith number ts stack = Outcome.ok v) ∧
        (countScan stack.length ts ≠ some 1 →
          calculateLoopWith number ts stack =
            Outcome.error CalcError.MalformedExpression)) := by
  induction ts with
  | nil =>
    intro _ stack
    match stack with
    | [] => simp [meetsZeroDivisor, calculateLoopWith, countScan]
    | [v] => simp [meetsZeroDivisor, calculateLoopWith, countScan]
    | _ :: _ :: _ => simp [meetsZeroDivisor, calculateLoopWith, countScan]
  | cons t ts ih =>
    intro hts stack
    have ih := ih (fun x hx => hts x (List.mem_cons_of_mem _ hx))
    unfold meetsZeroDivisor calculateLoopWith countScan
    cases hn : t.isNumber with
    | true =>
      simp only [↓reduceIte]
      exact ih _
    | false =>
      simp only [Bool.false_eq_true, ↓reduceIte]
      have hop : t.isOperator = true := by
        rcases hts t (List.mem_cons_self _ _) with h | h
        · rw [hn] at h
          exact Bool.noConfusion h
        · exact h
      obtain ⟨op, hop⟩ := ofValue_of_isOperator t hop
      match stack with
      | [] => simp [hop]
      | [_] => simp [hop]
      | b :: a :: rest =>
        have hlt : ¬ ((b :: a :: rest).length < 2) := by simp
        simp only [hop, hlt, ↓reduceIte, applyOperator_ofValue t.value op hop a b]
        cases hz : (decide (op = BinOp.div) && b.isZero) with
        | true => simp
        | false =>
          simp only [Bool.false_or, Bool.false_eq_true, ↓reduceIte]
          have := ih (op.apply a b :: rest)
          simpa using this

theorem calculatePostfixWith_spec (number : List Char → Float64) (ts : List token)
    (hts : ∀ t ∈ ts, t.isNumber = true ∨ t.isOperator = true) :
    (meetsZeroDivisor number ts [] = true →
      calculatePostfixWith number ts = Outcome.error CalcError.DivisionByZero) ∧
    (meetsZeroDivisor number ts [] = false →
      (CountOK ts → ∃ v, calculatePostfixWith number ts = Outcome.ok v) ∧
      (¬ CountOK ts →
        calculatePostfixWith number ts = Outcome.error CalcError.MalformedExpression)) := by
  have h := calculateLoopWith_spec number ts hts []
  refine ⟨h.1, fun hd => ⟨fun hc => ?_, fun hc => ?_⟩⟩
  · exact (h.2 hd).1 ((countScan_one_iff ts).mpr hc)
  · exact (h.2 hd).2 (fun hs => hc ((countScan_one_iff ts).mp hs))

/-! ## Lemmas: the stages of `Calc` -/

theorem toPostfix_operators (expr : List Char) (tokens post : List token)
    (hp : parseExpression expr = Outcome.ok tokens) (hq : toPostfix tokens = Outcome.ok post) :
    ∀ t ∈ post, t.isNumber = true ∨ t.isOperator = true := by
  intro t ht
  obtain ⟨hperm, _⟩ := toPostfix_rearranges tokens post hq
  obtain ⟨hts, hkeep⟩ := List.mem_filter.mp (hperm.mem_iff.mp ht)
  have hshape := parseExpression_shape expr tokens hp t hts
  cases hn : t.isNumber with
  | true => exact Or.inl rfl
  | false =>
    right
    rw [← isOther_eq_isOperator t hshape]
    simp only [Bool.and_eq_true, Bool.not_eq_true'] at hkeep
    simp [token.isOther, hn, hkeep.1, hkeep.2]

theorem Calc_of_toPostfix (s : List Char) (tokens : List token)
    (hp : parseExpression (s.filter (fun c => c != ' ')) = Outcome.ok tokens) :
    Calc s =
      match toPostfix tokens with
      | Outcome.error e => Outcome.error e
      | Outcome.panic => Outcome.panic
      | Outcome.ok post => calculatePostfix post := by
  have hne : s.filter (fun c => c != ' ') ≠ [] := by
    intro he
    rw [he] at hp
    exact Outcome.noConfusion hp
  have hlen : ¬ (s.filter (fun c => c != ' ')).length = 0 :=
    fun h0 => hne (List.length_eq_zero.mp h0)
  rw [Calc_eq, replaceAll_space_eq_filter, if_neg hlen, hp]

/-! ## Lemmas: characters and bytes -/

theorem not_allowed_of_high (c : Char) (h : 128 ≤ c.toNat) :
    isNumberChar c = false ∧ isSymbol c = false := by
  refine ⟨?_, ?_⟩
  · cases hc : isNumberChar c with
    | false => rfl
    | true =>
      exfalso
      simp only [isNumberChar, isDigit, Bool.or_eq_true, Bool.and_eq_true, decide_eq_true_eq,
        beq_iff_eq] at hc
      rcases hc with ⟨_, h2⟩ | h2
      · have : c.toNat ≤ '9'.toNat := h2
        have h9 : '9'.toNat = 57 := by decide
        omega
      · subst h2
        exact absurd h (by decide)
  · cases hc : isSymbol c with
    | false => rfl
    | true =>
      exfalso
      simp only [isSymbol, Bool.or_eq_true, beq_iff_eq] at hc
      rcases hc with ((((h2 | h2) | h2) | h2) | h2) | h2 <;> subst h2 <;>
        exact absurd h (by decide)

set_option maxRecDepth 100000 in
theorem toNat_ofNat_byte : ∀ m, m < 256 → 128 ≤ m → (Char.ofNat m).toNat = m := by
  decide

theorem toNat_lt (c : Char) : c.toNat < 0x110000 := by
  have h := c.valid
  unfold UInt32.isValidChar Nat.isValidChar at h
  unfold Char.toNat
  omega

theorem utf8_ascii (c : Char) (h : c.toNat < 128) : utf8 c = [c] := by
  unfold utf8
  rw [if_pos h]

theorem utf8_high (c : Char) (h : 128 ≤ c.toNat) :
    (∃ b rest, utf8 c = b :: rest ∧ 194 ≤ b.toNat ∧ b.toNat ≤ 244) ∧
    ∀ x ∈ utf8 c, 128 ≤ x.toNat := by
  have hlt := toNat_lt c
  unfold utf8
  have h0 : ¬ c.toNat < 0x80 := by omega
  rw [if_neg h0]
  split_ifs with h1 h2
  · refine ⟨⟨_, _, rfl, ?_, ?_⟩, ?_⟩
    · rw [toNat_ofNat_byte _ (by omega) (by omega)]; omega
    · rw [toNat_ofNat_byte _ (by omega) (by omega)]; omega
    · intro x hx
      simp only [List.mem_cons, List.mem_singleton, List.not_mem_nil, or_false] at hx
      rcases hx with hx | hx <;> subst hx <;>
        rw [toNat_ofNat_byte _ (by omega) (by omega)] <;> omega
  · refine ⟨⟨_, _, rfl, ?_, ?_⟩, ?_⟩
    · rw [toNat_ofNat_byte _ (by omega) (by omega)]; omega
    · rw [toNat_ofNat_byte _ (by omega) (by omega)]; omega
    · intro x hx
      simp only [List.mem_cons, List.mem_singleton, List.not_mem_nil, or_false] at hx
      rcases hx with hx | hx | hx <;> subst hx <;>
        rw [toNat_ofNat_byte _ (by omega) (by omega)] <;> omega
  · refine ⟨⟨_, _, rfl, ?_, ?_⟩, ?_⟩
    · rw [toNat_ofNat_byte _ (by omega) (by omega)]; omega
    · rw [toNat_ofNat_byte _ (by omega) (by omega)]; omega
    · intro x hx
      simp only [List.mem_cons, List.mem_singleton, List.not_mem_nil, or_false] at hx
      rcases hx with hx | hx | hx | hx <;> subst hx <;>
        rw [toNat_ofNat_byte _ (by omega) (by omega)] <;> omega

theorem utf8_of_allowed (c : Char) (h : isNumberChar c = true ∨ isSymbol c = true) :
    utf8 c = [c] := by
  apply utf8_ascii
  by_contra hge
  have := not_allowed_of_high c (by omega)
  rcases h with h | h
  · rw [this.1] at h
    exact Bool.noConfusion h
  · rw [this.2] at h
    exact Bool.noConfusion h

theorem utf8_of_not_allowed (c : Char) (h : isNumberChar c = false ∧ isSymbol c = false) :
    ∀ x ∈ utf8 c, isNumberChar x = false ∧ isSymbol x = false := by
  intro x hx
  by_cases hc : c.toNat < 128
  · rw [utf8_ascii c hc, List.mem_singleton] at hx
    subst hx
    exact h
  · exact not_allowed_of_high x ((utf8_high c (by omega)).2 x hx)

/-! ## The properties of the specification -/

/-- C2. Unary-minus rewrite: `Calc s` is `Calc` of the rewritten string (spaces removed,
`"0"` put in front of a leading `'-'`, every `"(-"` replaced by `"(0-"`); in particular
`Calc("-" + e) = Calc("0-" + e)` and `Calc("(-" + e + ")") = Calc("(0-" + e + ")")` for
every `e`, and `Calc("-5+2") = -3`, `Calc("(-5+2)") = -3`. -/
theorem Calc_unary_minus_rewrite :
    (∀ s : List Char, Calc s = Calc (unaryRewrite s)) ∧
    (∀ e : List Char, Calc ('-' :: e) = Calc ('0' :: '-' :: e)) ∧
    (∀ e : List Char,
      Calc ('(' :: '-' :: (e ++ [')'])) = Calc ('(' :: '0' :: '-' :: (e ++ [')']))) ∧
    Calc "-5+2".toList = Outcome.ok (Float64.fin (-3)) ∧
    Calc "(-5+2)".toList = Outcome.ok (Float64.fin (-3)) := by
  refine ⟨Calc_unaryRewrite, ?_, ?_, by decide, by decide⟩
  · intro e
    rw [Calc_unaryRewrite ('-' :: e), Calc_unaryRewrite ('0' :: '-' :: e)]
    simp [unaryRewrite, List.filter_cons]
  · intro e
    rw [Calc_unaryRewrite ('(' :: '-' :: (e ++ [')'])),
      Calc_unaryRewrite ('(' :: '0' :: '-' :: (e ++ [')']))]
    simp only [unaryRewrite, List.filter_cons]
    simp only [bne_iff_ne, ne_eq, Char.reduceEq, not_false_eq_true, decide_True,
      ite_true, List.head?_cons, Option.some.injEq, ite_false, if_true, if_false]
    rw [replaceAll_paren_match, replaceAll_paren_open _ (by simp),
      replaceAll_paren_other _ _ (by decide), replaceAll_paren_other _ _ (by decide)]

/-- C7, at its failing inputs: on the bodies `"2+a"`, `"2..3+1"` and `"2/0"`, on which
`Calc` fails with UnsupportedCharacter, InvalidNumber and DivisionByZero, the handler
answers 500 "Internal server error"; on `"2+"`, `"(2+3"` and `""` it answers 422. -/
theorem calculateHandler_status_of_validation_errors :
    Calc "2+a".toList = Outcome.error (CalcError.UnsupportedCharacter 'a') ∧
    calculateHandler "POST" (some "2+a".toList) =
      some (Response.text 500 "Internal server error") ∧
    Calc "2..3+1".toList = Outcome.error (CalcError.InvalidNumber "2..3".toList) ∧
    calculateHandler "POST" (some "2..3+1".toList) =
      some (Response.text 500 "Internal server error") ∧
    Calc "2/0".toList = Outcome.error CalcError.DivisionByZero ∧
    calculateHandler "POST" (some "2/0".toList) =
      some (Response.text 500 "Internal server error") ∧
    calculateHandler "POST" (some "2+".toList) =
      some (Response.text 422 "Expression is not valid") ∧
    calculateHandler "POST" (some "(2+3".toList) =
      some (Response.text 422 "Expression is not valid") ∧
    calculateHandler "POST" (some "".toList) =
      some (Response.text 422 "Expression is not valid") := by
  decide

/-- C8, as stated, fails: a newline put after `"2+3"` is not removed, `Calc` then fails
with UnsupportedCharacter although `Calc("2+3") = 5`, and the tab-only and newline-only
inputs fail with UnsupportedCharacter, not with EmptyExpression. -/
theorem Calc_keeps_other_whitespace :
    Calc "2+3\n".toList = Outcome.error (CalcError.UnsupportedCharacter '\n') ∧
    Calc "2+3".toList = Outcome.ok (Float64.fin 5) ∧
    Calc "\t".toList = Outcome.error (CalcError.UnsupportedCharacter '\t') ∧
    Calc "\n".toList = Outcome.error (CalcError.UnsupportedCharacter '\n') := by
  decide

/-- C8, amended. Only the space characters (U+0020) are removed before scanning:
`Calc s` is `Calc` of `s` without its spaces, and an input made of spaces only fails
with EmptyExpression; a tab, a newline or a carriage return is not removed, and an input
that contains one fails with InvalidNumber or UnsupportedCharacter. -/
theorem Calc_removes_spaces_only :
    (∀ s : List Char, Calc s = Calc (s.filter (fun c => c != ' '))) ∧
    (∀ s : List Char, (∀ c ∈ s, c = ' ') → Calc s = Outcome.error CalcError.EmptyExpression) ∧
    (∀ (s : List Char) (c : Char), c ∈ s → (c = '\t' ∨ c = '\n' ∨ c = '\r') →
      (∃ l, Calc s = Outcome.error (CalcError.InvalidNumber l)) ∨
      (∃ c', Calc s = Outcome.error (CalcError.UnsupportedCharacter c'))) := by
  refine ⟨fun s => (Calc_filter_space s).symm, Calc_of_all_spaces, ?_⟩
  intro s c hc hw
  rcases hw with h | h | h <;> subst h <;>
    exact Calc_not_ok_of_bad_char s _ hc (by decide) (by decide) (by decide)

/-- Witness of C8, amended: the spaces-only input `"   "` and the input `"2+3\r"`. -/
theorem Calc_removes_spaces_only_witness :
    (∀ c ∈ "   ".toList, c = ' ') ∧
    Calc "   ".toList = Outcome.error CalcError.EmptyExpression ∧
    '\r' ∈ "2+3\r".toList ∧
    ((∃ l, Calc "2+3\r".toList = Outcome.error (CalcError.InvalidNumber l)) ∨
      (∃ c', Calc "2+3\r".toList = Outcome.error (CalcError.UnsupportedCharacter c'))) :=
  ⟨by decide, Calc_removes_spaces_only.2.1 "   ".toList (by decide), by decide,
    Calc_removes_spaces_only.2.2 "2+3\r".toList '\r' (by decide) (Or.inr (Or.inr rfl))⟩

/-- C9. Space insensitivity: when `s'` is obtained from `s` by inserting or deleting
space characters at any positions, `Calc s'` is exactly `Calc s`, the same value or the
same error. -/
theorem Calc_space_insensitive (s s' : List Char) (h : SpaceEdit s s') : Calc s' = Calc s := by
  apply Calc_congr
  rw [replaceAll_space_eq_filter, replaceAll_space_eq_filter, spaceEdit_filter s s' h]

/-- Witness of C9: `"2 + 3"` is `"2+3"` with two spaces inserted, and both give 5. -/
theorem Calc_space_insensitive_witness :
    SpaceEdit "2+3".toList "2 + 3".toList ∧
    Calc "2 + 3".toList = Calc "2+3".toList ∧
    Calc "2+3".toList = Outcome.ok (Float64.fin 5) :=
  have h : SpaceEdit "2+3".toList "2 + 3".toList :=
    SpaceEdit.insert _ ['2', ' ', '+'] ['3']
      (SpaceEdit.insert _ ['2'] ['+', '3'] (SpaceEdit.refl _))
  ⟨h, Calc_space_insensitive _ _ h, by decide⟩

/-- C10. `Calc` fails with EmptyExpression if and only if the input consists of space
characters only (the empty string included); `""` and `"   "` do. -/
theorem Calc_empty_iff :
    (∀ s : List Char,
      Calc s = Outcome.error CalcError.EmptyExpression ↔ ∀ c ∈ s, c = ' ') ∧
    Calc "".toList = Outcome.error CalcError.EmptyExpression ∧
    Calc "   ".toList = Outcome.error CalcError.EmptyExpression :=
  ⟨fun s => ⟨all_spaces_of_Calc_empty s, Calc_of_all_spaces s⟩, by decide, by decide⟩

/-- C4. `toPostfix` succeeds on every token sequence whose parentheses are balanced, and
on every other one (some prefix with more `")"` than `"("`, or more `"("` than `")"` in
the whole sequence) it fails with UnbalancedParentheses, its only error; through `Calc`,
`"(2+3"` and `"2+3)"` fail with UnbalancedParentheses. -/
theorem toPostfix_fails_iff_unbalanced :
    (∀ ts : List token,
      toPostfix ts = Outcome.error CalcError.UnbalancedParentheses ↔ Unbalanced ts) ∧
    (∀ ts : List token, (∃ r, toPostfix ts = Outcome.ok r) ↔ ¬ Unbalanced ts) ∧
    Calc "(2+3".toList = Outcome.error CalcError.UnbalancedParentheses ∧
    Calc "2+3)".toList = Outcome.error CalcError.UnbalancedParentheses := by
  refine ⟨fun ts => ⟨?_, (toPostfix_ok_iff ts).2⟩, fun ts => ⟨?_, (toPostfix_ok_iff ts).1⟩,
    by decide, by decide⟩
  · intro h
    by_contra hb
    obtain ⟨r, hr⟩ := (toPostfix_ok_iff ts).1 hb
    rw [hr] at h
    exact Outcome.noConfusion h
  · rintro ⟨r, hr⟩ hu
    rw [(toPostfix_ok_iff ts).2 hu] at hr
    exact Outcome.noConfusion hr

/-- C5. On a postfix sequence made of number tokens and the operators `+ - * /` in which
no division meets a zero divisor, `calculatePostfix` returns a value if and only if every
operator is met with a count of at least 2 and the final count is exactly 1 (counting
`+1` for a number and `-1` for an operator); in every other case it fails with
MalformedExpression.  That a division meets a zero divisor is read off the sequence
(`meetsZeroDivisor`), and then the result is the DivisionByZero error.  The statement
holds whatever value `strconv.ParseFloat` gives to each number token (`number`), so also
for number tokens such as `"1e2"` that the tokenizer never builds; `calculatePostfix`
above is the case in which this value is that of `ParseFloat`. -/
theorem calculatePostfix_ok_iff_count (number : List Char → Float64) (ts : List token)
    (hts : ∀ t ∈ ts, t.isNumber = true ∨ t.isOperator = true) :
    (meetsZeroDivisor number ts [] = false →
      ((∃ v, calculatePostfixWith number ts = Outcome.ok v) ↔ CountOK ts) ∧
      (¬ CountOK ts →
        calculatePostfixWith number ts = Outcome.error CalcError.MalformedExpression)) ∧
    (meetsZeroDivisor number ts [] = true →
      calculatePostfixWith number ts = Outcome.error CalcError.DivisionByZero) ∧
    calculatePostfix ts = calculatePostfixWith (fun v => (ParseFloat v).1) ts := by
  obtain ⟨h1, h2⟩ := calculatePostfixWith_spec number ts hts
  refine ⟨fun hd => ⟨⟨?_, (h2 hd).1⟩, (h2 hd).2⟩, h1, calculatePostfix_eq_with ts⟩
  rintro ⟨v, hv⟩
  by_contra hc
  rw [(h2 hd).2 hc] at hv
  exact Outcome.noConfusion hv

/-- Witness of C5: the postfix sequence `2 3 +` meets the count and evaluates to 5; the
sequence `2 +`, the postfix form of `"2+"`, does not, and `Calc("2+")` fails with
MalformedExpression; in `2 0 +` no division meets the zero, and the value is 2, while
`2 0 /` fails with DivisionByZero. -/
theorem calculatePostfix_ok_iff_count_witness :
    calculatePostfix [⟨['2'], true⟩, ⟨['3'], true⟩, ⟨['+'], false⟩] =
      Outcome.ok (Float64.fin 5) ∧
    CountOK [⟨['2'], true⟩, ⟨['3'], true⟩, ⟨['+'], false⟩] ∧
    toPostfix [⟨['2'], true⟩, ⟨['+'], false⟩] = Outcome.ok [⟨['2'], true⟩, ⟨['+'], false⟩] ∧
    ¬ CountOK [⟨['2'], true⟩, ⟨['+'], false⟩] ∧
    calculatePostfixWith (fun v => (ParseFloat v).1) [⟨['2'], true⟩, ⟨['+'], false⟩] =
      Outcome.error CalcError.MalformedExpression ∧
    Calc "2+".toList = Outcome.error CalcError.MalformedExpression ∧
    calculatePostfix [⟨['2'], true⟩, ⟨['0'], true⟩, ⟨['+'], false⟩] =
      Outcome.ok (Float64.fin 2) ∧
    CountOK [⟨['2'], true⟩, ⟨['0'], true⟩, ⟨['+'], false⟩] ∧
    calculatePostfixWith (fun v => (ParseFloat v).1)
        [⟨['2'], true⟩, ⟨['0'], true⟩, ⟨['/'], false⟩] =
      Outcome.error CalcError.DivisionByZero :=
  have h1 := (calculatePostfix_ok_iff_count (fun v => (ParseFloat v).1)
    [⟨['2'], true⟩, ⟨['3'], true⟩, ⟨['+'], false⟩] (by decide)).1 (by decide)
  have h2 := (calculatePostfix_ok_iff_count (fun v => (ParseFloat v).1)
    [⟨['2'], true⟩, ⟨['+'], false⟩] (by decide)).1 (by decide)
  have h3 : ¬ CountOK [⟨['2'], true⟩, ⟨['+'], false⟩] :=
    calculatePostfix_malformed_count _ (by decide)
  have h4 := (calculatePostfix_ok_iff_count (fun v => (ParseFloat v).1)
    [⟨['2'], true⟩, ⟨['0'], true⟩, ⟨['+'], false⟩] (by decide)).1 (by decide)
  have h5 := (calculatePostfix_ok_iff_count (fun v => (ParseFloat v).1)
    [⟨['2'], true⟩, ⟨['0'], true⟩, ⟨['/'], false⟩] (by decide)).2.1 (by decide)
  ⟨by decide, h1.1.mp ⟨Float64.fin 5, by decide⟩, by decide, h3, h2.2 h3, by decide,
    by decide, h4.1.mp ⟨Float64.fin 2, by decide⟩, h5⟩

/-- C6, as stated, fails: the token sequences of `"()2"` (an empty pair of parentheses)
and of `"2(+3)"` (a number directly followed by `"("`, and an operator without its left
operand) are not valid infix expressions, yet `Calc` returns the numbers 2 and 5. -/
theorem Calc_accepts_malformed_alternation :
    parseExpression "()2".toList =
      Outcome.ok [⟨['('], false⟩, ⟨[')'], false⟩, ⟨['2'], true⟩] ∧
    validInfix [⟨['('], false⟩, ⟨[')'], false⟩, ⟨['2'], true⟩] = false ∧
    Calc "()2".toList = Outcome.ok (Float64.fin 2) ∧
    parseExpression "2(+3)".toList =
      Outcome.ok [⟨['2'], true⟩, ⟨['('], false⟩, ⟨['+'], false⟩, ⟨['3'], true⟩,
        ⟨[')'], false⟩] ∧
    validInfix [⟨['2'], true⟩, ⟨['('], false⟩, ⟨['+'], false⟩, ⟨['3'], true⟩,
        ⟨[')'], false⟩] = false ∧
    Calc "2(+3)".toList = Outcome.ok (Float64.fin 5) := by
  decide

/-- C6, amended. On an input that `parseExpression` turns into tokens, `Calc` returns a
numeric result if and only if the parentheses of the token sequence are balanced and the
postfix sequence the converter makes of it passes the checks of the evaluator: every
operator is met with a count of at least 2, the final count is exactly 1, and no division
meets a zero divisor.  In every other case `Calc` returns an error: UnbalancedParentheses
when the parentheses are not balanced; otherwise DivisionByZero when a division of the
postfix sequence meets a zero divisor, and MalformedExpression when none does and the
count fails.  A malformed alternation surfaces as an error exactly when it has one of
these effects; it always does when it leaves the parentheses unbalanced or the number
tokens not exactly one more than the operator tokens `+ - * /`. -/
theorem Calc_value_iff_stages_pass (s : List Char) (tokens : List token)
    (hp : parseExpression (s.filter (fun c => c != ' ')) = Outcome.ok tokens) :
    ((∃ v, Calc s = Outcome.ok v) ↔
      ¬ Unbalanced tokens ∧ ∃ post, toPostfix tokens = Outcome.ok post ∧ CountOK post ∧
        meetsZeroDivisor (fun v => (ParseFloat v).1) post [] = false) ∧
    ((∃ v, Calc s = Outcome.ok v) ∨ ∃ e, Calc s = Outcome.error e) ∧
    (Unbalanced tokens → Calc s = Outcome.error CalcError.UnbalancedParentheses) ∧
    (∀ post, toPostfix tokens = Outcome.ok post →
      (meetsZeroDivisor (fun v => (ParseFloat v).1) post [] = true →
        Calc s = Outcome.error CalcError.DivisionByZero) ∧
      (meetsZeroDivisor (fun v => (ParseFloat v).1) post [] = false → ¬ CountOK post →
        Calc s = Outcome.error CalcError.MalformedExpression)) ∧
    (tokens.countP (fun t => t.isNumber) ≠ tokens.countP token.isOperator + 1 →
      ∃ e, Calc s = Outcome.error e) := by
  have hcalc := Calc_of_toPostfix s tokens hp
  have hne : ReplaceAll s [' '] [] ≠ [] := by
    rw [replaceAll_space_eq_filter]
    intro he
    rw [he] at hp
    exact Outcome.noConfusion hp
  have hstage : ∀ post, toPostfix tokens = Outcome.ok post →
      Calc s = calculatePostfixWith (fun v => (ParseFloat v).1) post ∧
      (∀ t ∈ post, t.isNumber = true ∨ t.isOperator = true) := by
    intro post hq
    rw [hq] at hcalc
    exact ⟨hcalc.trans (calculatePostfix_eq_with post), toPostfix_operators _ tokens post hp hq⟩
  have hcases : (∃ v, Calc s = Outcome.ok v) ∨ ∃ e, Calc s = Outcome.error e := by
    rcases Calc_nonempty_outcome s hne with ⟨v, hv⟩ | ⟨l, hl⟩ | ⟨c, hc⟩ | h1 | h1 | h1
    · exact Or.inl ⟨v, hv⟩
    · exact Or.inr ⟨_, hl⟩
    · exact Or.inr ⟨_, hc⟩
    · exact Or.inr ⟨_, h1⟩
    · exact Or.inr ⟨_, h1⟩
    · exact Or.inr ⟨_, h1⟩
  have hunb : Unbalanced tokens →
      Calc s = Outcome.error CalcError.UnbalancedParentheses := by
    intro hu
    rw [hcalc, (toPostfix_ok_iff tokens).2 hu]
  refine ⟨⟨?_, ?_⟩, hcases, hunb, ?_, ?_⟩
  · rintro ⟨v, hv⟩
    have hbal : ¬ Unbalanced tokens := by
      intro hu
      rw [hunb hu] at hv
      exact Outcome.noConfusion hv
    obtain ⟨post, hq⟩ := (toPostfix_ok_iff tokens).1 hbal
    obtain ⟨heq, hops⟩ := hstage post hq
    obtain ⟨h1, h2⟩ := calculatePostfixWith_spec (fun v => (ParseFloat v).1) post hops
    rw [heq] at hv
    cases hd : meetsZeroDivisor (fun v => (ParseFloat v).1) post [] with
    | true =>
      rw [h1 hd] at hv
      exact Outcome.noConfusion hv
    | false =>
      refine ⟨hbal, post, hq, ?_, hd⟩
      by_contra hc
      rw [(h2 hd).2 hc] at hv
      exact Outcome.noConfusion hv
  · rintro ⟨_, post, hq, hc, hd⟩
    obtain ⟨heq, hops⟩ := hstage post hq
    rw [heq]
    exact ((calculatePostfixWith_spec _ post hops).2 hd).1 hc
  · intro post hq
    obtain ⟨heq, hops⟩ := hstage post hq
    obtain ⟨h1, h2⟩ := calculatePostfixWith_spec (fun v => (ParseFloat v).1) post hops
    rw [heq]
    exact ⟨h1, fun hd hc => (h2 hd).2 hc⟩
  · intro hcnt
    rcases hcases with ⟨v, hv⟩ | he
    · obtain ⟨tokens', htok, _, hc⟩ := Calc_ok_counts s v hv
      rw [hp] at htok
      simp only [Outcome.ok.injEq] at htok
      subst htok
      exact absurd hc hcnt
    · exact he

/-- Witness of C6, amended: the tokens of `"2(+)2"` are not a valid infix expression, their
parentheses are balanced and they hold two numbers and one operator; the converter makes
`2 + 2` of them, where `+` is met with a count of 1, and `Calc` fails with
MalformedExpression.  `"2(3)"` and `"()"` fail as well. -/
theorem Calc_value_iff_stages_pass_witness :
    parseExpression ("2(+)2".toList.filter (fun c => c != ' ')) =
      Outcome.ok [⟨['2'], true⟩, ⟨['('], false⟩, ⟨['+'], false⟩, ⟨[')'], false⟩,
        ⟨['2'], true⟩] ∧
    validInfix [⟨['2'], true⟩, ⟨['('], false⟩, ⟨['+'], false⟩, ⟨[')'], false⟩,
        ⟨['2'], true⟩] = false ∧
    toPostfix [⟨['2'], true⟩, ⟨['('], false⟩, ⟨['+'], false⟩, ⟨[')'], false⟩,
        ⟨['2'], true⟩] = Outcome.ok [⟨['2'], true⟩, ⟨['+'], false⟩, ⟨['2'], true⟩] ∧
    ¬ CountOK [⟨['2'], true⟩, ⟨['+'], false⟩, ⟨['2'], true⟩] ∧
    Calc "2(+)2".toList = Outcome.error CalcError.MalformedExpression ∧
    Calc "2(3)".toList = Outcome.error CalcError.MalformedExpression ∧
    Calc "()".toList = Outcome.error CalcError.MalformedExpression :=
  have hc : ¬ CountOK [⟨['2'], true⟩, ⟨['+'], false⟩, ⟨['2'], true⟩] :=
    calculatePostfix_malformed_count _ (by decide)
  ⟨by decide, by decide, by decide, hc,
    ((Calc_value_iff_stages_pass "2(+)2".toList
      [⟨['2'], true⟩, ⟨['('], false⟩, ⟨['+'], false⟩, ⟨[')'], false⟩, ⟨['2'], true⟩]
      (by decide)).2.2.2.1 [⟨['2'], true⟩, ⟨['+'], false⟩, ⟨['2'], true⟩] (by decide)).2
      (by decide) hc,
    by decide, by decide⟩

/-- C1, as stated, fails: the integer literal `1` followed by 400 zeros is an expression
`n0` (with `k = 0`), but its value is out of the range of `float64`,
`strconv.ParseFloat` returns `ErrRange` and `Calc` fails with InvalidNumber. -/
theorem Calc_rejects_huge_integer :
    (∀ c ∈ hugeLiteral, isDigit c = true) ∧
    ParseFloat hugeLiteral = (Float64.inf false, some NumError.ErrRange) ∧
    Calc hugeLiteral = Outcome.error (CalcError.InvalidNumber hugeLiteral) := by
  have h := Calc_invalid_first_literal hugeLiteral [] hugeLiteral_digits hugeLiteral_ne_nil
    hugeLiteral_invalid (fun c hc => Option.noConfusion hc) (fun c hc => by cases hc)
  rw [List.append_nil] at h
  exact ⟨hugeLiteral_digits, hugeLiteral_out_of_range, h⟩

/-- C1, amended. For every expression `n0 op1 n1 ... opk nk` without parentheses whose
literals are non-negative integer literals that `strconv.ParseFloat` accepts and in
which no division has a zero divisor, `Calc` returns without error the value of the
standard evaluation in `float64` arithmetic, in which `*` and `/` bind tighter than `+`
and `-` and operators of equal precedence apply from left to right. -/
theorem Calc_flat_standard (n0 : List Char) (rest : List (BinOp × List Char))
    (h0 : isIntLiteral n0 = true) (hrest : ∀ p ∈ rest, isIntLiteral p.2 = true)
    (hdiv : ∀ p ∈ rest, p.1 = BinOp.div → (ParseFloat p.2).1.isZero = false) :
    Calc (renderFlat n0 rest) = Outcome.ok (evalStandard n0 rest) :=
  Calc_renderFlat n0 rest h0 hrest hdiv

/-- Witness of C1, amended: `"2+3*4"` evaluates to 14 and `"8-3-2"` to 3. -/
theorem Calc_flat_standard_witness :
    renderFlat ['2'] [(BinOp.add, ['3']), (BinOp.mul, ['4'])] = "2+3*4".toList ∧
    evalStandard ['2'] [(BinOp.add, ['3']), (BinOp.mul, ['4'])] = Float64.fin 14 ∧
    Calc "2+3*4".toList = Outcome.ok (Float64.fin 14) ∧
    Calc (renderFlat ['8'] [(BinOp.sub, ['3']), (BinOp.sub, ['2'])]) =
      Outcome.ok (Float64.fin 3) :=
  ⟨by decide, by decide,
    Calc_flat_standard ['2'] [(BinOp.add, ['3']), (BinOp.mul, ['4'])] (by decide) (by decide)
      (by decide),
    Calc_flat_standard ['8'] [(BinOp.sub, ['3']), (BinOp.sub, ['2'])] (by decide) (by decide)
      (by decide)⟩

/-- C3, as stated, fails: in the well-formed expression made of the literal `1` followed
by 400 zeros, `/` and `0`, the division has a right operand whose value is exactly zero,
but `Calc` fails with InvalidNumber, not with DivisionByZero; and the same literal
divided by 2 has no zero divisor, yet `Calc` returns no value. -/
theorem Calc_huge_literal_division :
    (ParseFloat ['0']).1.isZero = true ∧
    Calc (hugeLiteral ++ ['/', '0']) = Outcome.error (CalcError.InvalidNumber hugeLiteral) ∧
    (ParseFloat ['2']).1.isZero = false ∧
    Calc (hugeLiteral ++ ['/', '2']) = Outcome.error (CalcError.InvalidNumber hugeLiteral) :=
  ⟨by decide,
    Calc_invalid_first_literal hugeLiteral ['/', '0'] hugeLiteral_digits hugeLiteral_ne_nil
      hugeLiteral_invalid (by decide) (by decide),
    by decide,
    Calc_invalid_first_literal hugeLiteral ['/', '2'] hugeLiteral_digits hugeLiteral_ne_nil
      hugeLiteral_invalid (by decide) (by decide)⟩

/-- C3, amended. For every well-formed infix expression whose number literals are
accepted by `strconv.ParseFloat`, `Calc` fails with DivisionByZero if and only if some
division in it has a right operand whose `float64` value is exactly zero; otherwise it
returns the value of the expression. -/
theorem Calc_division_by_zero_iff (e : Expr) (hwf : e.wellFormed = true) :
    (Calc e.render = Outcome.error CalcError.DivisionByZero ↔ e.zeroDivisor = true) ∧
    (e.zeroDivisor = false → Calc e.render = Outcome.ok e.value) := by
  have h := Calc_render e hwf
  rw [eval_eq] at h
  cases hz : e.zeroDivisor with
  | true =>
    rw [hz] at h
    simp only [↓reduceIte] at h
    exact ⟨⟨fun _ => rfl, fun _ => h⟩, fun hf => Bool.noConfusion hf⟩
  | false =>
    rw [hz] at h
    simp only [Bool.false_eq_true, ↓reduceIte] at h
    refine ⟨⟨fun hd => ?_, fun hf => Bool.noConfusion hf⟩, fun _ => h⟩
    rw [h] at hd
    exact Outcome.noConfusion hd

/-- Witness of C3, amended: `"2/0"` and `"1/(3-3)"` fail with DivisionByZero, and `"0/2"`
returns 0. -/
theorem Calc_division_by_zero_iff_witness :
    (Expr.bin BinOp.div (Expr.num ['1'])
      (Expr.paren (Expr.bin BinOp.sub (Expr.num ['3']) (Expr.num ['3'])))).render =
        "1/(3-3)".toList ∧
    Calc "1/(3-3)".toList = Outcome.error CalcError.DivisionByZero ∧
    Calc "2/0".toList = Outcome.error CalcError.DivisionByZero ∧
    Calc "0/2".toList = Outcome.ok (Float64.zero false) :=
  ⟨by decide,
    (Calc_division_by_zero_iff
      (Expr.bin BinOp.div (Expr.num ['1'])
        (Expr.paren (Expr.bin BinOp.sub (Expr.num ['3']) (Expr.num ['3']))))
      (by decide)).1.mpr (by decide),
    (Calc_division_by_zero_iff (Expr.bin BinOp.div (Expr.num ['2']) (Expr.num ['0']))
      (by decide)).1.mpr (by decide),
    (Calc_division_by_zero_iff (Expr.bin BinOp.div (Expr.num ['0']) (Expr.num ['2']))
      (by decide)).2 (by decide)⟩

/-- C13. Token invariant: on every non-empty input on which `parseExpression` succeeds,
every returned token is a number token whose value is a non-empty string of digits with
at most one decimal point that parses as a float, or a token that is not a number and
whose value is exactly one of the six symbols `+ - * / ( )`. -/
theorem parseExpression_token_invariant (expr : List Char) (ts : List token)
    (h : parseExpression expr = Outcome.ok ts) : expr ≠ [] ∧ ∀ t ∈ ts, t.valid :=
  ⟨fun e => by rw [e] at h; exact Outcome.noConfusion h, parseExpression_valid expr ts h⟩

/-- Witness of C13: the tokens of `"(-1.5+2)"`. -/
theorem parseExpression_token_invariant_witness :
    parseExpression "(-1.5+2)".toList =
      Outcome.ok [⟨['('], false⟩, ⟨['0'], true⟩, ⟨['-'], false⟩, ⟨['1', '.', '5'], true⟩,
        ⟨['+'], false⟩, ⟨['2'], true⟩, ⟨[')'], false⟩] ∧
    ∀ t ∈ [(⟨['('], false⟩ : token), ⟨['0'], true⟩, ⟨['-'], false⟩, ⟨['1', '.', '5'], true⟩,
        ⟨['+'], false⟩, ⟨['2'], true⟩, ⟨[')'], false⟩], t.valid :=
  ⟨by decide, (parseExpression_token_invariant "(-1.5+2)".toList _ (by decide)).2⟩

/-- C15. Tie-break and precedence rule of the converter: for all number tokens `a`, `b`,
`c` and all operators `o1`, `o2` among `+ - * /`, `toPostfix [a, o1, b, o2, c]` is
`[a, b, o1, c, o2]` when `priority o1 ≥ priority o2` and `[a, b, c, o2, o1]` when
`priority o1 < priority o2`, the priority of `+` and `-` being 1 and that of `*` and `/`
being 2; and `Calc("2+3*4") = 14` differs from `Calc("(2+3)*4") = 20`. -/
theorem toPostfix_tie_break :
    (∀ (a b c : List Char) (o1 o2 : BinOp),
      toPostfix [⟨a, true⟩, ⟨[o1.char], false⟩, ⟨b, true⟩, ⟨[o2.char], false⟩, ⟨c, true⟩] =
        if priority [o1.char] ≥ priority [o2.char] then
          Outcome.ok [⟨a, true⟩, ⟨b, true⟩, ⟨[o1.char], false⟩, ⟨c, true⟩, ⟨[o2.char], false⟩]
        else
          Outcome.ok [⟨a, true⟩, ⟨b, true⟩, ⟨c, true⟩, ⟨[o2.char], false⟩, ⟨[o1.char], false⟩]) ∧
    priority ['+'] = 1 ∧ priority ['-'] = 1 ∧ priority ['*'] = 2 ∧ priority ['/'] = 2 ∧
    Calc "2+3*4".toList = Outcome.ok (Float64.fin 14) ∧
    Calc "(2+3)*4".toList = Outcome.ok (Float64.fin 20) := by
  refine ⟨?_, by decide, by decide, by decide, by decide, by decide, by decide⟩
  intro a b c o1 o2
  cases o1 <;> cases o2 <;>
    simp [toPostfix, toPostfixLoop, popHigher, drain, priority, BinOp.char]

/-- C19. Operand-count invariant: on every input on which `Calc` returns a value, the
token sequence produced by `parseExpression` (from the input without its spaces) has
exactly one more number token than operator tokens `+ - * /`, and its parentheses are
balanced. -/
theorem Calc_ok_operand_count (s : List Char) (v : Float64) (h : Calc s = Outcome.ok v) :
    ∃ tokens, parseExpression (s.filter (fun c => c != ' ')) = Outcome.ok tokens ∧
      tokens.countP (fun t => t.isNumber) = tokens.countP token.isOperator + 1 ∧
      ¬ Unbalanced tokens := by
  obtain ⟨tokens, h1, h2, h3⟩ := Calc_ok_counts s v h
  exact ⟨tokens, h1, h3, h2⟩

/-- Witness of C19: `"(2 + 3) * 4"` evaluates to 20; its tokens hold three numbers and two
operators. -/
theorem Calc_ok_operand_count_witness :
    Calc "(2 + 3) * 4".toList = Outcome.ok (Float64.fin 20) ∧
    ∃ tokens, parseExpression ("(2 + 3) * 4".toList.filter (fun c => c != ' ')) =
        Outcome.ok tokens ∧
      tokens.countP (fun t => t.isNumber) = tokens.countP token.isOperator + 1 ∧
      ¬ Unbalanced tokens :=
  ⟨by decide, Calc_ok_operand_count "(2 + 3) * 4".toList (Float64.fin 20) (by decide)⟩

/-- C16. A unary minus directly after a binary operator is not handled: for all valid
number literals `a` and `b` and every operator `op` among `+ - * /`, `Calc` of the text
`a op - b` fails with MalformedExpression and returns no numeric result. -/
theorem Calc_minus_after_operator (a b : List Char) (op : BinOp)
    (ha : isLiteral a = true) (hb : isLiteral b = true) :
    Calc (a ++ op.char :: '-' :: b) = Outcome.error CalcError.MalformedExpression :=
  Calc_operator_minus a b op ha hb

/-- Witness of C16: `"2*-3"` fails with MalformedExpression. -/
theorem Calc_minus_after_operator_witness :
    ['2'] ++ BinOp.mul.char :: '-' :: ['3'] = "2*-3".toList ∧
    Calc "2*-3".toList = Outcome.error CalcError.MalformedExpression :=
  ⟨by decide, Calc_minus_after_operator ['2'] ['3'] BinOp.mul (by decide) (by decide)⟩

/-- C14. For every well-formed infix expression (number literals, `+ - * /`, balanced
parentheses, a unary minus only at the start or directly after `"("`), `toPostfix` of its
tokens is the post-order traversal of its syntax tree, and, when no divisor is zero,
`calculatePostfix` of that traversal returns the value of the tree. -/
theorem toPostfix_postorder (e : Expr) (h : e.wellNested = true) :
    toPostfix e.tokens = Outcome.ok e.postorder ∧
    (e.zeroDivisor = false → calculatePostfix e.postorder = Outcome.ok e.value) := by
  refine ⟨toPostfix_nested e h, fun hz => ?_⟩
  rw [calculatePostfix_postorder, eval_eq, hz]
  rfl

/-- Witness of C14: `"(2+3)*4"`, whose tokens `parseExpression` returns, has the
post-order traversal `2 3 + 4 *` and the value 20; `"8-3-2"` has the value 3. -/
theorem toPostfix_postorder_witness :
    (Expr.bin BinOp.mul (Expr.paren (Expr.bin BinOp.add (Expr.num ['2']) (Expr.num ['3'])))
      (Expr.num ['4'])).render = "(2+3)*4".toList ∧
    parseExpression "(2+3)*4".toList =
      Outcome.ok (Expr.bin BinOp.mul
        (Expr.paren (Expr.bin BinOp.add (Expr.num ['2']) (Expr.num ['3'])))
        (Expr.num ['4'])).tokens ∧
    toPostfix (Expr.bin BinOp.mul
        (Expr.paren (Expr.bin BinOp.add (Expr.num ['2']) (Expr.num ['3'])))
        (Expr.num ['4'])).tokens =
      Outcome.ok [⟨['2'], true⟩, ⟨['3'], true⟩, ⟨['+'], false⟩, ⟨['4'], true⟩,
        ⟨['*'], false⟩] ∧
    calculatePostfix [⟨['2'], true⟩, ⟨['3'], true⟩, ⟨['+'], false⟩, ⟨['4'], true⟩,
        ⟨['*'], false⟩] = Outcome.ok (Float64.fin 20) ∧
    Calc "(2+3)*4".toList = Outcome.ok (Float64.fin 20) ∧
    Calc "8-3-2".toList = Outcome.ok (Float64.fin 3) :=
  have h := toPostfix_postorder
    (Expr.bin BinOp.mul (Expr.paren (Expr.bin BinOp.add (Expr.num ['2']) (Expr.num ['3'])))
      (Expr.num ['4'])) (by decide)
  ⟨by decide, by decide, h.1, h.2 (by decide), by decide, by decide⟩

/-- C11, as stated, fails: `parseExpression` reads a Go string byte by byte, and the
error names the byte it stops at, not the character.  The text `"2+я"` is the Go string
of the bytes `2`, `+`, 0xD1, 0x8F; its only character outside `[0-9.+-*/()]` is `я`, and
`parseExpression`, hence `Calc`, fails with UnsupportedCharacter naming `Ñ` (U+00D1, the
character `string(char)` makes of the byte 0xD1), with the message
`"неподдерживаемый символ: Ñ"`. -/
theorem parseExpression_names_lead_byte :
    goBytes "2+я".toList = ['2', '+', Char.ofNat 0xD1, Char.ofNat 0x8F] ∧
    Char.ofNat 0xD1 = 'Ñ' ∧
    unaryRewrite (goBytes "2+я".toList) = ['2', '+'] ++ 'Ñ' :: [Char.ofNat 0x8F] ∧
    parseExpression (goBytes "2+я".toList) =
      Outcome.error (CalcError.UnsupportedCharacter 'Ñ') ∧
    Calc (goBytes "2+я".toList) = Outcome.error (CalcError.UnsupportedCharacter 'Ñ') ∧
    (CalcError.UnsupportedCharacter 'Ñ').Error = "неподдерживаемый символ: Ñ" ∧
    CalcError.UnsupportedCharacter 'Ñ' ≠ CalcError.UnsupportedCharacter 'я' := by
  decide

/-- C11, amended. When the rewritten form of an expression (spaces removed, unary minus
rewritten) is `pre ++ b :: post`, `b` being its first byte outside `[0-9.+-*/()]`,
`parseExpression`, hence `Calc`, fails; and when every numeric literal of `pre` that is
closed by an operator or a parenthesis is valid, the error is UnsupportedCharacter naming
`b`, with the message `"неподдерживаемый символ: "` followed by the character whose code
point is the value of `b`, whatever `post` is.  When `b` starts the encoding of a
character `c`, the error names `c` itself if `c` is an ASCII character, and otherwise the
lead byte of `c`, a value from 0xC2 to 0xF4.  A character of `[0-9.+-*/()]` is a single
byte, and no byte of a character outside this set is in the set, so the first byte
outside the set starts the first character outside it. -/
theorem parseExpression_first_unsupported (s pre post : List Char) (b : Char)
    (hsplit : unaryRewrite s = pre ++ b :: post)
    (hpre : ∀ x ∈ pre, isNumberChar x = true ∨ isSymbol x = true)
    (hb : isNumberChar b = false ∧ isSymbol b = false) :
    (∃ e, parseExpression (s.filter (fun c => c != ' ')) = Outcome.error e ∧
      Calc s = Outcome.error e) ∧
    ((∀ l, ClosedRun l pre → (ParseFloat l).2 = none) →
      parseExpression (s.filter (fun c => c != ' ')) =
        Outcome.error (CalcError.UnsupportedCharacter b) ∧
      Calc s = Outcome.error (CalcError.UnsupportedCharacter b) ∧
      (CalcError.UnsupportedCharacter b).Error =
        "неподдерживаемый символ: " ++ String.singleton b) ∧
    (∀ c tail, b :: post = utf8 c ++ tail →
      (c.toNat < 128 → b = c) ∧ (128 ≤ c.toNat → 0xC2 ≤ b.toNat ∧ b.toNat ≤ 0xF4)) ∧
    (∀ c, isNumberChar c = true ∨ isSymbol c = true → utf8 c = [c]) ∧
    (∀ c, isNumberChar c = false ∧ isSymbol c = false →
      ∀ x ∈ utf8 c, isNumberChar x = false ∧ isSymbol x = false) := by
  have hmem : b ∈ unaryRewrite s := by rw [hsplit]; simp
  have hc0 : b ≠ '0' := by
    intro e; subst e; exact absurd hb.1 (by decide)
  have hne : s.filter (fun c => c != ' ') ≠ [] :=
    List.ne_nil_of_mem (mem_filter_of_mem_unaryRewrite s b hmem hc0)
  have hparse := parseExpression_filter_eq s hne
  refine ⟨?_, ?_, ?_, utf8_of_allowed, utf8_of_not_allowed⟩
  · have hnot : ∀ ts, parseLoop (unaryRewrite s) [] [] ≠ Outcome.ok ts :=
      parseLoop_not_ok _ b hmem hb.1 hb.2 [] []
    rcases parseLoop_outcome (unaryRewrite s) [] [] with ⟨ts, hts⟩ | ⟨l, hl⟩ | ⟨c', hc'⟩
    · exact absurd hts (hnot ts)
    · exact ⟨_, by rw [hparse, hl], Calc_of_parse_error s _ (by rw [hparse, hl])⟩
    · exact ⟨_, by rw [hparse, hc'], Calc_of_parse_error s _ (by rw [hparse, hc'])⟩
  · intro hvalid
    have h := parseLoop_unsupported b post hb pre [] [] [] (by simp) hpre
      (by simpa using hvalid) (by simp)
    rw [← hsplit] at h
    exact ⟨by rw [hparse, h], Calc_of_parse_error s _ (by rw [hparse, h]), rfl⟩
  · intro c tail henc
    constructor
    · intro hlt
      rw [utf8_ascii c hlt] at henc
      exact (List.cons.inj henc).1
    · intro hge
      obtain ⟨b', rest, hb', h1, h2⟩ := (utf8_high c hge).1
      rw [hb'] at henc
      rw [(List.cons.inj henc).1]
      exact ⟨h1, h2⟩

/-- Witness of C11, amended: in `"2+a"` the first unsupported byte is `a`, the literal
`2` closed by `+` is valid, and `Calc` fails with UnsupportedCharacter naming `a`. -/
theorem parseExpression_first_unsupported_witness :
    unaryRewrite "2+a".toList = ['2', '+'] ++ 'a' :: [] ∧
    Calc "2+a".toList = Outcome.error (CalcError.UnsupportedCharacter 'a') ∧
    Calc "2..3a+".toList = Outcome.error (CalcError.UnsupportedCharacter 'a') :=
  ⟨by decide,
    ((parseExpression_first_unsupported "2+a".toList ['2', '+'] [] 'a' (by decide)
      (by decide) (by decide)).2.1 (by
        intro l hl
        obtain ⟨_, hnum, a, y, b, hsplit, _, _⟩ := hl
        have hmem : ∀ x ∈ l, x ∈ ['2', '+'] := by
          intro x hx; rw [hsplit]; simp [hx]
        have hl2 : ∀ x ∈ l, x = '2' := by
          intro x hx
          have h1 := hmem x hx
          have h2 := hnum x hx
          simp only [List.mem_cons, List.mem_singleton, List.not_mem_nil, or_false] at h1
          rcases h1 with h1 | h1
          · exact h1
          · subst h1; exact absurd h2 (by decide)
        have hlen : l.length ≤ 2 := by
          have := congrArg List.length hsplit
          simp at this
          omega
        match l, hl2, hlen with
        | [], _, _ => contradiction
        | [x], h, _ => rw [h x (by simp)]; decide
        | [x, y'], h, _ =>
          have := congrArg List.length hsplit
          simp at this
          omega)).2.1,
    by decide⟩

/-- C20. Tokenizer losslessness: when `parseExpression` succeeds on a string, the values
of the returned tokens, concatenated in order, give exactly the rewritten string (`"0"`
put in front of a leading `'-'`, every `"(-"` replaced by `"(0-"`), the values of the
number tokens are, in order, the maximal runs of digit and `'.'` characters of that
string, and the value of every other token is a single symbol character. -/
theorem parseExpression_lossless (expr : List Char) (ts : List token)
    (h : parseExpression expr = Outcome.ok ts) :
    (ts.map token.value).flatten = rewriteExpr expr ∧
    (ts.filter (fun t => t.isNumber)).map token.value = maximalRuns (rewriteExpr expr) ∧
    (∀ t ∈ ts, t.isNumber = false → ∃ c, isSymbol c = true ∧ t.value = [c]) := by
  obtain ⟨h1, h2⟩ := parseExpression_lossless_aux expr ts h
  refine ⟨h1, h2, ?_⟩
  intro t ht hn
  rcases parseExpression_shape expr ts h t ht with h3 | ⟨_, h3⟩
  · rw [hn] at h3; exact Bool.noConfusion h3
  · exact h3

/-- Witness of C20: the tokens of `"-12.5*(-3)"` spell `"0-12.5*(0-3)"`. -/
theorem parseExpression_lossless_witness :
    parseExpression "-12.5*(-3)".toList =
      Outcome.ok [⟨['0'], true⟩, ⟨['-'], false⟩, ⟨['1', '2', '.', '5'], true⟩, ⟨['*'], false⟩,
        ⟨['('], false⟩, ⟨['0'], true⟩, ⟨['-'], false⟩, ⟨['3'], true⟩, ⟨[')'], false⟩] ∧
    rewriteExpr "-12.5*(-3)".toList = "0-12.5*(0-3)".toList ∧
    maximalRuns "0-12.5*(0-3)".toList = [['0'], ['1', '2', '.', '5'], ['0'], ['3']] ∧
    (([⟨['0'], true⟩, ⟨['-'], false⟩, ⟨['1', '2', '.', '5'], true⟩, ⟨['*'], false⟩,
        ⟨['('], false⟩, ⟨['0'], true⟩, ⟨['-'], false⟩, ⟨['3'], true⟩,
        ⟨[')'], false⟩] : List token).map token.value).flatten =
      rewriteExpr "-12.5*(-3)".toList :=
  ⟨by decide, by decide, by decide,
    (parseExpression_lossless "-12.5*(-3)".toList _ (by decide)).1⟩

/-- C12, as stated, fails: the literal `1` followed by 400 zeros is a maximal run with a
digit and without `'.'`, yet it does not parse as a float (its value is out of range)
and `parseExpression` fails with InvalidNumber naming it; and on the empty string, which
has no run at all, `parseExpression` does not succeed either, it panics at `expr[0]`. -/
theorem parseExpression_rejects_huge_literal :
    maximalRuns hugeLiteral = [hugeLiteral] ∧
    hugeLiteral.count '.' = 0 ∧ hugeLiteral.any isDigit = true ∧
    parseExpression hugeLiteral = Outcome.error (CalcError.InvalidNumber hugeLiteral) ∧
    maximalRuns [] = [] ∧ parseExpression [] = Outcome.panic := by
  obtain ⟨h1, h2⟩ := parseExpression_invalid_literal hugeLiteral hugeLiteral_digits
    hugeLiteral_ne_nil hugeLiteral_invalid
  refine ⟨h1, ?_, ?_, h2, by decide, rfl⟩
  · rw [List.count_eq_zero]
    intro hmem
    exact absurd (hugeLiteral_digits '.' hmem) (by decide)
  · rw [List.any_eq_true]
    exact ⟨'1', List.mem_cons_self _ _, by decide⟩

/-- C12, amended. For every non-empty expression made only of characters in
`[0-9.+-*/()]`, `parseExpression` fails if and only if some maximal run of digit and
`'.'` characters does not parse as a float, and then with InvalidNumber naming the
leftmost such run; a run does not parse as a float exactly when it has two or more
`'.'`, has no digit, or has a value out of the range of `float64`. -/
theorem parseExpression_invalid_number_iff (expr : List Char) (hne : expr ≠ [])
    (h : ∀ c ∈ expr, isNumberChar c = true ∨ isSymbol c = true) :
    (∀ l, (maximalRuns expr).find? invalidRun = some l →
      parseExpression expr = Outcome.error (CalcError.InvalidNumber l) ∧
      (CalcError.InvalidNumber l).Error = "некорректное число: " ++ String.mk l) ∧
    ((maximalRuns expr).find? invalidRun = none → ∃ ts, parseExpression expr = Outcome.ok ts) ∧
    (∀ l ∈ maximalRuns expr,
      invalidRun l = true ↔
        (2 ≤ l.count '.' ∨ l.any isDigit = false ∨
          (ParseFloat l).2 = some NumError.ErrRange)) := by
  obtain ⟨h1, h2⟩ := parseExpression_first_invalid expr hne h
  refine ⟨fun l hl => ⟨h1 l hl, rfl⟩, h2, ?_⟩
  intro l hl
  rw [maximalRuns_eq] at hl
  have hnum := (runsFrom_number_chars expr [] (by simp) l hl).2
  rw [← ParseFloat_error_iff l hnum]
  simp [invalidRun]

/-- Witness of C12, amended: in `"2..3+1"` the leftmost run that does not parse is `2..3`
and `parseExpression` fails with InvalidNumber naming it; `"2.5+1"` has no such run. -/
theorem parseExpression_invalid_number_iff_witness :
    (maximalRuns "2..3+1".toList).find? invalidRun = some "2..3".toList ∧
    parseExpression "2..3+1".toList =
      Outcome.error (CalcError.InvalidNumber "2..3".toList) ∧
    (maximalRuns "2.5+1".toList).find? invalidRun = none ∧
    (∃ ts, parseExpression "2.5+1".toList = Outcome.ok ts) ∧
    Calc "2..3+1".toList = Outcome.error (CalcError.InvalidNumber "2..3".toList) :=
  ⟨by decide,
    ((parseExpression_invalid_number_iff "2..3+1".toList (by decide) (by decide)).1
      "2..3".toList (by decide)).1,
    by decide,
    (parseExpression_invalid_number_iff "2.5+1".toList (by decide) (by decide)).2.1
      (by decide),
    by decide⟩

/-- C18. When `toPostfix` succeeds, its output contains no `"("` or `")"` token, is a
permutation of the input tokens that are not parentheses (so its length is the length of
the input minus the number of parentheses), and holds the number tokens in the order of
the input; and on the tokens of the tokenizer every token of the output that is not a
number is one of the operators `+ - * /`, and no token of the output at all has the
value `"("` or `")"`.  (A `"("` or `")"` token is a token that is not a number and has that
value: the converter does not look at the value of a number token.) -/
theorem toPostfix_output (ts post : List token) (h : toPostfix ts = Outcome.ok post) :
    (∀ t ∈ post, t.isOpen = false ∧ t.isClose = false) ∧
    post.Perm (ts.filter (fun t => !t.isOpen && !t.isClose)) ∧
    post.length + ts.countP (fun t => t.isOpen || t.isClose) = ts.length ∧
    post.filter (fun t => t.isNumber) = ts.filter (fun t => t.isNumber) ∧
    (∀ expr, parseExpression expr = Outcome.ok ts →
      ∀ t ∈ post, (t.isNumber = false → t.isOperator = true) ∧
        t.value ≠ ['('] ∧ t.value ≠ [')']) := by
  obtain ⟨hperm, hnum⟩ := toPostfix_rearranges ts post h
  have hmem : ∀ t ∈ post, t ∈ ts ∧ (!t.isOpen && !t.isClose) = true := by
    intro t ht
    exact List.mem_filter.mp (hperm.mem_iff.mp ht)
  refine ⟨?_, hperm, ?_, hnum, ?_⟩
  · intro t ht
    simpa using (hmem t ht).2
  · have h1 := hperm.length_eq
    have h2 := List.length_eq_countP_add_countP (fun t : token => !t.isOpen && !t.isClose) ts
    have h3 : ts.countP (fun t => t.isOpen || t.isClose) =
        ts.countP (fun t => ¬ (!t.isOpen && !t.isClose) = true) := by
      apply List.countP_congr
      intro t _
      cases t.isOpen <;> cases t.isClose <;> simp
    rw [List.countP_eq_length_filter] at h2
    rw [h1, h3, h2]
  · intro expr hexpr t ht
    obtain ⟨hts, hkeep⟩ := hmem t ht
    simp only [Bool.and_eq_true, Bool.not_eq_true'] at hkeep
    refine ⟨?_, ?_⟩
    · intro hn
      have hshape := parseExpression_shape expr ts hexpr t hts
      rw [← isOther_eq_isOperator t hshape]
      simp [token.isOther, hn, hkeep.1, hkeep.2]
    · rcases parseExpression_valid expr ts hexpr t hts with ⟨_, _, hchars, _⟩ | ⟨hn, _⟩
      · constructor
        · intro hv
          rcases hchars '(' (by rw [hv]; exact List.mem_singleton_self _) with hd | hd
          · exact absurd hd (by decide)
          · exact absurd hd (by decide)
        · intro hv
          rcases hchars ')' (by rw [hv]; exact List.mem_singleton_self _) with hd | hd
          · exact absurd hd (by decide)
          · exact absurd hd (by decide)
      · have ho := hkeep.1
        have hc := hkeep.2
        simp only [token.isOpen, token.isClose, hn, Bool.not_false, Bool.true_and,
          decide_eq_false_iff_not] at ho hc
        exact ⟨ho, hc⟩

/-- Witness of C18: the converter turns the tokens of `"(2+3)*4"` into `2 3 + 4 *`. -/
theorem toPostfix_output_witness :
    parseExpression "(2+3)*4".toList =
      Outcome.ok [⟨['('], false⟩, ⟨['2'], true⟩, ⟨['+'], false⟩, ⟨['3'], true⟩,
        ⟨[')'], false⟩, ⟨['*'], false⟩, ⟨['4'], true⟩] ∧
    toPostfix [⟨['('], false⟩, ⟨['2'], true⟩, ⟨['+'], false⟩, ⟨['3'], true⟩,
        ⟨[')'], false⟩, ⟨['*'], false⟩, ⟨['4'], true⟩] =
      Outcome.ok [⟨['2'], true⟩, ⟨['3'], true⟩, ⟨['+'], false⟩, ⟨['4'], true⟩,
        ⟨['*'], false⟩] ∧
    ([⟨['2'], true⟩, ⟨['3'], true⟩, ⟨['+'], false⟩, ⟨['4'], true⟩,
        ⟨['*'], false⟩] : List token).Perm
      [⟨['2'], true⟩, ⟨['+'], false⟩, ⟨['3'], true⟩, ⟨['*'], false⟩, ⟨['4'], true⟩] :=
  ⟨by decide, by decide,
    (toPostfix_output
      [⟨['('], false⟩, ⟨['2'], true⟩, ⟨['+'], false⟩, ⟨['3'], true⟩, ⟨[')'], false⟩,
        ⟨['*'], false⟩, ⟨['4'], true⟩]
      [⟨['2'], true⟩, ⟨['3'], true⟩, ⟨['+'], false⟩, ⟨['4'], true⟩, ⟨['*'], false⟩]
      (by decide)).2.1⟩

/-- C17. `Calc` is total and none of its index or slice expressions is out of range.
`CalcIndexed` is `Calc` with every `expr[i]`, `stack[len(stack)-1]`, `stack[len(stack)-2]`,
`stack[0]` and `stack[:n]` evaluated by `index` and `sliceTo`, where an index out of range
gives `Outcome.panic` and nothing else does.  On every input string it returns what `Calc`
returns, which is a value or an error and never a panic; `toPostfix` and `calculatePostfix`
do not panic on any token list, and `parseExpression` does not panic on a non-empty string.
On the empty string `expr[0]` in `parseExpression` is out of range, and `Calc` never
reaches it there: when nothing is left after the removal of the spaces, the guard
`len(expression) == 0` returns the EmptyExpression error. -/
theorem Calc_never_panics (s : List Char) :
    CalcIndexed s = Calc s ∧
    ((∃ v, CalcIndexed s = Outcome.ok v) ∨ (∃ e, CalcIndexed s = Outcome.error e)) ∧
    CalcIndexed s ≠ Outcome.panic ∧
    (∀ c cs, parseExpressionIndexed (c :: cs) ≠ Outcome.panic) ∧
    (∀ ts, toPostfixIndexed ts ≠ Outcome.panic) ∧
    (∀ ts, calculatePostfixIndexed ts ≠ Outcome.panic) ∧
    index ([] : List Char) 0 = none ∧
    parseExpressionIndexed [] = Outcome.panic ∧
    (∀ n, CalcIndexed (List.replicate n ' ') = Outcome.error CalcError.EmptyExpression) := by
  have hcases : (∃ v, Calc s = Outcome.ok v) ∨ (∃ e, Calc s = Outcome.error e) := by
    by_cases h : ReplaceAll s [' '] [] = []
    · refine Or.inr ⟨CalcError.EmptyExpression, ?_⟩
      rw [Calc_eq, h]
      rfl
    · rcases Calc_nonempty_outcome s h with ⟨v, hv⟩ | ⟨l, hl⟩ | ⟨c, hc⟩ | hu | hm | hd
      · exact Or.inl ⟨v, hv⟩
      · exact Or.inr ⟨_, hl⟩
      · exact Or.inr ⟨_, hc⟩
      · exact Or.inr ⟨_, hu⟩
      · exact Or.inr ⟨_, hm⟩
      · exact Or.inr ⟨_, hd⟩
  refine ⟨CalcIndexed_eq s, ?_, ?_, ?_, ?_, ?_, rfl, rfl, ?_⟩
  · rw [CalcIndexed_eq]
    exact hcases
  · rw [CalcIndexed_eq]
    rcases hcases with ⟨v, hv⟩ | ⟨e, he⟩
    · rw [hv]
      exact fun h => Outcome.noConfusion h
    · rw [he]
      exact fun h => Outcome.noConfusion h
  · intro c cs
    rw [parseExpressionIndexed_eq]
    rcases parseExpression_outcome (c :: cs) (List.cons_ne_nil c cs) with
      ⟨ts, h⟩ | ⟨l, h⟩ | ⟨d, h⟩
    all_goals
      rw [h]
      exact fun h => Outcome.noConfusion h
  · intro ts
    rw [toPostfixIndexed_eq]
    rcases toPostfixLoop_outcome ts [] [] with ⟨r, h⟩ | h
    all_goals
      unfold toPostfix
      rw [h]
      exact fun h => Outcome.noConfusion h
  · intro ts
    rw [calculatePostfixIndexed_eq]
    rcases calculateLoop_outcome ts [] with ⟨v, h⟩ | h | h
    all_goals
      unfold calculatePostfix
      rw [h]
      exact fun h => Outcome.noConfusion h
  · intro n
    rw [CalcIndexed_eq, Calc_eq, replaceAll_space_eq_filter]
    have hnil : (List.replicate n ' ').filter (fun c => c != ' ') = [] := by
      rw [List.filter_eq_nil_iff]
      intro a ha
      rw [List.eq_of_mem_replicate ha]
      decide
    rw [hnil]
    rfl

end Calculator
